import Mathlib

/-!
# Verification of the Anchor code-graph subsystem

A shallow embedding, in Lean 4, of the parts of the Anchor repository that
the specification claims talk about:

* the code graph engine and its mutation operations
  (`src/graph/engine.rs`, `src/graph/mutation.rs`),
* the public read operations (`src/graph/query.rs`),
* URL normalization for cross-language API linking
  (`src/parser/queries/api.rs`, `src/graph/mutation.rs`),
* the dependency-aware lock manager (`src/lock/manager.rs`),
* line-range file rewriting (`src/write.rs`),
* graph-sliced code rendering (`src/query/slice.rs`).

Rust strings are embedded as `List Char` (named `Str`), file paths as
strings, `HashMap`s as association lists whose `insert` replaces the value
of an existing key in place and appends new keys (iteration order of a Rust
`HashMap` is unspecified; the association-list order is a deterministic
stand-in), and petgraph's directed graph as a list of nodes (the position
is the `NodeIndex`; petgraph never reuses or compacts node indices here)
plus a list of edges.  File-system access and wall-clock time are outside
the embedding: `replace_range` is modelled as its pure core acting on the
file content, and the lock manager's condition-variable wait is modelled by
the sequence of lock-table states the waiter observes at its wakeups.
-/

namespace Anchor

/-- Rust `String` / `&str`, embedded as a list of characters. -/
abbrev Str := List Char

/-- Shorthand for embedding a Lean string literal. -/
def str (s : String) : Str := s.data

/-- Modelled from the spec (§3 NodeKind; `src/graph/types.rs` is not in the
source tree): the closed set of node kinds. -/
inductive NodeKind where
  | File | Function | Method | Class | Struct | Enum | Trait | Interface
  | Impl | Module | Import | Constant | Type | Variable
deriving DecidableEq, Repr

/-- Modelled from the spec (§3 EdgeKind; `src/graph/types.rs` is not in the
source tree): the closed set of edge kinds. -/
inductive EdgeKind where
  | Defines | Imports | Calls | Contains | ApiCall
deriving DecidableEq, Repr

/-- Modelled from the spec (§3 Entities table; `src/graph/types.rs` is not
in the source tree): the payload of a graph node.  The node id is the
position in the graph's node list. -/
structure NodeData where
  name : Str
  kind : NodeKind
  file_path : Str
  line_start : Nat
  line_end : Nat
  code_snippet : Str
  features : List Str
  call_lines : List Nat
  removed : Bool
deriving DecidableEq, Repr

/-- A File node as created by `NodeData::new_file`. -/
def NodeData.new_file (path : Str) : NodeData :=
  { name := path, kind := .File, file_path := path, line_start := 0,
    line_end := 0, code_snippet := [], features := [], call_lines := [],
    removed := false }

/-- A symbol node as created by `NodeData::new_symbol`. -/
def NodeData.new_symbol (name : Str) (kind : NodeKind) (file_path : Str)
    (line_start line_end : Nat) (code_snippet : Str) : NodeData :=
  { name := name, kind := kind, file_path := file_path,
    line_start := line_start, line_end := line_end,
    code_snippet := code_snippet, features := [], call_lines := [],
    removed := false }

/-- A directed edge of the petgraph graph: endpoints plus the `EdgeData`
kind label. -/
structure Edge where
  src : Nat
  tgt : Nat
  kind : EdgeKind
deriving DecidableEq, Repr

/-- Modelled from the spec (§3): one extracted symbol definition. -/
structure ExtractedSymbol where
  name : Str
  kind : NodeKind
  line_start : Nat
  line_end : Nat
  code_snippet : Str
  parent : Option Str
  features : List Str
deriving DecidableEq, Repr

/-- Modelled from the spec (§3): one extracted call site. -/
structure ExtractedCall where
  caller : Str
  callee : Str
  line : Nat
  line_end : Nat
deriving DecidableEq, Repr

/-- Modelled from the spec (§3): one extracted import directive. -/
structure ExtractedImport where
  path : Str
  names : List Str
  line : Nat
deriving DecidableEq, Repr

/-- Modelled from the spec (§3): the role of an API endpoint. -/
inductive ApiEndpointKind where
  | Defines | Consumes
deriving DecidableEq, Repr

/-- Modelled from the spec (§3): one extracted API endpoint. -/
structure ExtractedApiEndpoint where
  url : Str
  method : Option Str
  kind : ApiEndpointKind
  scope : Option Str
  line : Nat
deriving DecidableEq, Repr

/-- Modelled from the spec (§3): the parse output for one file. -/
structure FileExtractions where
  file_path : Str
  symbols : List ExtractedSymbol
  imports : List ExtractedImport
  calls : List ExtractedCall
  api_endpoints : List ExtractedApiEndpoint
deriving DecidableEq, Repr

/-! ## Association lists: the embedding of Rust `HashMap` -/

/-- `HashMap::get`. -/
def alookup {κ β : Type} [DecidableEq κ] (l : List (κ × β)) (k : κ) :
    Option β :=
  (l.find? (fun p => p.1 = k)).map (·.2)

/-- `HashMap::insert`: replace the value of an existing key in place,
append a fresh key. -/
def ainsert {κ β : Type} [DecidableEq κ] (l : List (κ × β)) (k : κ)
    (v : β) : List (κ × β) :=
  if l.any (fun p => p.1 = k) then
    l.map (fun p => if p.1 = k then (k, v) else p)
  else
    l ++ [(k, v)]

/-- `HashMap::remove`. -/
def aremove {κ β : Type} [DecidableEq κ] (l : List (κ × β)) (k : κ) :
    List (κ × β) :=
  l.filter (fun p => ¬ p.1 = k)

/-- `map.entry(k).or_default().push(v)` on a `HashMap<_, Vec<_>>`. -/
def apush {κ β : Type} [DecidableEq κ] (l : List (κ × List β)) (k : κ)
    (v : β) : List (κ × List β) :=
  match alookup l k with
  | some vs => ainsert l k (vs ++ [v])
  | none => l ++ [(k, [v])]

/-! ## The graph engine (`src/graph/engine.rs`) -/

/-- The code graph: node table (position = `NodeIndex`), edge list, and the
three indexes. -/
structure CodeGraph where
  nodes : List NodeData
  edges : List Edge
  file_index : List (Str × Nat)
  symbol_index : List (Str × List Nat)
  qualified_index : List ((Str × Str) × Nat)
deriving DecidableEq, Repr

/-- `CodeGraph::new`. -/
def CodeGraph.new : CodeGraph :=
  { nodes := [], edges := [], file_index := [], symbol_index := [],
    qualified_index := [] }

/-- `self.graph.node_weight(i)`. -/
def CodeGraph.node? (g : CodeGraph) (i : Nat) : Option NodeData :=
  g.nodes.get? i

/-- `if let Some(node) = self.graph.node_weight_mut(i) { *node = f(node) }`. -/
def CodeGraph.setNode (g : CodeGraph) (i : Nat) (f : NodeData → NodeData) :
    CodeGraph :=
  match g.nodes.get? i with
  | some n => { g with nodes := g.nodes.set i (f n) }
  | none => g

/-- `CodeGraph::is_live`. -/
def CodeGraph.is_live (g : CodeGraph) (i : Nat) : Bool :=
  match g.nodes.get? i with
  | some n => !n.removed
  | none => false

/-- `CodeGraph::add_file`: idempotent; re-adding clears the removed flag. -/
def CodeGraph.add_file (g : CodeGraph) (path : Str) : CodeGraph × Nat :=
  match alookup g.file_index path with
  | some idx => (g.setNode idx (fun n => { n with removed := false }), idx)
  | none =>
    let idx := g.nodes.length
    ({ g with nodes := g.nodes ++ [NodeData.new_file path],
              file_index := ainsert g.file_index path idx }, idx)

/-- `CodeGraph::add_symbol`: always creates a new node and updates
`symbol_index` and `qualified_index`. -/
def CodeGraph.add_symbol (g : CodeGraph) (name : Str) (kind : NodeKind)
    (file_path : Str) (line_start line_end : Nat) (code_snippet : Str) :
    CodeGraph × Nat :=
  let idx := g.nodes.length
  ({ g with
     nodes := g.nodes ++
       [NodeData.new_symbol name kind file_path line_start line_end
         code_snippet],
     symbol_index := apush g.symbol_index name idx,
     qualified_index := ainsert g.qualified_index (file_path, name) idx },
   idx)

/-- `CodeGraph::add_edge`: parallel edges are permitted. -/
def CodeGraph.add_edge (g : CodeGraph) (a b : Nat) (kind : EdgeKind) :
    CodeGraph :=
  { g with edges := g.edges ++ [⟨a, b, kind⟩] }

/-! ## Mutation helpers (`src/graph/mutation.rs`) -/

/-- `CodeGraph::soft_delete_node`: mark removed and drop from
`symbol_index` and `qualified_index`. -/
def CodeGraph.soft_delete_node (g : CodeGraph) (i : Nat) : CodeGraph :=
  match g.nodes.get? i with
  | none => g
  | some node =>
    let g := g.setNode i (fun n => { n with removed := true })
    let si :=
      match alookup g.symbol_index node.name with
      | some idxs =>
        let idxs := idxs.filter (fun j => j ≠ i)
        if idxs = [] then aremove g.symbol_index node.name
        else ainsert g.symbol_index node.name idxs
      | none => g.symbol_index
    { g with symbol_index := si,
             qualified_index := aremove g.qualified_index
               (node.file_path, node.name) }

/-- The inclusive range `a..=b` of Rust, as a list. -/
def rustRange (a b : Nat) : List Nat :=
  if a ≤ b then List.range' a (b - a + 1) else []

/-- The `for line in call.line..=call.line_end { if !contains { push } }`
loop of `resolve_call`. -/
def pushCallLines (cls : List Nat) : List Nat → List Nat
  | [] => cls
  | l :: ls => pushCallLines (if l ∈ cls then cls else cls ++ [l]) ls

/-- `CodeGraph::resolve_call`: add a `Calls` edge to the first
`symbol_index` match of the callee and record the call lines on the
caller. -/
def CodeGraph.resolve_call (g : CodeGraph) (caller_idx : Nat)
    (call : ExtractedCall) : CodeGraph :=
  match alookup g.symbol_index call.callee with
  | some callee_indexes =>
    match callee_indexes.head? with
    | some callee_idx =>
      let g := g.add_edge caller_idx callee_idx .Calls
      g.setNode caller_idx (fun n =>
        { n with call_lines :=
            pushCallLines n.call_lines (rustRange call.line call.line_end) })
    | none => g
  | none => g

/-- Rust `Vec::sort` on the call-line list (stable sort; for `Nat` any
sorted permutation is the same list). -/
def sortLines (l : List Nat) : List Nat := List.insertionSort (· ≤ ·) l

/-- Rust `Vec::dedup`: remove consecutive duplicates. -/
def dedupConsec : List Nat → List Nat
  | [] => []
  | [a] => [a]
  | a :: b :: rest =>
    if a = b then dedupConsec (b :: rest) else a :: dedupConsec (b :: rest)

/-- `sort` followed by `dedup`, as `finalize_call_lines` applies to each
node. -/
def finalizeLines (l : List Nat) : List Nat := dedupConsec (sortLines l)

/-- `CodeGraph::finalize_call_lines` over a set of node indices. -/
def CodeGraph.finalize_call_lines (g : CodeGraph) (idxs : List Nat) :
    CodeGraph :=
  idxs.foldl
    (fun g i =>
      g.setNode i (fun n => { n with call_lines := finalizeLines n.call_lines }))
    g

/-- `CodeGraph::resolve_contains`: parent → child `Contains` edges,
optionally restricted to children in `filter`. -/
def CodeGraph.resolve_contains (g : CodeGraph) (file : Str)
    (symbols : List ExtractedSymbol) (filter : Option (List Nat)) :
    CodeGraph :=
  symbols.foldl
    (fun g symbol =>
      match symbol.parent with
      | some parent_name =>
        match alookup g.qualified_index (file, symbol.name) with
        | some child_idx =>
          if (match filter with
              | some s => decide (child_idx ∉ s)
              | none => false) then g
          else
            match alookup g.qualified_index (file, parent_name) with
            | some parent_idx => g.add_edge parent_idx child_idx .Contains
            | none => g
        | none => g
      | none => g)
    g

/-- `CodeGraph::ingest_symbol`: add the symbol node, copy features, add the
`Defines` edge. -/
def CodeGraph.ingest_symbol (g : CodeGraph) (file_idx : Nat)
    (file_path : Str) (sym : ExtractedSymbol) : CodeGraph × Nat :=
  let (g, sym_idx) := g.add_symbol sym.name sym.kind file_path
    sym.line_start sym.line_end sym.code_snippet
  let g :=
    if sym.features ≠ [] then
      g.setNode sym_idx (fun n => { n with features := sym.features })
    else g
  (g.add_edge file_idx sym_idx .Defines, sym_idx)

/-- `CodeGraph::ingest_imports`: one `Import` node plus `Imports` edge per
import. -/
def CodeGraph.ingest_imports (g : CodeGraph) (file_idx : Nat)
    (file_path : Str) (imports : List ExtractedImport) : CodeGraph :=
  imports.foldl
    (fun g imp =>
      let (g, import_idx) := g.add_symbol imp.path .Import file_path
        imp.line imp.line []
      g.add_edge file_idx import_idx .Imports)
    g

/-! ## URL normalization

`normalize_url` from `src/parser/queries/api.rs` (applied when the
extractor records an endpoint) and `normalize_api_url` from
`src/graph/mutation.rs` (applied again before cross-language matching).
Rust's Unicode `is_alphabetic` / `is_alphanumeric` / `to_lowercase` are
embedded by their ASCII restrictions. -/

/-- Consume characters up to and including `close` (the `while let` loops
of both normalizers). -/
def dropUntilClose (close : Char) : Str → Str
  | [] => []
  | c :: rest => if c = close then rest else dropUntilClose close rest

/-- Consume a brace-balanced `${…}` body; called with the depth after the
opening brace. -/
def dropBraces : Nat → Str → Str
  | _, [] => []
  | depth, c :: rest =>
    if c = '{' then dropBraces (depth + 1) rest
    else if c = '}' then
      if depth = 1 then rest else dropBraces (depth - 1) rest
    else dropBraces depth rest

/-- Consume a run of alphanumeric-or-underscore characters (the `:name` /
`*name` parameter loops). -/
def dropParamName : Str → Str
  | [] => []
  | c :: rest =>
    if c.isAlphanum ∨ c = '_' then dropParamName rest else c :: rest

def dropUntilClose_length_le (close : Char) (s : Str) :
    (dropUntilClose close s).length ≤ s.length := by
  induction s with
  | nil => simp [dropUntilClose]
  | cons c rest ih =>
    simp only [dropUntilClose]
    split
    · simp
    · exact Nat.le_succ_of_le ih

def dropBraces_length_le (depth : Nat) (s : Str) :
    (dropBraces depth s).length ≤ s.length := by
  induction s generalizing depth with
  | nil => simp [dropBraces]
  | cons c rest ih =>
    simp only [dropBraces]
    split
    · exact Nat.le_succ_of_le (ih _)
    · split
      · split
        · simp
        · exact Nat.le_succ_of_le (ih _)
      · exact Nat.le_succ_of_le (ih _)

def dropParamName_length_le (s : Str) :
    (dropParamName s).length ≤ s.length := by
  induction s with
  | nil => simp [dropParamName]
  | cons c rest ih =>
    simp only [dropParamName]
    split
    · exact Nat.le_succ_of_le ih
    · simp

/-- The character loop of `normalize_url`, written with a fuel argument so
that it recurses structurally (the skip helpers make the plain recursion
non-structural); each iteration consumes at least one character, so a fuel
equal to the input length never runs out. -/
def normalizeUrlGo : Nat → Str → Str
  | 0, _ => []
  | _ + 1, [] => []
  | fuel + 1, c :: rest =>
    if c = '{' then
      str ":param" ++ normalizeUrlGo fuel (dropUntilClose '}' rest)
    else if c = '<' then
      str ":param" ++ normalizeUrlGo fuel (dropUntilClose '>' rest)
    else if c = '$' ∧ rest.head? = some '{' then
      str ":param" ++ normalizeUrlGo fuel (dropBraces 1 rest.tail)
    else if c = ':' ∧ (rest.head?.map Char.isAlpha).getD false then
      str ":param" ++ normalizeUrlGo fuel (dropParamName rest)
    else if c = '*' ∧ (rest.head?.map Char.isAlpha).getD false then
      str ":param" ++ normalizeUrlGo fuel (dropParamName rest)
    else
      c :: normalizeUrlGo fuel rest

/-- `normalize_url` (`src/parser/queries/api.rs`): replace every `{…}`,
`<…>`, `${…}`, `:name`, `*name` parameter with the literal `:param`. -/
def normalize_url (s : Str) : Str := normalizeUrlGo s.length s

/-- ASCII lowercasing of one character (`to_lowercase`, restricted to
ASCII). -/
def lowChar (c : Char) : Char :=
  if 65 ≤ c.toNat ∧ c.toNat ≤ 90 then Char.ofNat (c.toNat + 32) else c

/-- `str::trim_end_matches('/')`. -/
def trimEndSlashes (s : Str) : Str :=
  (s.reverse.dropWhile (fun c => c = '/')).reverse

/-- Consume characters until (excluding) the next `'/'` — the `:name`
branch of `normalize_api_url`. -/
def dropToSlash : Str → Str
  | [] => []
  | c :: rest => if c = '/' then c :: rest else dropToSlash rest

def dropToSlash_length_le (s : Str) :
    (dropToSlash s).length ≤ s.length := by
  induction s with
  | nil => simp [dropToSlash]
  | cons c rest ih =>
    simp only [dropToSlash]
    split
    · simp
    · exact Nat.le_succ_of_le ih

/-- The character loop of `normalize_api_url`, carrying the accumulated
`result` (its `:name` branch tests `result.ends_with('/')`); fuel as in
`normalizeUrlGo`. -/
def normApiLoop : Nat → Str → Str → Str
  | 0, acc, _ => acc
  | _ + 1, acc, [] => acc
  | fuel + 1, acc, c :: rest =>
    if c = '{' ∨ c = '<' then
      let close := if c = '{' then '}' else '>'
      normApiLoop fuel (acc ++ str ":param") (dropUntilClose close rest)
    else if c = ':' ∧ acc.getLast? = some '/' then
      normApiLoop fuel (acc ++ str ":param") (dropToSlash rest)
    else
      normApiLoop fuel (acc ++ [c]) rest

/-- `normalize_api_url` (`src/graph/mutation.rs`): lowercase, strip
trailing slashes, then replace `{…}`, `<…>` and slash-initial `:name`
segments with `:param`. -/
def normalize_api_url (url : Str) : Str :=
  let url := url.map lowChar
  let url := trimEndSlashes url
  normApiLoop url.length [] url

/-! ## `build_from_extractions` (`src/graph/mutation.rs`) -/

/-- Phase 1: add all file, symbol and import nodes. -/
def CodeGraph.build_phase1 (g : CodeGraph)
    (extractions : List FileExtractions) : CodeGraph :=
  extractions.foldl
    (fun g ex =>
      let (g, file_idx) := g.add_file ex.file_path
      let g := ex.symbols.foldl
        (fun g s => (g.ingest_symbol file_idx ex.file_path s).1) g
      g.ingest_imports file_idx ex.file_path ex.imports)
    g

/-- Phase 2: resolve calls whose caller is in the qualified index. -/
def CodeGraph.build_phase2 (g : CodeGraph)
    (extractions : List FileExtractions) : CodeGraph :=
  extractions.foldl
    (fun g ex =>
      ex.calls.foldl
        (fun g call =>
          match alookup g.qualified_index (ex.file_path, call.caller) with
          | some caller_idx => g.resolve_call caller_idx call
          | none => g)
        g)
    g

/-- Phase 4 bucketing: normalized-URL buckets of `Defines` endpoints and
the list of `Consumes` endpoints, with scopes resolved through the
qualified index. -/
def CodeGraph.apiBuckets (g : CodeGraph)
    (extractions : List FileExtractions) :
    List (Str × List Nat) × List (Str × Nat) :=
  extractions.foldl
    (fun dc ex =>
      ex.api_endpoints.foldl
        (fun (dc : List (Str × List Nat) × List (Str × Nat)) ep =>
          let url := normalize_api_url ep.url
          let scope_idx := ep.scope.bind
            (fun scope_name => alookup g.qualified_index (ex.file_path, scope_name))
          match scope_idx with
          | some idx =>
            match ep.kind with
            | .Defines => (apush dc.1 url idx, dc.2)
            | .Consumes => (dc.1, dc.2 ++ [(url, idx)])
          | none => dc)
        dc)
    ([], [])

/-- Phase 4: `ApiCall` edges from each consumer to every provider with the
same normalized URL. -/
def CodeGraph.build_phase4 (g : CodeGraph)
    (extractions : List FileExtractions) : CodeGraph :=
  let (defines, consumes) := g.apiBuckets extractions
  consumes.foldl
    (fun g uc =>
      match alookup defines uc.1 with
      | some provider_indexes =>
        provider_indexes.foldl
          (fun g provider_idx => g.add_edge uc.2 provider_idx .ApiCall) g
      | none => g)
    g

/-- `CodeGraph::build_from_extractions`. -/
def CodeGraph.build_from_extractions (g : CodeGraph)
    (extractions : List FileExtractions) : CodeGraph :=
  let g := g.build_phase1 extractions
  let g := g.build_phase2 extractions
  let g := g.finalize_call_lines (List.range g.nodes.length)
  let g := extractions.foldl
    (fun g ex => g.resolve_contains ex.file_path ex.symbols none) g
  g.build_phase4 extractions

/-! ## `update_file_incremental` (`src/graph/mutation.rs`)

The routine is embedded as the composition, in source order, of its
successive loops; each loop is a named definition so the theorems below
can reason per phase. -/

/-- The file's current live, non-import defined symbols:
`name → (node index, code snippet)`. -/
def CodeGraph.old_symbols_of (g : CodeGraph) (file_idx : Nat) :
    List (Str × (Nat × Str)) :=
  (g.edges.filter (fun e =>
      decide (e.src = file_idx ∧ e.kind = EdgeKind.Defines ∧
        g.is_live e.tgt = true))).foldl
    (fun m e =>
      match g.nodes.get? e.tgt with
      | some node =>
        if node.kind = NodeKind.Import then m
        else ainsert m node.name (e.tgt, node.code_snippet)
      | none => m)
    []

/-- The extraction's symbols keyed by name (`new_symbols`). -/
def newSymbolsMap (ex : FileExtractions) : List (Str × ExtractedSymbol) :=
  ex.symbols.foldl (fun m s => ainsert m s.name s) []

/-- Removed symbols (in old, not in new): soft-delete. -/
def CodeGraph.incRemovedPhase (g : CodeGraph)
    (old_symbols : List (Str × (Nat × Str)))
    (new_symbols : List (Str × ExtractedSymbol)) : CodeGraph :=
  old_symbols.foldl
    (fun g p =>
      if (alookup new_symbols p.1).isNone then g.soft_delete_node p.2.1
      else g)
    g

/-- Added symbols (in new, not in old): ingest and queue for call
resolution. -/
def CodeGraph.incAddedPhase (g : CodeGraph) (file_idx : Nat) (file : Str)
    (old_symbols : List (Str × (Nat × Str)))
    (new_symbols : List (Str × ExtractedSymbol)) : CodeGraph × List Nat :=
  new_symbols.foldl
    (fun (gq : CodeGraph × List Nat) p =>
      if (alookup old_symbols p.1).isNone then
        let (g, sym_idx) := gq.1.ingest_symbol file_idx file p.2
        (g, gq.2 ++ [sym_idx])
      else gq)
    (g, [])

/-- Changed symbols (same name, different code) are re-pointed, stripped of
outgoing `Calls` edges and queued; unchanged symbols only get their line
numbers shifted. -/
def CodeGraph.incChangedPhase (g : CodeGraph)
    (old_symbols : List (Str × (Nat × Str)))
    (new_symbols : List (Str × ExtractedSymbol)) (queue : List Nat) :
    CodeGraph × List Nat :=
  new_symbols.foldl
    (fun (gq : CodeGraph × List Nat) p =>
      match alookup old_symbols p.1 with
      | some (node_idx, old_code) =>
        if old_code ≠ p.2.code_snippet then
          let g := gq.1.setNode node_idx (fun n =>
            { n with code_snippet := p.2.code_snippet,
                     line_start := p.2.line_start,
                     line_end := p.2.line_end,
                     call_lines := [] })
          let g := { g with edges := g.edges.filter (fun e =>
            ¬ (e.src = node_idx ∧ e.kind = EdgeKind.Calls)) }
          (g, gq.2 ++ [node_idx])
        else
          (gq.1.setNode node_idx (fun n =>
            { n with line_start := p.2.line_start,
                     line_end := p.2.line_end }), gq.2)
      | none => gq)
    (g, queue)

/-- Soft-delete the old import nodes, then ingest the new imports. -/
def CodeGraph.incImportsPhase (g : CodeGraph) (file_idx : Nat) (file : Str)
    (imports : List ExtractedImport) : CodeGraph :=
  let old_import_nodes := ((g.edges.filter (fun e =>
      decide (e.src = file_idx ∧ e.kind = EdgeKind.Imports ∧
        g.is_live e.tgt = true))).map (·.tgt))
  let g := old_import_nodes.foldl (fun g i => g.soft_delete_node i) g
  g.ingest_imports file_idx file imports

/-- Re-resolve calls whose caller is in the queued set. -/
def CodeGraph.incCallsPhase (g : CodeGraph) (file : Str)
    (calls : List ExtractedCall) (queue : List Nat) : CodeGraph :=
  calls.foldl
    (fun g call =>
      match alookup g.qualified_index (file, call.caller) with
      | some caller_idx =>
        if caller_idx ∈ queue then g.resolve_call caller_idx call else g
      | none => g)
    g

/-- `petgraph::Graph::remove_edge` on the edge arena: the removed slot is
filled by the last edge (swap-removal), whose index therefore changes; an
index at or past the arena size is a no-op (`remove_edge` returns
`None`). -/
def removeEdgeSwap (edges : List Edge) (i : Nat) : List Edge :=
  match edges.getLast? with
  | none => edges
  | some last =>
    if i < edges.length then (edges.set i last).dropLast else edges

/-- The `api_edges_to_remove` collection at the end of
`update_file_incremental` (`src/graph/mutation.rs`): for each live
`Defines` target of the file in turn, the ids of its outgoing and then
its incoming `ApiCall` edges.  An edge id is the position in the edge
arena, and every `edges_directed` walk yields petgraph's adjacency-list
order, which is reverse insertion order.  The same id can occur twice
(an `ApiCall` edge between two live symbols of the file) and ids are not
globally sorted. -/
def CodeGraph.apiEdgeIds (g : CodeGraph) (file_idx : Nat) : List Nat :=
  (((g.edges.enum.filter (fun ie =>
      decide (ie.2.src = file_idx ∧ ie.2.kind = EdgeKind.Defines ∧
        g.is_live ie.2.tgt = true))).reverse).map
    (fun ie => ie.2.tgt)).flatMap
    (fun sym_idx =>
      ((g.edges.enum.filter (fun ie =>
          decide (ie.2.src = sym_idx ∧
            ie.2.kind = EdgeKind.ApiCall))).reverse).map (fun ie => ie.1) ++
      ((g.edges.enum.filter (fun ie =>
          decide (ie.2.tgt = sym_idx ∧
            ie.2.kind = EdgeKind.ApiCall))).reverse).map (fun ie => ie.1))

/-- The cleanup loop: `remove_edge` on each collected id in order.  The
ids were collected before any removal, so a duplicated or non-descending
id can hit an edge swapped into the slot meanwhile. -/
def CodeGraph.incApiCleanup (g : CodeGraph) (file_idx : Nat) : CodeGraph :=
  { g with edges := (g.apiEdgeIds file_idx).foldl removeEdgeSwap g.edges }

/-- `CodeGraph::update_file_incremental`. -/
def CodeGraph.update_file_incremental (g : CodeGraph) (file : Str)
    (ex : FileExtractions) : CodeGraph :=
  let (g, file_idx) := g.add_file file
  let old_symbols := g.old_symbols_of file_idx
  let new_symbols := newSymbolsMap ex
  let g := g.incRemovedPhase old_symbols new_symbols
  let (g, queue) := g.incAddedPhase file_idx file old_symbols new_symbols
  let (g, queue) := g.incChangedPhase old_symbols new_symbols queue
  let g := g.incImportsPhase file_idx file ex.imports
  let g := g.incCallsPhase file ex.calls queue
  let g := g.finalize_call_lines queue
  let g := g.resolve_contains file ex.symbols (some queue)
  g.incApiCleanup file_idx

/-! ## `remove_file` and `compact` (`src/graph/mutation.rs`) -/

/-- `CodeGraph::remove_file`: soft-delete the file node and every target of
one of its outgoing edges. -/
def CodeGraph.remove_file (g : CodeGraph) (path : Str) : CodeGraph :=
  match alookup g.file_index path with
  | some file_idx =>
    let child_nodes := (g.edges.filter (fun e =>
      decide (e.src = file_idx))).map (·.tgt)
    let g := child_nodes.foldl (fun g i => g.soft_delete_node i) g
    let g := g.setNode file_idx (fun n => { n with removed := true })
    { g with file_index := aremove g.file_index path }
  | none => g

/-- `CodeGraph::compact`: rebuild a fresh graph from the live subset. -/
def CodeGraph.compact (g : CodeGraph) : CodeGraph :=
  let live_files : List Str := g.nodes.foldl
    (fun acc n =>
      if ¬ n.removed ∧ n.kind = NodeKind.File then
        if n.file_path ∈ acc then acc else acc ++ [n.file_path]
      else acc)
    []
  let ng := live_files.foldl (fun ng p => (ng.add_file p).1) CodeGraph.new
  let (ng, old_to_new) := g.nodes.enum.foldl
    (fun (p : CodeGraph × List (Nat × Nat)) ia =>
      let idx := ia.1
      let node := ia.2
      if node.removed then p
      else if node.kind = NodeKind.File then
        match alookup p.1.file_index node.file_path with
        | some new_idx => (p.1, ainsert p.2 idx new_idx)
        | none => p
      else
        let (ng, new_idx) := p.1.add_symbol node.name node.kind
          node.file_path node.line_start node.line_end node.code_snippet
        let ng := ng.setNode new_idx (fun n =>
          { n with features := node.features,
                   call_lines := node.call_lines })
        (ng, ainsert p.2 idx new_idx))
    (ng, [])
  g.edges.foldl
    (fun ng e =>
      match alookup old_to_new e.src, alookup old_to_new e.tgt with
      | some a, some b => ng.add_edge a b e.kind
      | _, _ => ng)
    ng

/-! ## String helpers used by `search` -/

/-- `str::to_lowercase`, restricted to ASCII. -/
def toLowerStr (s : Str) : Str := s.map lowChar

/-- `str::contains` (literal substring). -/
def strContains : Str → Str → Bool
  | s, pat =>
    if pat.isPrefixOf s then true
    else
      match s with
      | [] => false
      | _ :: rest => strContains rest pat

/-- `str::split_whitespace`, accumulating the current word reversed. -/
def splitWhitespaceAux (cur : Str) : Str → List Str
  | [] => if cur = [] then [] else [cur.reverse]
  | c :: rest =>
    if c.isWhitespace then
      if cur = [] then splitWhitespaceAux [] rest
      else cur.reverse :: splitWhitespaceAux [] rest
    else splitWhitespaceAux (c :: cur) rest

/-- `str::split_whitespace`. -/
def splitWhitespace (s : Str) : List Str := splitWhitespaceAux [] s

/-! ## Query results (`src/graph/types.rs` is not in the source tree; the
result shapes are modelled from the spec and the field accesses in
`src/graph/query.rs`) -/

/-- A `calls` / `called_by` entry of a search result. -/
structure SymbolRef where
  name : Str
  file : Str
  line : Nat
deriving DecidableEq, Repr

/-- One `SearchResult` of `CodeGraph::search`. -/
structure SearchResult where
  symbol : Str
  kind : NodeKind
  file : Str
  line_start : Nat
  line_end : Nat
  code : Str
  call_lines : List Nat
  calls : List SymbolRef
  called_by : List SymbolRef
  imports : List Str
  features : List Str
deriving DecidableEq, Repr

/-- One entry of `dependents` / `dependencies`. -/
structure DependencyInfo where
  symbol : Str
  kind : NodeKind
  file : Str
  line : Nat
  relationship : EdgeKind
deriving DecidableEq, Repr

/-- `GraphStats`. -/
structure GraphStats where
  total_nodes : Nat
  total_edges : Nat
  file_count : Nat
  symbol_count : Nat
  unique_symbol_names : Nat
deriving DecidableEq, Repr

/-! ## Read operations (`src/graph/query.rs`) -/

/-- `CodeGraph::build_search_result`: `None` for File nodes and removed
nodes. -/
def CodeGraph.build_search_result (g : CodeGraph) (idx : Nat) :
    Option SearchResult :=
  match g.nodes.get? idx with
  | none => none
  | some node =>
    if node.kind = NodeKind.File ∨ node.removed then none
    else
      let calls := (g.edges.filter (fun e =>
          decide (e.src = idx ∧ e.kind = EdgeKind.Calls ∧
            g.is_live e.tgt = true))).filterMap
        (fun e => (g.nodes.get? e.tgt).map
          (fun t => SymbolRef.mk t.name t.file_path t.line_start))
      let called_by := (g.edges.filter (fun e =>
          decide (e.tgt = idx ∧ e.kind = EdgeKind.Calls ∧
            g.is_live e.src = true))).filterMap
        (fun e => (g.nodes.get? e.src).map
          (fun s => SymbolRef.mk s.name s.file_path s.line_start))
      let imports :=
        match alookup g.file_index node.file_path with
        | some file_idx =>
          (g.edges.filter (fun e =>
              decide (e.src = file_idx ∧ e.kind = EdgeKind.Imports ∧
                g.is_live e.tgt = true))).filterMap
            (fun e => (g.nodes.get? e.tgt).map (·.name))
        | none => []
      some { symbol := node.name, kind := node.kind, file := node.file_path,
             line_start := node.line_start, line_end := node.line_end,
             code := node.code_snippet, call_lines := node.call_lines,
             calls := calls, called_by := called_by, imports := imports,
             features := node.features }

/-- `CodeGraph::search`: exact index hit first, otherwise the scored
substring / feature scan (stable sort by score, lowest first). -/
def CodeGraph.search (g : CodeGraph) (query : Str) (limit : Nat) :
    List SearchResult :=
  let query_lower := toLowerStr query
  let results :=
    match alookup g.symbol_index query with
    | some indexes => (indexes.take limit).filterMap g.build_search_result
    | none => []
  if results = [] then
    let query_terms := splitWhitespace query_lower
    let scored := g.symbol_index.foldl
      (fun acc p =>
        let name_lower := toLowerStr p.1
        p.2.foldl
          (fun (acc : List (Nat × Nat)) idx =>
            match g.nodes.get? idx with
            | some node =>
              if node.removed then acc
              else if strContains name_lower query_lower then
                acc ++ [(if node.name = query then 0
                         else if query_lower.isPrefixOf name_lower then 1
                         else 2, idx)]
              else if node.features ≠ [] then
                let feature_matches := query_terms.countP (fun t =>
                  decide (t.length > 2) &&
                    node.features.any (fun f => strContains f t))
                if feature_matches > 0 then
                  acc ++ [(if feature_matches ≥ query_terms.length then 3
                           else 4, idx)]
                else acc
              else acc
            | none => acc)
          acc)
      ([] : List (Nat × Nat))
    let scored := List.insertionSort (fun a b => a.1 ≤ b.1) scored
    (scored.take limit).filterMap (fun p => g.build_search_result p.2)
  else results

/-- `CodeGraph::dependents`: live incoming-edge sources of every live index
of the name. -/
def CodeGraph.dependents (g : CodeGraph) (symbol_name : Str) :
    List DependencyInfo :=
  match alookup g.symbol_index symbol_name with
  | some indexes =>
    indexes.foldl
      (fun deps idx =>
        if g.is_live idx then
          deps ++ (g.edges.filter (fun e =>
              decide (e.tgt = idx ∧ g.is_live e.src = true))).filterMap
            (fun e => (g.nodes.get? e.src).map
              (fun s => DependencyInfo.mk s.name s.kind s.file_path
                s.line_start e.kind))
        else deps)
      []
  | none => []

/-- `CodeGraph::dependencies`: the dual of `dependents` on outgoing
edges. -/
def CodeGraph.dependencies (g : CodeGraph) (symbol_name : Str) :
    List DependencyInfo :=
  match alookup g.symbol_index symbol_name with
  | some indexes =>
    indexes.foldl
      (fun deps idx =>
        if g.is_live idx then
          deps ++ (g.edges.filter (fun e =>
              decide (e.src = idx ∧ g.is_live e.tgt = true))).filterMap
            (fun e => (g.nodes.get? e.tgt).map
              (fun t => DependencyInfo.mk t.name t.kind t.file_path
                t.line_start e.kind))
        else deps)
      []
  | none => []

/-- `CodeGraph::symbols_in_file`: live `Defines` targets of a live file
node. -/
def CodeGraph.symbols_in_file (g : CodeGraph) (path : Str) :
    List NodeData :=
  match alookup g.file_index path with
  | some file_idx =>
    if g.is_live file_idx then
      (g.edges.filter (fun e =>
          decide (e.src = file_idx ∧ e.kind = EdgeKind.Defines ∧
            g.is_live e.tgt = true))).filterMap
        (fun e => g.nodes.get? e.tgt)
    else []
  | none => []

/-- `CodeGraph::symbols_in_range` (`src/graph/mutation.rs`). -/
def CodeGraph.symbols_in_range (g : CodeGraph) (path : Str)
    (start_line end_line : Nat) : List NodeData :=
  (g.symbols_in_file path).filter
    (fun s => decide (s.line_start ≤ end_line ∧ s.line_end ≥ start_line))

/-- `CodeGraph::find_qualified`. -/
def CodeGraph.find_qualified (g : CodeGraph) (file_path name : Str) :
    Option NodeData :=
  match alookup g.qualified_index (file_path, name) with
  | some idx =>
    match g.nodes.get? idx with
    | some node => if node.removed then none else some node
    | none => none
  | none => none

/-- `CodeGraph::stats`: node counts skip soft-deleted nodes; the edge count
does not filter. -/
def CodeGraph.stats (g : CodeGraph) : GraphStats :=
  let file_count := g.nodes.countP
    (fun n => decide (n.removed = false ∧ n.kind = NodeKind.File))
  let symbol_count := g.nodes.countP
    (fun n => decide (n.removed = false ∧ n.kind ≠ NodeKind.File))
  { total_nodes := file_count + symbol_count,
    total_edges := g.edges.length,
    file_count := file_count,
    symbol_count := symbol_count,
    unique_symbol_names := g.symbol_index.length }

/-! ## The lock manager (`src/lock/manager.rs`, `src/lock/types.rs`)

The manager's mutex-protected `HashMap<SymbolKey, LockEntry>` is embedded
as an association list; `Instant` timestamps (used only for the reported
lock age) are dropped, and `normalize_path`'s `canonicalize` (a filesystem
call) is embedded as the identity. -/

/-- `SymbolKey`: a `(file path, symbol name)` lock key. -/
structure SymbolKey where
  file : Str
  name : Str
deriving DecidableEq, Repr

/-- `LockEntry` without its wall-clock `acquired_at` field. -/
structure LockEntry where
  primary_symbol : SymbolKey
deriving DecidableEq, Repr

/-- The manager's `locks` table. -/
abbrev LockTable := List (SymbolKey × LockEntry)

/-- `LockResult`. -/
inductive LockResult where
  | Acquired (symbol : SymbolKey) (dependents : List SymbolKey)
  | Blocked (blocked_by : SymbolKey) (reason : Str)
  | AcquiredAfterWait (symbol : SymbolKey) (dependents : List SymbolKey)
      (wait_time_ms : Nat)
deriving DecidableEq, Repr

/-- `SymbolKey::display_short`: `file_name:symbol`. -/
def SymbolKey.display_short (k : SymbolKey) : Str :=
  let fname :=
    match (k.file.splitOn '/').getLast? with
    | some last => if last = [] then k.file else last
    | none => k.file
  fname ++ str ":" ++ k.name

/-- The `Blocked` reason built by `try_acquire_symbol`. -/
def blockedReason (s primary : SymbolKey) : Str :=
  s.display_short ++ str " is locked (dependency of " ++
    primary.display_short ++ str ")"

/-- `LockManager::get_symbol_dependents`: one-hop `Calls` dependents mapped
to lock keys; the `__file__` key unions dependents of every symbol in the
file, crossing the file boundary. -/
def get_symbol_dependents (symbol : SymbolKey) (g : CodeGraph) :
    List SymbolKey :=
  if symbol.name = str "__file__" then
    let file_symbols := g.symbols_in_file symbol.file
    file_symbols.foldl
      (fun dep_set sym =>
        (g.dependents sym.name).foldl
          (fun (dep_set : List SymbolKey) d =>
            if d.relationship = EdgeKind.Calls ∧ d.file ≠ symbol.file then
              let k := SymbolKey.mk d.file (str "__file__")
              if k ∈ dep_set then dep_set else dep_set ++ [k]
            else dep_set)
          dep_set)
      []
  else
    (g.dependents symbol.name).foldl
      (fun acc d =>
        if d.relationship = EdgeKind.Calls then
          acc ++ [SymbolKey.mk d.file d.symbol]
        else acc)
      []

/-- The blocking scan of `try_acquire_symbol` /
`acquire_symbol_with_wait`: the first cone member locked by a different
primary, together with that primary. -/
def findBlocker (locks : LockTable) (symbol : SymbolKey) :
    List SymbolKey → Option (SymbolKey × SymbolKey)
  | [] => none
  | s :: rest =>
    match alookup locks s with
    | some entry =>
      if entry.primary_symbol ≠ symbol then some (s, entry.primary_symbol)
      else findBlocker locks symbol rest
    | none => findBlocker locks symbol rest

/-- `LockManager::try_acquire_symbol`: returns the result and the updated
lock table. -/
def try_acquire_symbol (symbol : SymbolKey) (g : CodeGraph)
    (locks : LockTable) : LockResult × LockTable :=
  let dependents := get_symbol_dependents symbol g
  let all_symbols := symbol :: dependents
  match findBlocker locks symbol all_symbols with
  | some (s, primary) => (.Blocked primary (blockedReason s primary), locks)
  | none =>
    (.Acquired symbol dependents,
     all_symbols.foldl (fun l s => ainsert l s (LockEntry.mk symbol)) locks)

/-- `LockManager::release_symbol`: drop every entry whose primary is the
released key. -/
def release_symbol (symbol : SymbolKey) (locks : LockTable) : LockTable :=
  locks.filter (fun p => p.2.primary_symbol ≠ symbol)

/-- The retry loop of `acquire_symbol_with_wait`.  The condition-variable
wait is embedded by `wakeups`: the lock-table state and the elapsed
milliseconds the waiter observes at each wakeup; an exhausted list is a
`wait_timeout` that timed out. -/
def acquireLoop (symbol : SymbolKey) (dependents : List SymbolKey)
    (timeout : Nat) :
    LockTable → Nat → List (LockTable × Nat) → LockResult × LockTable
  | locks, elapsed, wakeups =>
    let all_symbols := symbol :: dependents
    match findBlocker locks symbol all_symbols with
    | none =>
      let locks := all_symbols.foldl
        (fun l s => ainsert l s (LockEntry.mk symbol)) locks
      if elapsed > 0 then
        (.AcquiredAfterWait symbol dependents elapsed, locks)
      else (.Acquired symbol dependents, locks)
    | some (_, primary) =>
      if elapsed ≥ timeout then
        (.Blocked primary
          (str "Timeout after " ++ (toString elapsed).data ++ str "ms"),
         locks)
      else
        match wakeups with
        | [] => (.Blocked primary (str "Timeout waiting for lock"), locks)
        | (locks', elapsed') :: rest =>
          acquireLoop symbol dependents timeout locks' elapsed' rest

/-- `LockManager::acquire_symbol_with_wait`. -/
def acquire_symbol_with_wait (symbol : SymbolKey) (g : CodeGraph)
    (timeout : Nat) (locks : LockTable)
    (wakeups : List (LockTable × Nat)) : LockResult × LockTable :=
  let dependents := get_symbol_dependents symbol g
  acquireLoop symbol dependents timeout locks 0 wakeups

/-! ## Line-range writes (`src/write.rs`)

`replace_range` is embedded as its pure core: the function from the
original file content to the new content (the `read_file` / `fs::write`
boundary is outside the embedding). -/

/-- `WriteError`. -/
inductive WriteError where
  | FileNotFound (path : Str)
  | PatternNotFound (pattern : Str)
  | IoError
  | InvalidInput (msg : Str)
deriving DecidableEq, Repr

instance {ε α : Type} [DecidableEq ε] [DecidableEq α] :
    DecidableEq (Except ε α) := fun a b =>
  match a, b with
  | .ok a, .ok b =>
    if h : a = b then isTrue (by rw [h]) else isFalse (by simp [h])
  | .error a, .error b =>
    if h : a = b then isTrue (by rw [h]) else isFalse (by simp [h])
  | .ok _, .error _ => isFalse (by simp)
  | .error _, .ok _ => isFalse (by simp)

/-- One trailing `'\r'` stripped from a chunk that was terminated by
`'\n'`. -/
def stripCR (l : Str) : Str :=
  if l.getLast? = some '\r' then l.dropLast else l

/-- Rust `str::lines`: split at `'\n'`, strip the `'\r'` of a `"\r\n"`
terminator, and treat the final terminator as optional. -/
def rustLines (s : Str) : List Str :=
  let chunks := s.splitOn '\n'
  match chunks.getLast? with
  | some last =>
    if last = [] then chunks.dropLast.map stripCR
    else chunks.dropLast.map stripCR ++ [last]
  | none => []

/-- `write::replace_range`, pure core: 1-indexed inclusive line
replacement on the file content. -/
def replace_range (original : Str) (start_line end_line : Nat)
    (new_content : Str) : Except WriteError Str :=
  if start_line = 0 ∨ end_line = 0 ∨ start_line > end_line then
    .error (.InvalidInput (str "Invalid line range: " ++
      (toString start_line).data ++ str ".." ++ (toString end_line).data))
  else
    let lines := rustLines original
    let total_lines := lines.length
    if start_line > total_lines then
      .error (.InvalidInput (str "Start line " ++
        (toString start_line).data ++ str " exceeds file length " ++
        (toString total_lines).data))
    else
      let end_line := min end_line total_lines
      let result := (lines.take (start_line - 1)).foldl
        (fun r l => r ++ l ++ ['\n']) []
      let result := result ++ new_content
      let result :=
        if new_content.getLast? = some '\n' then result
        else result ++ ['\n']
      let result := (lines.drop end_line).foldl
        (fun r l => r ++ l ++ ['\n']) result
      let result :=
        if original.getLast? ≠ some '\n' ∧ result.getLast? = some '\n' then
          result.dropLast
        else result
      .ok result

/-! ## Graph-sliced code rendering (`src/query/slice.rs`) -/

/-- `str::trim`: whitespace stripped from both ends. -/
def rustTrim (s : Str) : Str :=
  ((s.dropWhile Char.isWhitespace).reverse.dropWhile Char.isWhitespace).reverse

/-- The slice keep-markers: whether a trimmed line is one of the kept
return forms. -/
def isReturnLine (line : Str) : Bool :=
  let trimmed := rustTrim line
  (str "return ").isPrefixOf trimmed || (str "return;").isPrefixOf trimmed ||
  (str "Ok(").isPrefixOf trimmed || (str "Err(").isPrefixOf trimmed ||
  (str "raise ").isPrefixOf trimmed || (str "throw ").isPrefixOf trimmed

/-- The initial keep bitmap: all false, then the signature line and (when
there is more than one line) the closing line. -/
def keepBase (lines : List Str) : List Bool :=
  let keep := List.replicate lines.length false
  let keep := keep.set 0 true
  if lines.length > 1 then keep.set (lines.length - 1) true else keep

/-- One iteration of the call-line loop: keep the relative line of an
in-range absolute call line plus one line of context either side. -/
def keepCallStep (lines : List Str) (line_start : Nat) (keep : List Bool)
    (abs_line : Nat) : List Bool :=
  if abs_line ≥ line_start then
    let rel := abs_line - line_start
    if rel < lines.length then
      let keep := keep.set rel true
      let keep := if rel > 0 then keep.set (rel - 1) true else keep
      if rel + 1 < lines.length then keep.set (rel + 1) true else keep
    else keep
  else keep

/-- One iteration of the return-statement loop. -/
def keepReturnStep (keep : List Bool) (il : Nat × Str) : List Bool :=
  if isReturnLine il.2 then keep.set il.1 true else keep

/-- The `keep` bitmap of `slice_code`: signature and closing lines, call
lines with one line of context either side, and return statements. -/
def keepVector (lines : List Str) (call_lines : List Nat)
    (line_start : Nat) : List Bool :=
  lines.enum.foldl keepReturnStep
    (call_lines.foldl (keepCallStep lines line_start) (keepBase lines))

/-- Rust `format!("{:>4}", n)`: decimal rendering left-padded to width
four. -/
def padLeft4 (n : Nat) : Str :=
  let s := (toString n).data
  if s.length < 4 then List.replicate (4 - s.length) ' ' ++ s else s

/-- One rendered kept line: `{:>4}: {line}`. -/
def renderLine (num : Nat) (line : Str) : Str :=
  padLeft4 num ++ str ": " ++ line

/-- The output loop of `slice_code`: kept lines rendered with their
absolute number, each maximal skipped run collapsed to the `"    ..."`
separator pushed just before the next kept line. -/
def buildSlice : Bool → List (Bool × Nat × Str) → List Str
  | _, [] => []
  | in_gap, (k, num, txt) :: rest =>
    if k then
      (if in_gap then [str "    ..."] else []) ++
        (renderLine num txt :: buildSlice false rest)
    else buildSlice true rest

/-- The output lines of `slice_code` in the sliced case. -/
def sliceItems (lines : List Str) (call_lines : List Nat)
    (line_start : Nat) : List Str :=
  let keep := keepVector lines call_lines line_start
  buildSlice false
    (lines.enum.map (fun il =>
      ((keep.get? il.1).getD false, line_start + il.1, il.2)))

/-- `SliceResult`. -/
structure SliceResult where
  code : Str
  total_lines : Nat
  shown_lines : Nat
  call_count : Nat
  was_sliced : Bool
deriving DecidableEq, Repr

/-- `slice_code` (`src/query/slice.rs`). -/
def slice_code (code : Str) (call_lines : List Nat) (line_start : Nat) :
    SliceResult :=
  let lines := rustLines code
  if lines.length ≤ 10 ∨ call_lines = [] then
    { code := code, total_lines := lines.length,
      shown_lines := lines.length, call_count := call_lines.length,
      was_sliced := false }
  else
    let keep := keepVector lines call_lines line_start
    let shown_lines := keep.countP id
    let items := sliceItems lines call_lines line_start
    { code := items.foldl (fun r l => r ++ l ++ ['\n']) [],
      total_lines := lines.length, shown_lines := shown_lines,
      call_count := call_lines.length, was_sliced := true }

/-! ## Spec-side definitions for the normalization refinement claim -/

/-- Modelled from the spec: "A single pass replaces each of `{name}`,
`<type:name>`, `${expr}`, `:name`, `*name` with the literal string
`:param`, preserving other characters" — a complete occurrence of a
parameter form (a bracket form needs its closing bracket, a `:`/`*` form
an alphabetic name) is replaced, every other character is preserved. -/
def specReplaceParamsGo : Nat → Str → Str
  | 0, _ => []
  | _ + 1, [] => []
  | fuel + 1, c :: rest =>
    if c = '{' ∧ '}' ∈ rest then
      str ":param" ++ specReplaceParamsGo fuel (dropUntilClose '}' rest)
    else if c = '<' ∧ '>' ∈ rest then
      str ":param" ++ specReplaceParamsGo fuel (dropUntilClose '>' rest)
    else if c = '$' ∧ rest.head? = some '{' ∧ '}' ∈ rest then
      str ":param" ++ specReplaceParamsGo fuel (dropBraces 1 rest.tail)
    else if (c = ':' ∨ c = '*') ∧ (rest.head?.map Char.isAlpha).getD false then
      str ":param" ++ specReplaceParamsGo fuel (dropParamName rest)
    else
      c :: specReplaceParamsGo fuel rest

/-- Modelled from the spec: the single replacing pass, at its standard
fuel. -/
def specReplaceParams (s : Str) : Str := specReplaceParamsGo s.length s

/-- Modelled from the spec: the full normalization it describes — replace
the parameter forms, strip trailing slashes, lowercase. -/
def spec_normalize_url (url : Str) : Str :=
  toLowerStr (trimEndSlashes (specReplaceParams url))

/-- A URL segment shape for the amended normalization statement: a
segment is either literal text or one whole parameter form. -/
inductive UrlPart where
  | lit (s : Str)
  | brace (s : Str)
  | angle (s : Str)
  | dollar (s : Str)
  | colon (s : Str)
  | star (s : Str)
deriving DecidableEq, Repr

/-- The raw text of a segment. -/
def UrlPart.render : UrlPart → Str
  | .lit s => s
  | .brace s => '{' :: (s ++ ['}'])
  | .angle s => '<' :: (s ++ ['>'])
  | .dollar s => '$' :: '{' :: (s ++ ['}'])
  | .colon s => ':' :: s
  | .star s => '*' :: s

/-- What the spec says the segment normalizes to. -/
def UrlPart.normalized : UrlPart → Str
  | .lit s => s
  | _ => str ":param"

/-- Characters that never trigger a parameter branch of either
normalizer. -/
def plainChar (c : Char) : Prop :=
  c ≠ '{' ∧ c ≠ '}' ∧ c ≠ '<' ∧ c ≠ '>' ∧ c ≠ '$' ∧ c ≠ ':' ∧
    c ≠ '*' ∧ c ≠ '/'

/-- Well-formedness of one segment: literal segments hold only plain
characters, bracket bodies do not close early or contain a slash, and
`:`/`*` parameter names are alphabetic-initial alphanumeric words. -/
def UrlPart.good : UrlPart → Prop
  | .lit s => ∀ c ∈ s, plainChar c
  | .brace s => '}' ∉ s ∧ '/' ∉ s
  | .angle s => '>' ∉ s ∧ '/' ∉ s
  | .dollar s => '{' ∉ s ∧ '}' ∉ s ∧ '/' ∉ s
  | .colon s =>
    (s.head?.map Char.isAlpha).getD false = true ∧
      ∀ c ∈ s, c.isAlphanum ∨ c = '_'
  | .star s =>
    (s.head?.map Char.isAlpha).getD false = true ∧
      ∀ c ∈ s, c.isAlphanum ∨ c = '_'

/-- A URL rendered from its slash-separated segments. -/
def renderUrl (segs : List UrlPart) : Str :=
  List.intercalate ['/'] (segs.map UrlPart.render)

/-- Characters on which the first normalizer's default (copy) branch
fires regardless of lookahead. -/
def goPlain (c : Char) : Prop :=
  c ≠ '{' ∧ c ≠ '<' ∧ c ≠ '$' ∧ c ≠ ':' ∧ c ≠ '*'

/-- Strings on which the second normalizer's loop is the identity: built
from non-trigger characters and whole `":param"` units that end a
segment. -/
inductive ApiOk : Str → Prop where
  | nil : ApiOk []
  | cons (c : Char) (s : Str) : c ≠ '{' → c ≠ '<' → c ≠ ':' →
      ApiOk s → ApiOk (c :: s)
  | param (s : Str) : (s = [] ∨ s.head? = some '/') → ApiOk s →
      ApiOk (':' :: (str "param" ++ s))

instance (c : Char) : Decidable (plainChar c) :=
  inferInstanceAs (Decidable (c ≠ '{' ∧ c ≠ '}' ∧ c ≠ '<' ∧ c ≠ '>' ∧
    c ≠ '$' ∧ c ≠ ':' ∧ c ≠ '*' ∧ c ≠ '/'))

instance (p : UrlPart) : Decidable p.good :=
  match p with
  | .lit s => inferInstanceAs (Decidable (∀ c ∈ s, plainChar c))
  | .brace s => inferInstanceAs (Decidable ('}' ∉ s ∧ '/' ∉ s))
  | .angle s => inferInstanceAs (Decidable ('>' ∉ s ∧ '/' ∉ s))
  | .dollar s =>
    inferInstanceAs (Decidable ('{' ∉ s ∧ '}' ∉ s ∧ '/' ∉ s))
  | .colon s => inferInstanceAs (Decidable
      ((s.head?.map Char.isAlpha).getD false = true ∧
        ∀ c ∈ s, c.isAlphanum ∨ c = '_'))
  | .star s => inferInstanceAs (Decidable
      ((s.head?.map Char.isAlpha).getD false = true ∧
        ∀ c ∈ s, c.isAlphanum ∨ c = '_'))

/-! ## Reachable graphs (for the §8 invariant claim) -/

/-- Graphs reachable from the empty graph by the public mutation
operations, with arbitrary arguments. -/
inductive Reachable : CodeGraph → Prop where
  | empty : Reachable CodeGraph.new
  | add_file {g} (p : Str) : Reachable g → Reachable (g.add_file p).1
  | add_symbol {g} (n : Str) (k : NodeKind) (f : Str) (ls le : Nat)
      (cs : Str) : Reachable g → Reachable (g.add_symbol n k f ls le cs).1
  | add_edge {g} (a b : Nat) (k : EdgeKind) :
      Reachable g → Reachable (g.add_edge a b k)
  | build {g} (exs : List FileExtractions) :
      Reachable g → Reachable (g.build_from_extractions exs)
  | update {g} (f : Str) (ex : FileExtractions) :
      Reachable g → Reachable (g.update_file_incremental f ex)
  | remove {g} (p : Str) : Reachable g → Reachable (g.remove_file p)
  | compact {g} : Reachable g → Reachable g.compact

/-! ## Concrete inputs used by the counterexamples and witnesses -/

/-- A plain function symbol. -/
def mkSym (n : String) (ls le : Nat) (snip : String) : ExtractedSymbol :=
  { name := str n, kind := .Function, line_start := ls, line_end := le,
    code_snippet := str snip, parent := none, features := [] }

/-- An endpoint as the extractor records it: the walker stores
`normalize_url(&full_url)` (`src/parser/queries/api.rs`, the
`endpoints.push` site). -/
def mkEp (u : String) (k : ApiEndpointKind) (sc : String) :
    ExtractedApiEndpoint :=
  { url := normalize_url (str u), method := some (str "GET"), kind := k,
    scope := some (str sc), line := 1 }

/-- Python file: `@app.route("/api/users/<int:id>")` on `get_user`. -/
def pyExtraction : FileExtractions :=
  { file_path := str "py.py",
    symbols := [mkSym "get_user" 1 3 "def get_user(): pass"],
    imports := [], calls := [],
    api_endpoints := [mkEp "/api/users/<int:id>" .Defines "get_user"] }

/-- Go file: `http.Get("/api/users/42")` inside `fetch_user` — the literal
URL of the spec's scenario. -/
def goExtraction42 : FileExtractions :=
  { file_path := str "go.go",
    symbols := [mkSym "fetch_user" 1 4 "func fetch_user() {}"],
    imports := [], calls := [],
    api_endpoints := [mkEp "/api/users/42" .Consumes "fetch_user"] }

/-- Go file consuming `/api/users/:id` — a parameterized URL that does
normalize to `/api/users/:param`. -/
def goExtractionParam : FileExtractions :=
  { file_path := str "go.go",
    symbols := [mkSym "fetch_user" 1 4 "func fetch_user() {}"],
    imports := [], calls := [],
    api_endpoints := [mkEp "/api/users/:id" .Consumes "fetch_user"] }

/-- The graph of the spec's cross-language scenario with the literal
consumer URL. -/
def gApi42 : CodeGraph :=
  CodeGraph.new.build_from_extractions [pyExtraction, goExtraction42]

/-- The graph with the parameterized consumer URL: here the `ApiCall`
edge does exist. -/
def gApiLinked : CodeGraph :=
  CodeGraph.new.build_from_extractions [pyExtraction, goExtractionParam]

/-- An extraction with two symbols of the same name. -/
def exDup : FileExtractions :=
  { file_path := str "f.rs",
    symbols := [mkSym "dup" 1 2 "fn dup() { one }",
                mkSym "dup" 4 5 "fn dup() { two }"],
    imports := [], calls := [], api_endpoints := [] }

/-- An extraction whose own endpoints form a matching Defines/Consumes
pair. -/
def exSelfApi : FileExtractions :=
  { file_path := str "s.py",
    symbols := [mkSym "serve" 1 3 "def serve(): pass",
                mkSym "probe" 5 7 "def probe(): pass"],
    imports := [], calls := [],
    api_endpoints := [mkEp "/api/ping" .Defines "serve",
                      mkEp "/api/ping" .Consumes "probe"] }

/-- A one-symbol extraction whose symbol calls itself at an absolute
line inside its range. -/
def exStale0 : FileExtractions :=
  { file_path := str "s.rs",
    symbols := [mkSym "s" 1 10 "fn s() { s() }"],
    imports := [],
    calls := [{ caller := str "s", callee := str "s", line := 5,
                line_end := 5 }],
    api_endpoints := [] }

/-- The same symbol shifted to lines 21–30 with its snippet unchanged. -/
def exStale1 : FileExtractions :=
  { file_path := str "s.rs",
    symbols := [mkSym "s" 21 30 "fn s() { s() }"],
    imports := [], calls := [], api_endpoints := [] }

/-- Build then shift: `call_lines` stays `[5]` while the range becomes
`[21, 30]`. -/
def gStale : CodeGraph :=
  (CodeGraph.new.build_from_extractions [exStale0]).update_file_incremental
    (str "s.rs") exStale1

/-- The lock-manager test graph (`test_graph_with_deps` in
`src/lock/manager.rs`): `foo`, `bar` (calls `foo`) and `baz` in
`test.rs`. -/
def lockGraph : CodeGraph :=
  let (g, file_idx) := CodeGraph.new.add_file (str "test.rs")
  let (g, foo_idx) := g.add_symbol (str "foo") .Function (str "test.rs")
    1 10 (str "fn foo() {}")
  let (g, bar_idx) := g.add_symbol (str "bar") .Function (str "test.rs")
    12 20 (str "fn bar() { foo() }")
  let (g, baz_idx) := g.add_symbol (str "baz") .Function (str "test.rs")
    22 30 (str "fn baz() {}")
  let g := g.add_edge file_idx foo_idx .Defines
  let g := g.add_edge file_idx bar_idx .Defines
  let g := g.add_edge file_idx baz_idx .Defines
  g.add_edge bar_idx foo_idx .Calls

/-- `lockGraph` with the `baz` node (index 3) soft-deleted in place: the
node keeps its entries in `symbol_index`, `qualified_index` and the
`Defines` edge from the file node, so the read operations must skip it by
the `removed` flag alone. -/
def staleLockGraph : CodeGraph :=
  lockGraph.setNode 3 (fun n => { n with removed := true })

/-! ## Run counting for the slicing claim -/

/-- Count the maximal runs of `false` in a keep bitmap, carrying the
previous value (`true` initially, so a leading run counts). -/
def falseRunsAux : Bool → List Bool → Nat
  | _, [] => 0
  | prev, b :: rest =>
    (if b = false ∧ prev = true then 1 else 0) + falseRunsAux b rest

/-- The number of maximal runs of omitted lines in a keep bitmap. -/
def falseRuns (l : List Bool) : Nat := falseRunsAux true l

/-- How many `"    ..."` separators the slice output loop emits, as a
function of the keep flags and the incoming `in_gap` state. -/
def gapEmits : Bool → List Bool → Nat
  | _, [] => 0
  | b, k :: rest =>
    (if k ∧ b then 1 else 0) + gapEmits (if k then false else true) rest

/-! ## The call-line invariant (§3) -/

/-- Every node's `call_lines` is strictly increasing (sorted with no
duplicates). -/
def sortedCallLines (g : CodeGraph) : Prop :=
  ∀ nd ∈ g.nodes, List.Pairwise (· < ·) nd.call_lines

/-- The invariant weakened on a worklist: a node is either queued for
`finalize_call_lines` or already strictly sorted. -/
def queuedCallLines (queue : List Nat) (g : CodeGraph) : Prop :=
  ∀ i nd, g.nodes.get? i = some nd →
    i ∈ queue ∨ List.Pairwise (· < ·) nd.call_lines

/-! ## Frame invariants for the incremental update (C1) -/

/-- One step of `incChangedPhase`, named so the frame proofs can split
the fold around the tracked entry. -/
def chgStep (old : List (Str × (Nat × Str)))
    (gq : CodeGraph × List Nat) (p : Str × ExtractedSymbol) :
    CodeGraph × List Nat :=
  match alookup old p.1 with
  | some (node_idx, old_code) =>
    if old_code ≠ p.2.code_snippet then
      let g := gq.1.setNode node_idx (fun n =>
        { n with code_snippet := p.2.code_snippet,
                 line_start := p.2.line_start,
                 line_end := p.2.line_end,
                 call_lines := [] })
      let g := { g with edges := g.edges.filter (fun e =>
        ¬ (e.src = node_idx ∧ e.kind = EdgeKind.Calls)) }
      (g, gq.2 ++ [node_idx])
    else
      (gq.1.setNode node_idx (fun n =>
        { n with line_start := p.2.line_start,
                 line_end := p.2.line_end }), gq.2)
  | none => gq

/-! ## Named stages of the single-file pipelines

`build_from_extractions [ex]` and `add_file; update_file_incremental`
are compositions of the same source operations; the stages are named so
the equivalence proof can identify the two pipelines phase by phase. -/

/-- The graph after `add_file(ex.file_path)` on the empty graph: node 0 is
the file node. -/
def c2G1 (ex : FileExtractions) : CodeGraph :=
  (CodeGraph.new.add_file ex.file_path).1

/-- The graph after ingesting the extraction's symbols (phase 1 of the
build, resp. the added-symbols loop of the update). -/
def c2S (ex : FileExtractions) : CodeGraph :=
  ex.symbols.foldl (fun g s => (g.ingest_symbol 0 ex.file_path s).1)
    (c2G1 ex)

/-- The graph after ingesting the imports as well (end of build phase 1,
resp. of the update's import loop). -/
def c2GI (ex : FileExtractions) : CodeGraph :=
  (c2S ex).ingest_imports 0 ex.file_path ex.imports

/-- The graph after resolving the extraction's calls (build phase 2,
resp. the update's call loop). -/
def c2GC (ex : FileExtractions) : CodeGraph :=
  ex.calls.foldl
    (fun g call =>
      match alookup g.qualified_index (ex.file_path, call.caller) with
      | some caller_idx => g.resolve_call caller_idx call
      | none => g)
    (c2GI ex)

/-- The graph after finalizing the call lines of the symbol nodes
`1 … |symbols|`. -/
def c2GF (ex : FileExtractions) : CodeGraph :=
  (c2GC ex).finalize_call_lines (List.range' 1 ex.symbols.length)

/-- The graph after resolving `Contains` edges: the common normal form of
the two single-file pipelines. -/
def c2GR (ex : FileExtractions) : CodeGraph :=
  (c2GF ex).resolve_contains ex.file_path ex.symbols none

/-! # Theorems -/

/-- C4 (counterexample): in the spec's scenario with the literal consumer
URL `/api/users/42`, no `ApiCall` edge is created — `dependencies` of the
consuming function is empty — because the two URLs do not normalize to the
same string: the literal `42` is not a parameter form. -/
theorem C4_counterexample :
    gApi42.dependencies (str "fetch_user") = [] ∧
    normalize_api_url (normalize_url (str "/api/users/42")) ≠
      normalize_api_url (normalize_url (str "/api/users/<int:id>")) := by
  constructor
  · decide
  · decide

/-- C4 (amended): with a consumer URL that carries a parameter form —
`http.Get("/api/users/:id")` — both URLs normalize to `/api/users/:param`
and the consuming function does get an `ApiCall` edge to `get_user`. -/
theorem C4_api_join_amended :
    DependencyInfo.mk (str "get_user") .Function (str "py.py") 1
        EdgeKind.ApiCall ∈ gApiLinked.dependencies (str "fetch_user") ∧
    normalize_api_url (normalize_url (str "/api/users/:id")) =
      normalize_api_url (normalize_url (str "/api/users/<int:id>")) := by
  constructor
  · decide
  · decide

/-- C5 (counterexample): on `"/a{b"`, which contains no complete parameter
form, the pipeline's normalization does not preserve the other characters:
the unclosed `{` consumes the rest of the URL and still emits `:param`,
while the normalization the claim describes leaves the string alone. -/
theorem C5_counterexample :
    normalize_api_url (normalize_url (str "/a\x7bb")) = str "/a:param" ∧
    spec_normalize_url (str "/a\x7bb") = str "/a\x7bb" ∧
    str "/a:param" ≠ str "/a\x7bb" := by
  refine ⟨by decide, by decide, by decide⟩

/-- C2 (counterexample): the two build paths differ.  With two symbols of
the same name in one extraction, `build_from_extractions` creates two
nodes while `update_file_incremental` (which keys the new symbols by name)
creates one, so `stats` disagree; with a Defines/Consumes endpoint pair
inside one extraction, only the full build creates the `ApiCall` edge, so
`dependencies` disagree. -/
theorem C2_counterexample :
    (CodeGraph.new.build_from_extractions [exDup]).stats ≠
      (((CodeGraph.new.add_file (str "f.rs")).1).update_file_incremental
        (str "f.rs") exDup).stats ∧
    (CodeGraph.new.build_from_extractions [exSelfApi]).dependencies
        (str "probe") ≠
      (((CodeGraph.new.add_file (str "s.py")).1).update_file_incremental
        (str "s.py") exSelfApi).dependencies (str "probe") := by
  constructor
  · decide
  · decide

/-- C6 (counterexample): a reachable graph in which a node's `call_lines`
element lies outside its current `[line_start, line_end]`: an incremental
update that shifts an unchanged symbol keeps its old absolute call lines
(`[5]`) while moving its range to `[21, 30]`. -/
theorem C6_counterexample :
    Reachable gStale ∧
    (gStale.node? 1).map (fun n => (n.call_lines, n.line_start, n.line_end))
      = some ([5], 21, 30) ∧
    ¬ (∀ n ∈ gStale.nodes, ∀ l ∈ n.call_lines,
        n.line_start ≤ l ∧ l ≤ n.line_end) := by
  refine ⟨Reachable.update _ _ (Reachable.build _ Reachable.empty),
    by decide, by decide⟩

/-- C7 (counterexample): the result can end with a trailing newline even
though the original did not — replacing the single line of `"a"` with
`"x\n\n"` yields `"x\n"` after the one `pop`. -/
theorem C7_counterexample :
    replace_range (str "a") 1 1 (str "x\n\n") = .ok (str "x\n") ∧
    (str "a").getLast? ≠ some '\n' ∧
    (str "x\n").getLast? = some '\n' := by
  refine ⟨by decide, by decide, by decide⟩

/-! ## Helper lemmas for `replace_range` -/

theorem foldl_pushNl (ls : List Str) (init : Str) :
    ls.foldl (fun r l => r ++ l ++ ['\n']) init =
      init ++ (ls.map (fun l => l ++ ['\n'])).flatten := by
  induction ls generalizing init with
  | nil => simp
  | cons l rest ih =>
    rw [List.foldl_cons, ih]
    simp [List.append_assoc]

/-- The conditional newline append, rewritten to splice form. -/
theorem spliceEq (B Aft nc : Str) :
    (if nc.getLast? = some '\n' then B ++ nc else B ++ nc ++ ['\n']) ++
        Aft =
      B ++ (nc ++ if nc.getLast? = some '\n' then [] else ['\n']) ++ Aft := by
  split
  · simp [List.append_assoc]
  · simp [List.append_assoc]

theorem endsNl_append (x y : Str) (h : y.getLast? = some '\n') :
    (x ++ y).getLast? = some '\n' := by
  rw [List.getLast?_append, h]; rfl

theorem flatten_endsNl (ls : List Str) (h : ls ≠ []) :
    ((ls.map (fun l => l ++ ['\n'])).flatten).getLast? = some '\n' := by
  induction ls with
  | nil => exact absurd rfl h
  | cons l rest ih =>
    rcases rest with _ | ⟨a, rest⟩
    · simp [List.getLast?_concat]
    · have := ih (by simp)
      simpa [List.append_assoc] using
        endsNl_append (l ++ ['\n']) _ this

/-- The adjusted replacement content always ends with a newline. -/
theorem ncAdj_endsNl (nc : Str) :
    (nc ++ if nc.getLast? = some '\n' then [] else ['\n']).getLast? =
      some '\n' := by
  split
  · simpa using ‹nc.getLast? = some '\n'›
  · exact List.getLast?_concat _

theorem assembled_endsNl (before after : List Str) (nc : Str) :
    (((before.map (fun l => l ++ ['\n'])).flatten ++
      (nc ++ if nc.getLast? = some '\n' then [] else ['\n']) ++
      ((after.map (fun l => l ++ ['\n'])).flatten)).getLast? =
        some '\n') := by
  rcases after with _ | ⟨a, rest⟩
  · simpa using endsNl_append _ _ (ncAdj_endsNl nc)
  · exact endsNl_append _ _ (flatten_endsNl (a :: rest) (by simp))

/-- The success value of `replace_range`: keep the lines before the range,
splice in the replacement (newline-terminated), keep the lines after the
clamped range, and pop one newline when the original had no trailing
newline. -/
theorem replace_range_ok_form (original nc : Str) (s e : Nat)
    (h0 : s ≠ 0) (h1 : s ≤ e) (h2 : s ≤ (rustLines original).length) :
    replace_range original s e nc = .ok (
      if original.getLast? = some '\n' then
        ((((rustLines original).take (s - 1)).map
            (fun l => l ++ ['\n'])).flatten ++
          (nc ++ if nc.getLast? = some '\n' then [] else ['\n']) ++
          ((((rustLines original)).drop
              (min e (rustLines original).length)).map
            (fun l => l ++ ['\n'])).flatten)
      else
        ((((rustLines original).take (s - 1)).map
            (fun l => l ++ ['\n'])).flatten ++
          (nc ++ if nc.getLast? = some '\n' then [] else ['\n']) ++
          ((((rustLines original)).drop
              (min e (rustLines original).length)).map
            (fun l => l ++ ['\n'])).flatten).dropLast) := by
  rw [replace_range]
  rw [if_neg (by omega)]
  rw [if_neg (by omega)]
  simp only [foldl_pushNl, List.nil_append, spliceEq]
  have hend := assembled_endsNl ((rustLines original).take (s - 1))
    ((rustLines original).drop (min e (rustLines original).length)) nc
  by_cases horig : original.getLast? = some '\n'
  · rw [if_neg (fun hc => hc.1 horig), if_pos horig]
  · rw [if_pos ⟨horig, hend⟩, if_neg horig]

/-- The error case of `replace_range`. -/
theorem replace_range_error_form (original nc : Str) (s e : Nat)
    (h : s = 0 ∨ e < s ∨ (rustLines original).length < s) :
    ∃ msg, replace_range original s e nc = .error (.InvalidInput msg) := by
  rw [replace_range]
  by_cases hc : s = 0 ∨ e = 0 ∨ s > e
  · rw [if_pos hc]; exact ⟨_, rfl⟩
  · rw [if_neg hc]
    rw [if_pos (by omega)]
    exact ⟨_, rfl⟩

/-- C7 (amended): `replace_range` returns an `InvalidInput` error exactly
when `start_line = 0`, `end_line < start_line`, or `start_line` exceeds
the line count; otherwise it replaces lines `start_line` through
`min end_line (line count)` with the newline-terminated replacement.  A
trailing newline of the original is preserved; when the original has no
trailing newline, one newline is popped from the end of the reassembled
text (so the result can still end with a newline if the replacement
contributes extra trailing newlines). -/
theorem C7_replace_range_amended (original nc : Str) (s e : Nat) :
    ((s = 0 ∨ e < s ∨ (rustLines original).length < s) →
      ∃ msg, replace_range original s e nc =
        .error (.InvalidInput msg)) ∧
    (¬ (s = 0 ∨ e < s ∨ (rustLines original).length < s) →
      replace_range original s e nc = .ok (
        if original.getLast? = some '\n' then
          ((((rustLines original).take (s - 1)).map
              (fun l => l ++ ['\n'])).flatten ++
            (nc ++ if nc.getLast? = some '\n' then [] else ['\n']) ++
            ((((rustLines original)).drop
                (min e (rustLines original).length)).map
              (fun l => l ++ ['\n'])).flatten)
        else
          ((((rustLines original).take (s - 1)).map
              (fun l => l ++ ['\n'])).flatten ++
            (nc ++ if nc.getLast? = some '\n' then [] else ['\n']) ++
            ((((rustLines original)).drop
                (min e (rustLines original).length)).map
              (fun l => l ++ ['\n'])).flatten).dropLast)) ∧
    (original.getLast? = some '\n' →
      ∀ r, replace_range original s e nc = .ok r →
        r.getLast? = some '\n') := by
  refine ⟨replace_range_error_form original nc s e,
    fun h => replace_range_ok_form original nc s e
      (by omega) (by omega) (by omega), ?_⟩
  intro horig r hr
  by_cases h : s = 0 ∨ e < s ∨ (rustLines original).length < s
  · obtain ⟨msg, hmsg⟩ := replace_range_error_form original nc s e h
    rw [hmsg] at hr
    exact absurd hr (by simp)
  · rw [replace_range_ok_form original nc s e (by omega) (by omega)
      (by omega)] at hr
    rw [if_pos horig] at hr
    obtain rfl : _ = r := Except.ok.inj hr
    exact assembled_endsNl _ _ nc

/-- C7 (witness): the amended theorem applied to the unit test of
`src/write.rs`: replacing lines 2–4 of a five-line file. -/
theorem C7_replace_range_amended_witness :
    replace_range (str "line 1\nline 2\nline 3\nline 4\nline 5\n") 2 4
      (str "replaced line A\nreplaced line B") =
      .ok (str "line 1\nreplaced line A\nreplaced line B\nline 5\n") := by
  have h := (C7_replace_range_amended
    (str "line 1\nline 2\nline 3\nline 4\nline 5\n")
    (str "replaced line A\nreplaced line B") 2 4).2.1 (by decide)
  rw [h]
  decide

/-! ## Helper lemmas about CRLF originals -/

theorem intercalate_cons₂ (sep a : Str) (b : Str) (t : List Str) :
    List.intercalate sep (a :: b :: t) =
      a ++ sep ++ List.intercalate sep (b :: t) := by
  simp [List.intercalate, List.intersperse, List.append_assoc]

theorem intercalate_single (sep l : Str) :
    List.intercalate sep [l] = l := by
  simp [List.intercalate]

theorem intercalate_concat (sep x : Str) (ls : List Str) (h : ls ≠ []) :
    List.intercalate sep (ls ++ [x]) =
      List.intercalate sep ls ++ sep ++ x := by
  induction ls with
  | nil => exact absurd rfl h
  | cons a rest ih =>
    rcases rest with _ | ⟨b, t⟩
    · simp [intercalate_cons₂, intercalate_single]
    · have ih' := ih (by simp)
      simp only [List.cons_append] at ih' ⊢
      rw [intercalate_cons₂ sep a b (t ++ [x]), intercalate_cons₂ sep a b t,
        ih']
      simp [List.append_assoc]

theorem stripCR_clean (l : Str) (h : '\r' ∉ l) : stripCR l = l := by
  rw [stripCR]
  split
  · next hl =>
    exact absurd (List.mem_of_mem_getLast? hl) h
  · rfl

theorem stripCR_concat_r (l : Str) : stripCR (l ++ ['\r']) = l := by
  simp [stripCR, List.getLast?_concat, List.dropLast_concat]

theorem rustLines_intercalate (init : List Str) (last : Str)
    (h : ∀ l ∈ init ++ [last], '\n' ∉ l) :
    rustLines (List.intercalate ['\n'] (init ++ [last])) =
      if last = [] then init.map stripCR
      else init.map stripCR ++ [last] := by
  have hsplit : List.splitOn '\n' (List.intercalate ['\n'] (init ++ [last]))
      = init ++ [last] :=
    List.splitOn_intercalate (init ++ [last]) '\n' h (by simp)
  rw [rustLines, hsplit, List.getLast?_concat]
  simp [List.dropLast_concat]

theorem crlf_to_lf (init : List Str) (last : Str) :
    List.intercalate ['\r', '\n'] (init ++ [last]) =
      List.intercalate ['\n']
        ((init.map (fun l => l ++ ['\r'])) ++ [last]) := by
  induction init with
  | nil => simp [intercalate_single]
  | cons a rest ih =>
    rcases rest with _ | ⟨b, t⟩
    · simp only [List.nil_append, List.cons_append, List.map_cons,
        List.map_nil]
      rw [intercalate_cons₂, intercalate_cons₂, intercalate_single,
        intercalate_single]
      simp [List.append_assoc]
    · simp only [List.cons_append, List.map_cons] at ih ⊢
      rw [intercalate_cons₂, intercalate_cons₂, ih]
      simp [List.append_assoc]

/-- The core of the CRLF/LF comparison: on a concat decomposition, the two
files split into the same `rustLines`. -/
theorem rustLines_crlf_key (init : List Str) (last : Str)
    (hc : ∀ l ∈ init ++ [last], '\n' ∉ l ∧ '\r' ∉ l) :
    rustLines (List.intercalate ['\r', '\n'] (init ++ [last])) =
      rustLines (List.intercalate ['\n'] (init ++ [last])) := by
  have hmapped : ∀ l ∈ init.map (fun l => l ++ ['\r']) ++ [last],
      '\n' ∉ l := by
    intro l hl
    rcases List.mem_append.1 hl with hl | hl
    · obtain ⟨l', hl', rfl⟩ := List.mem_map.1 hl
      have h' := hc l' (List.mem_append.2 (Or.inl hl'))
      simp [List.mem_append, h'.1]
    · simp only [List.mem_singleton] at hl
      rw [hl]
      exact (hc last (by simp)).1
  rw [crlf_to_lf,
    rustLines_intercalate (init.map (fun l => l ++ ['\r'])) last hmapped,
    rustLines_intercalate init last (fun l hl => (hc l hl).1)]
  have hmap : (init.map (fun l => l ++ ['\r'])).map stripCR = init := by
    rw [List.map_map]
    have hcomp : stripCR ∘ (fun l : Str => l ++ ['\r']) = id := by
      funext l
      exact stripCR_concat_r l
    rw [hcomp, List.map_id]
  have hmap2 : init.map stripCR = init := by
    have h' := List.map_congr_left (fun l hl =>
      stripCR_clean l (hc l (List.mem_append.2 (Or.inl hl))).2)
    simpa using h'
  rw [hmap, hmap2]

/-- A CRLF-terminated and an LF-terminated file with the same lines split
into the same `rustLines`. -/
theorem rustLines_crlf_eq (ls : List Str) (t : Bool)
    (h : ∀ l ∈ ls, '\n' ∉ l ∧ '\r' ∉ l) :
    rustLines (List.intercalate ['\r', '\n'] ls ++
        (if t then ['\r', '\n'] else [])) =
      rustLines (List.intercalate ['\n'] ls ++
        (if t then ['\n'] else [])) := by
  rcases List.eq_nil_or_concat ls with rfl | ⟨init, last, rfl⟩
  · cases t <;> simp [List.intercalate] <;> decide
  · rw [List.concat_eq_append] at h ⊢
    cases t
    · simpa using rustLines_crlf_key init last h
    · simp only [if_true]
      rw [show List.intercalate ['\r', '\n'] (init ++ [last]) ++
            ['\r', '\n'] =
          List.intercalate ['\r', '\n'] ((init ++ [last]) ++ [[]]) by
        rw [intercalate_concat ['\r', '\n'] [] (init ++ [last]) (by simp)]
        simp]
      rw [show List.intercalate ['\n'] (init ++ [last]) ++ ['\n'] =
          List.intercalate ['\n'] ((init ++ [last]) ++ [[]]) by
        rw [intercalate_concat ['\n'] [] (init ++ [last]) (by simp)]
        simp]
      exact rustLines_crlf_key (init ++ [last]) []
        (by intro l hl
            rcases List.mem_append.1 hl with hl | hl
            · exact h l hl
            · simp only [List.mem_singleton] at hl
              subst hl
              exact ⟨by simp, by simp⟩)

/-- The two files also agree on their last character test. -/
theorem getLast?_crlf_eq (ls : List Str) (t : Bool) :
    (List.intercalate ['\r', '\n'] ls ++
        (if t then ['\r', '\n'] else [])).getLast? =
      (List.intercalate ['\n'] ls ++
        (if t then ['\n'] else [])).getLast? := by
  cases t
  · simp only [if_neg Bool.false_ne_true, List.append_nil]
    induction ls with
    | nil => rfl
    | cons a rest ih =>
      rcases rest with _ | ⟨b, u⟩
      · rw [intercalate_single, intercalate_single]
      · rw [intercalate_cons₂, intercalate_cons₂, List.getLast?_append,
          List.getLast?_append, ih, List.getLast?_append,
          List.getLast?_append]
        rfl
  · simp only [if_pos rfl]
    rw [List.getLast?_append, List.getLast?_append]
    rfl

/-- `replace_range` reads the original only through `rustLines` and the
trailing-newline test. -/
theorem replace_range_congr (o1 o2 : Str) (s e : Nat) (nc : Str)
    (h1 : rustLines o1 = rustLines o2) (h2 : o1.getLast? = o2.getLast?) :
    replace_range o1 s e nc = replace_range o2 s e nc := by
  simp only [replace_range, h1, h2]

/-- Lines split from an LF file built from clean lines are `'\r'`-free. -/
theorem rustLines_lf_clean_key (init : List Str) (last : Str)
    (hc : ∀ l ∈ init ++ [last], '\n' ∉ l ∧ '\r' ∉ l) :
    ∀ l' ∈ rustLines (List.intercalate ['\n'] (init ++ [last])),
      '\r' ∉ l' := by
  intro l' hl'
  rw [rustLines_intercalate init last (fun l hl => (hc l hl).1)] at hl'
  have hinit : ∀ l' ∈ init.map stripCR, '\r' ∉ l' := by
    intro l' hl'
    obtain ⟨l'', hl'', rfl⟩ := List.mem_map.1 hl'
    rw [stripCR_clean l'' (hc l'' (List.mem_append.2 (Or.inl hl''))).2]
    exact (hc l'' (List.mem_append.2 (Or.inl hl''))).2
  by_cases hlast : last = []
  · rw [if_pos hlast] at hl'
    exact hinit l' hl'
  · rw [if_neg hlast] at hl'
    rcases List.mem_append.1 hl' with hl' | hl'
    · exact hinit l' hl'
    · simp only [List.mem_singleton] at hl'
      rw [hl']
      exact (hc last (by simp)).2

theorem rustLines_lf_clean (ls : List Str) (t : Bool)
    (h : ∀ l ∈ ls, '\n' ∉ l ∧ '\r' ∉ l) :
    ∀ l' ∈ rustLines (List.intercalate ['\n'] ls ++
      (if t then ['\n'] else [])), '\r' ∉ l' := by
  rcases List.eq_nil_or_concat ls with rfl | ⟨init, last, rfl⟩
  · cases t <;> simp [List.intercalate] <;> decide
  · rw [List.concat_eq_append] at h ⊢
    cases t
    · simpa using rustLines_lf_clean_key init last h
    · simp only [if_true]
      rw [show List.intercalate ['\n'] (init ++ [last]) ++ ['\n'] =
          List.intercalate ['\n'] ((init ++ [last]) ++ [[]]) by
        rw [intercalate_concat ['\n'] [] (init ++ [last]) (by simp)]
        simp]
      exact rustLines_lf_clean_key (init ++ [last]) []
        (by intro l hl
            rcases List.mem_append.1 hl with hl | hl
            · exact h l hl
            · simp only [List.mem_singleton] at hl
              rw [hl]
              exact ⟨by simp, by simp⟩)

/-- The reassembled content holds no `'\r'` when the lines and the
replacement are `'\r'`-free. -/
theorem assembled_clean (lines : List Str) (k d : Nat) (nc : Str)
    (hl : ∀ l ∈ lines, '\r' ∉ l) (hnc : '\r' ∉ nc) :
    '\r' ∉ (((lines.take k).map (fun l => l ++ ['\n'])).flatten ++
      (nc ++ if nc.getLast? = some '\n' then [] else ['\n']) ++
      ((lines.drop d).map (fun l => l ++ ['\n'])).flatten) := by
  intro hmem
  rcases List.mem_append.1 hmem with hmem | hmem
  · rcases List.mem_append.1 hmem with hmem | hmem
    · obtain ⟨piece, hp, hmem⟩ := List.mem_flatten.1 hmem
      obtain ⟨l, hl', rfl⟩ := List.mem_map.1 hp
      rcases List.mem_append.1 hmem with hmem | hmem
      · exact hl l (List.take_subset k lines hl') hmem
      · simp at hmem
    · rcases List.mem_append.1 hmem with hmem | hmem
      · exact hnc hmem
      · split at hmem <;> simp at hmem
  · obtain ⟨piece, hp, hmem⟩ := List.mem_flatten.1 hmem
    obtain ⟨l, hl', rfl⟩ := List.mem_map.1 hp
    rcases List.mem_append.1 hmem with hmem | hmem
    · exact hl l (List.drop_subset d lines hl') hmem
    · simp at hmem

/-- C10: a successful `replace_range` on a CRLF original behaves exactly
as on the LF original with the same lines — the file is reassembled with
`'\n'` separators — and its output contains no `'\r'` at all (when the
replacement text itself has none), so every CRLF ending of the original,
even far from the edited range, is rewritten as LF. -/
theorem C10_crlf_rewrite (ls : List Str) (t : Bool) (s e : Nat) (nc : Str)
    (h : ∀ l ∈ ls, '\n' ∉ l ∧ '\r' ∉ l) (hnc : '\r' ∉ nc) :
    replace_range
        (List.intercalate ['\r', '\n'] ls ++
          (if t then ['\r', '\n'] else [])) s e nc =
      replace_range
        (List.intercalate ['\n'] ls ++ (if t then ['\n'] else [])) s e nc ∧
    ∀ r, replace_range
        (List.intercalate ['\r', '\n'] ls ++
          (if t then ['\r', '\n'] else [])) s e nc = .ok r →
      '\r' ∉ r := by
  have hcongr := replace_range_congr _ _ s e nc
    (rustLines_crlf_eq ls t h) (getLast?_crlf_eq ls t)
  refine ⟨hcongr, ?_⟩
  intro r hr
  rw [hcongr] at hr
  set lf := List.intercalate ['\n'] ls ++ (if t then ['\n'] else [])
    with hlf
  by_cases herr : s = 0 ∨ e < s ∨ (rustLines lf).length < s
  · obtain ⟨msg, hmsg⟩ := replace_range_error_form lf nc s e herr
    rw [hmsg] at hr
    exact absurd hr (by simp)
  · rw [replace_range_ok_form lf nc s e (by omega) (by omega)
      (by omega)] at hr
    have hclean := assembled_clean (rustLines lf) (s - 1)
      (min e (rustLines lf).length) nc (rustLines_lf_clean ls t h) hnc
    split at hr
    · obtain rfl : _ = r := Except.ok.inj hr
      exact hclean
    · obtain rfl : _ = r := Except.ok.inj hr
      exact fun hm => hclean (List.Sublist.subset (List.dropLast_sublist _) hm)

/-- C10 (witness): the theorem applied to the CRLF file `"a\r\nb\r\nc"`,
replacing line 2: the result is LF-joined throughout. -/
theorem C10_crlf_rewrite_witness :
    replace_range (str "a\r\nb\r\nc") 2 2 (str "X") = .ok (str "a\nX\nc") ∧
    '\r' ∉ str "a\nX\nc" := by
  have h := (C10_crlf_rewrite [str "a", str "b", str "c"] false 2 2
    (str "X") (by decide) (by decide)).1
  constructor
  · rw [show str "a\r\nb\r\nc" =
      List.intercalate ['\r', '\n'] [str "a", str "b", str "c"] ++
        (if (false : Bool) then ['\r', '\n'] else []) by decide]
    rw [h]
    decide
  · decide

/-! ## Helper lemmas for graph-sliced rendering -/

theorem renderLine_ne_gap (num : Nat) (txt : Str) :
    renderLine num txt ≠ str "    ..." := by
  intro h
  have hc : ':' ∈ renderLine num txt := by
    rw [renderLine]
    exact List.mem_append.2 (Or.inl (List.mem_append.2 (Or.inr (by decide))))
  rw [h] at hc
  exact absurd hc (by decide)

theorem mem_buildSlice (entries : List (Bool × Nat × Str)) :
    ∀ (b : Bool) (num : Nat) (txt : Str), (true, num, txt) ∈ entries →
      renderLine num txt ∈ buildSlice b entries := by
  induction entries with
  | nil =>
    intro b num txt h
    exact absurd h (by simp)
  | cons e rest ih =>
    obtain ⟨k, n2, t2⟩ := e
    intro b num txt h
    rcases List.mem_cons.1 h with h | h
    · simp only [Prod.mk.injEq] at h
      obtain ⟨hk, hn, ht⟩ := h
      subst hn
      subst ht
      rw [← hk]
      simp [buildSlice]
    · simp only [buildSlice]
      split
      · exact List.mem_append.2
          (Or.inr (List.mem_cons_of_mem _ (ih false num txt h)))
      · exact ih true num txt h

theorem count_buildSlice (entries : List (Bool × Nat × Str)) :
    ∀ b : Bool, (buildSlice b entries).count (str "    ...") =
      gapEmits b (entries.map (·.1)) := by
  induction entries with
  | nil => intro b; simp [buildSlice, gapEmits]
  | cons e rest ih =>
    obtain ⟨k, num, txt⟩ := e
    intro b
    have hne : (renderLine num txt == str "    ...") = false :=
      beq_eq_false_iff_ne.2 (renderLine_ne_gap num txt)
    cases k
    · simp only [buildSlice, List.map_cons, gapEmits, if_neg,
        Bool.false_eq_true, false_and, if_false]
      simpa using ih true
    · cases b
      · simp only [buildSlice, List.map_cons, gapEmits]
        simp [List.count_cons, hne, ih false]
      · simp only [buildSlice, List.map_cons, gapEmits]
        simp [List.count_append, List.count_cons, hne, ih false,
          Nat.add_comm]

theorem gapEmits_cons (b k : Bool) (rest : List Bool) :
    gapEmits b (k :: rest) =
      (if k ∧ b then 1 else 0) +
        gapEmits (if k then false else true) rest := rfl

theorem falseRunsAux_cons (prev bb : Bool) (rest : List Bool) :
    falseRunsAux prev (bb :: rest) =
      (if bb = false ∧ prev = true then 1 else 0) +
        falseRunsAux bb rest := rfl

theorem gapEmits_eq_falseRuns (ks : List Bool)
    (h : ks.getLast? = some true) :
    ∀ b : Bool, gapEmits b ks =
      falseRunsAux (!b) ks + (if b then 1 else 0) := by
  induction ks with
  | nil => simp at h
  | cons k rest ih =>
    intro b
    rcases rest with _ | ⟨k2, rest2⟩
    · simp at h
      subst h
      cases b <;> simp [gapEmits, falseRunsAux]
    · have h' : (k2 :: rest2).getLast? = some true := by
        rwa [List.getLast?_cons_cons] at h
      have ih' := ih h'
      cases k
      · rw [gapEmits_cons, falseRunsAux_cons,
          show (if (false : Bool) then false else true) = true from rfl,
          ih' true]
        cases b <;> simp <;> omega
      · rw [gapEmits_cons, falseRunsAux_cons,
          show (if (true : Bool) then false else true) = false from rfl,
          ih' false]
        cases b <;> simp <;> omega

theorem setTrue_get (k : List Bool) (j i : Nat)
    (h : k.get? i = some true) : (k.set j true).get? i = some true := by
  rw [List.get?_set]
  split
  · rw [h]; rfl
  · exact h

theorem keepCallStep_length (lines : List Str) (ls : Nat) (k : List Bool)
    (L : Nat) : (keepCallStep lines ls k L).length = k.length := by
  rw [keepCallStep]
  dsimp only
  split_ifs
  all_goals simp [List.length_set]

theorem keepReturnStep_length (k : List Bool) (il : Nat × Str) :
    (keepReturnStep k il).length = k.length := by
  rw [keepReturnStep]
  split
  all_goals simp [List.length_set]

theorem foldl_length_inv {α : Type} (f : List Bool → α → List Bool)
    (l : List α) (keep : List Bool)
    (hf : ∀ k a, (f k a).length = k.length) :
    (l.foldl f keep).length = keep.length := by
  induction l generalizing keep with
  | nil => rfl
  | cons a rest ih => rw [List.foldl_cons, ih, hf]

theorem keepBase_length (lines : List Str) :
    (keepBase lines).length = lines.length := by
  rw [keepBase]
  split
  all_goals simp [List.length_set]

theorem keepVector_length (lines : List Str) (cl : List Nat) (ls : Nat) :
    (keepVector lines cl ls).length = lines.length := by
  rw [keepVector,
    foldl_length_inv _ _ _ keepReturnStep_length,
    foldl_length_inv _ _ _ (keepCallStep_length lines ls),
    keepBase_length]

theorem keepCallStep_mono (lines : List Str) (ls : Nat) (k : List Bool)
    (L i : Nat) (h : k.get? i = some true) :
    (keepCallStep lines ls k L).get? i = some true := by
  rw [keepCallStep]
  dsimp only
  split_ifs
  all_goals
    first
    | exact h
    | exact setTrue_get _ _ _ h
    | exact setTrue_get _ _ _ (setTrue_get _ _ _ h)
    | exact setTrue_get _ _ _ (setTrue_get _ _ _ (setTrue_get _ _ _ h))

theorem keepReturnStep_mono (k : List Bool) (il : Nat × Str) (i : Nat)
    (h : k.get? i = some true) :
    (keepReturnStep k il).get? i = some true := by
  rw [keepReturnStep]
  split
  · exact setTrue_get _ _ _ h
  · exact h

theorem foldl_get_true {α : Type} (f : List Bool → α → List Bool)
    (l : List α) (keep : List Bool) (i : Nat)
    (hf : ∀ k a, k.get? i = some true → (f k a).get? i = some true)
    (h : keep.get? i = some true) :
    (l.foldl f keep).get? i = some true := by
  induction l generalizing keep with
  | nil => exact h
  | cons a rest ih => exact ih _ (hf _ _ h)

theorem keepBase_get_zero (lines : List Str) (h : 0 < lines.length) :
    (keepBase lines).get? 0 = some true := by
  rw [keepBase]
  have h0 : ((List.replicate lines.length false).set 0 true).get? 0 =
      some true := by
    rw [List.get?_set]
    simp [List.get?_eq_getElem?, List.getElem?_replicate, h]
  split
  · exact setTrue_get _ _ _ h0
  · exact h0

theorem keepBase_get_last (lines : List Str) (h : 1 < lines.length) :
    (keepBase lines).get? (lines.length - 1) = some true := by
  rw [keepBase]
  rw [if_pos h, List.get?_set, if_pos rfl]
  have hr : ((List.replicate lines.length false).set 0 true).get?
      (lines.length - 1) = some false := by
    rw [List.get?_set, if_neg (by omega), List.get?_eq_getElem?,
      List.getElem?_replicate, if_pos (by omega)]
  rw [hr]
  rfl

theorem keepVector_get_zero (lines : List Str) (cl : List Nat) (ls : Nat)
    (h : 0 < lines.length) :
    (keepVector lines cl ls).get? 0 = some true := by
  rw [keepVector]
  exact foldl_get_true _ _ _ _ (fun k a => keepReturnStep_mono k a 0)
    (foldl_get_true _ _ _ _ (fun k a => keepCallStep_mono lines ls k a 0)
      (keepBase_get_zero lines h))

theorem keepVector_get_last (lines : List Str) (cl : List Nat) (ls : Nat)
    (h : 1 < lines.length) :
    (keepVector lines cl ls).get? (lines.length - 1) = some true := by
  rw [keepVector]
  exact foldl_get_true _ _ _ _ (fun k a => keepReturnStep_mono k a _)
    (foldl_get_true _ _ _ _ (fun k a => keepCallStep_mono lines ls k a _)
      (keepBase_get_last lines h))

/-- Processing an in-range call line sets its relative keep bit. -/
theorem keepCallStep_sets (lines : List Str) (ls : Nat) (k : List Bool)
    (L : Nat) (hge : ls ≤ L) (hlt : L - ls < lines.length)
    (hlen : k.length = lines.length) :
    (keepCallStep lines ls k L).get? (L - ls) = some true := by
  rw [keepCallStep, if_pos hge, if_pos hlt]
  have hset : (k.set (L - ls) true).get? (L - ls) = some true := by
    rw [List.get?_set, if_pos rfl, List.get?_eq_get (by omega)]
    rfl
  split
  · split
    · exact setTrue_get _ _ _ (setTrue_get _ _ _ hset)
    · exact setTrue_get _ _ _ hset
  · split
    · exact setTrue_get _ _ _ hset
    · exact hset

theorem keepVector_get_call (lines : List Str) (cl : List Nat) (ls L : Nat)
    (hmem : L ∈ cl) (hge : ls ≤ L) (hlt : L - ls < lines.length) :
    (keepVector lines cl ls).get? (L - ls) = some true := by
  obtain ⟨pre, post, rfl⟩ := List.append_of_mem hmem
  rw [keepVector, List.foldl_append, List.foldl_cons]
  refine foldl_get_true _ _ _ _ (fun k a => keepReturnStep_mono k a _)
    (foldl_get_true _ _ _ _ (fun k a => keepCallStep_mono lines ls k a _)
      (keepCallStep_sets lines ls _ L hge hlt ?_))
  rw [foldl_length_inv _ _ _ (keepCallStep_length lines ls),
    keepBase_length]

/-- Reading the keep bitmap back through `enum` gives the bitmap. -/
theorem enum_keep_map (lines : List Str) (keep : List Bool)
    (h : keep.length = lines.length) :
    lines.enum.map (fun il => (keep.get? il.1).getD false) = keep := by
  apply List.ext_get?
  intro i
  rw [List.get?_map, List.get?_eq_getElem?, List.getElem?_enum]
  by_cases hi : i < lines.length
  · rw [List.getElem?_eq_getElem hi]
    have hv : keep[i]? = some (keep.get ⟨i, by omega⟩) := by
      rw [← List.get?_eq_getElem?]
      exact List.get?_eq_get (by omega)
    simp [hv]
  · rw [List.getElem?_eq_none (by omega)]
    rw [List.get?_eq_none.2 (by omega)]
    rfl

theorem keepVector_getLast (lines : List Str) (cl : List Nat) (ls : Nat)
    (h : 1 < lines.length) :
    (keepVector lines cl ls).getLast? = some true := by
  rw [List.getLast?_eq_getElem?, ← List.get?_eq_getElem?,
    keepVector_length]
  exact keepVector_get_last lines cl ls h

/-- C9: for a snippet of more than ten lines with a non-empty call-line
list, the sliced output (a) is the newline-join of `sliceItems`, contains
(b) the first line, (c) the last line, and (d) every call line that falls
inside the snippet's range, each rendered with its absolute number, and
(e) renders each maximal run of omitted lines as one `"    ..."`
separator: the separator count equals the number of maximal false runs of
the keep bitmap. -/
theorem C9_slice_coverage (code : Str) (call_lines : List Nat)
    (line_start : Nat) (hlen : 10 < (rustLines code).length)
    (hcl : call_lines ≠ []) :
    (slice_code code call_lines line_start).code =
      (sliceItems (rustLines code) call_lines line_start).foldl
        (fun r l => r ++ l ++ ['\n']) [] ∧
    (∀ l0, (rustLines code).get? 0 = some l0 →
      renderLine line_start l0 ∈
        sliceItems (rustLines code) call_lines line_start) ∧
    (∀ ll, (rustLines code).get? ((rustLines code).length - 1) = some ll →
      renderLine (line_start + ((rustLines code).length - 1)) ll ∈
        sliceItems (rustLines code) call_lines line_start) ∧
    (∀ L ∈ call_lines, line_start ≤ L →
      L - line_start < (rustLines code).length →
      ∀ lL, (rustLines code).get? (L - line_start) = some lL →
        renderLine L lL ∈
          sliceItems (rustLines code) call_lines line_start) ∧
    (sliceItems (rustLines code) call_lines line_start).count
        (str "    ...") =
      falseRuns (keepVector (rustLines code) call_lines line_start) := by
  have hmem : ∀ i l, (rustLines code).get? i = some l →
      (keepVector (rustLines code) call_lines line_start).get? i =
        some true →
      renderLine (line_start + i) l ∈
        sliceItems (rustLines code) call_lines line_start := by
    intro i l hl hk
    rw [sliceItems]
    apply mem_buildSlice
    apply List.mem_map.2
    refine ⟨(i, l), ?_, ?_⟩
    · rw [List.mem_enum_iff_getElem?, ← List.get?_eq_getElem?]
      exact hl
    · have hk' := hk
      rw [List.get?_eq_getElem?] at hk'
      simp [hk']
  refine ⟨?_, ?_, ?_, ?_, ?_⟩
  · rw [slice_code, if_neg (by push_neg; exact ⟨by omega, hcl⟩)]
  · intro l0 h0
    have hz := keepVector_get_zero (rustLines code) call_lines line_start
      (by omega)
    simpa using hmem 0 l0 h0 hz
  · intro ll hll
    exact hmem _ ll hll (keepVector_get_last _ _ _ (by omega))
  · intro L hL hge hlt lL hlL
    have := hmem (L - line_start) lL hlL
      (keepVector_get_call _ _ _ L hL hge hlt)
    rwa [show line_start + (L - line_start) = L by omega] at this
  · rw [sliceItems, count_buildSlice]
    rw [show (((rustLines code).enum.map (fun il =>
        (((keepVector (rustLines code) call_lines line_start).get?
          il.1).getD false, line_start + il.1, il.2))).map (·.1)) =
        (rustLines code).enum.map (fun il =>
          ((keepVector (rustLines code) call_lines line_start).get?
            il.1).getD false) by rw [List.map_map]; rfl]
    rw [enum_keep_map _ _ (keepVector_length _ _ _)]
    rw [gapEmits_eq_falseRuns _ (keepVector_getLast _ _ _ (by omega))
      false]
    rfl

/-- C9 (witness): a 12-line snippet with one call line; the theorem
instantiated and its memberships checked concretely. -/
theorem C9_slice_coverage_witness :
    (10 < (rustLines (str
      "s\na\nb\nc\nd\ne\nf\ng\nh\ni\nj\nz")).length) ∧
    renderLine 4 (str "c") ∈
      sliceItems (rustLines (str "s\na\nb\nc\nd\ne\nf\ng\nh\ni\nj\nz"))
        [4] 1 ∧
    renderLine 1 (str "s") ∈
      sliceItems (rustLines (str "s\na\nb\nc\nd\ne\nf\ng\nh\ni\nj\nz"))
        [4] 1 := by
  have h := C9_slice_coverage
    (str "s\na\nb\nc\nd\ne\nf\ng\nh\ni\nj\nz") [4] 1 (by decide)
    (by decide)
  refine ⟨by decide, ?_, ?_⟩
  · exact h.2.2.2.1 4 (by decide) (by decide) (by decide) (str "c")
      (by decide)
  · exact h.2.1 (str "s") (by decide)

/-! ## Association-list lemmas -/

theorem alookup_nil {κ β : Type} [DecidableEq κ] (k : κ) :
    alookup ([] : List (κ × β)) k = none := rfl

theorem alookup_cons {κ β : Type} [DecidableEq κ] (p : κ × β)
    (l : List (κ × β)) (k : κ) :
    alookup (p :: l) k = if p.1 = k then some p.2 else alookup l k := by
  rw [alookup, alookup]
  by_cases h : p.1 = k
  · rw [List.find?_cons_of_pos _ (by simpa using h), if_pos h]
    rfl
  · rw [List.find?_cons_of_neg _ (by simpa using h), if_neg h]

theorem alookup_append {κ β : Type} [DecidableEq κ]
    (l₁ l₂ : List (κ × β)) (k : κ) :
    alookup (l₁ ++ l₂) k = (alookup l₁ k).or (alookup l₂ k) := by
  induction l₁ with
  | nil => rfl
  | cons p rest ih =>
    rw [List.cons_append, alookup_cons, alookup_cons]
    by_cases h : p.1 = k
    · rw [if_pos h, if_pos h]
      rfl
    · rw [if_neg h, if_neg h, ih]

theorem alookup_eq_none_of_not_any {κ β : Type} [DecidableEq κ]
    (l : List (κ × β)) (k : κ)
    (h : ¬ (l.any fun p => decide (p.1 = k)) = true) :
    alookup l k = none := by
  rw [alookup, List.find?_eq_none.2]
  · rfl
  · intro p hp hc
    exact h (List.any_eq_true.2 ⟨p, hp, hc⟩)

theorem alookup_setval {κ β : Type} [DecidableEq κ] (k : κ) (v : β)
    (l : List (κ × β)) (h : (l.any fun p => decide (p.1 = k)) = true) :
    alookup (l.map fun p => if p.1 = k then (k, v) else p) k = some v := by
  induction l with
  | nil => simp at h
  | cons p rest ih =>
    rw [List.map_cons]
    by_cases hp : p.1 = k
    · rw [if_pos hp, alookup_cons, if_pos rfl]
    · rw [if_neg hp, alookup_cons, if_neg hp]
      apply ih
      simpa [hp] using h

theorem alookup_mapval_ne {κ β : Type} [DecidableEq κ] (k k' : κ) (v : β)
    (h : ¬ k' = k) (l : List (κ × β)) :
    alookup (l.map fun p => if p.1 = k then (k, v) else p) k' =
      alookup l k' := by
  induction l with
  | nil => rfl
  | cons p rest ih =>
    rw [List.map_cons]
    by_cases hp : p.1 = k
    · rw [if_pos hp, alookup_cons, alookup_cons,
        if_neg (show ¬ (k, v).1 = k' from fun hc => h hc.symm),
        if_neg (show ¬ p.1 = k' from fun hc => h (hp.symm.trans hc).symm)]
      exact ih
    · rw [if_neg hp, alookup_cons, alookup_cons]
      by_cases hp' : p.1 = k'
      · rw [if_pos hp', if_pos hp']
      · rw [if_neg hp', if_neg hp', ih]

theorem alookup_ainsert_self {κ β : Type} [DecidableEq κ]
    (l : List (κ × β)) (k : κ) (v : β) :
    alookup (ainsert l k v) k = some v := by
  rw [ainsert]
  split
  · next hany => exact alookup_setval k v l hany
  · next hany =>
    rw [alookup_append, alookup_eq_none_of_not_any l k hany,
      alookup_cons, if_pos rfl]
    rfl

theorem alookup_ainsert_ne {κ β : Type} [DecidableEq κ]
    (l : List (κ × β)) (k : κ) (v : β) (k' : κ) (h : ¬ k' = k) :
    alookup (ainsert l k v) k' = alookup l k' := by
  rw [ainsert]
  split
  · exact alookup_mapval_ne k k' v h l
  · rw [alookup_append, alookup_cons,
      if_neg (show ¬ (k, v).1 = k' from fun hc => h hc.symm)]
    cases alookup l k' <;> rfl

/-- Membership in an inserted table. -/
theorem mem_ainsert {κ β : Type} [DecidableEq κ]
    (l : List (κ × β)) (k : κ) (v : β) (p : κ × β)
    (hp : p ∈ ainsert l k v) : p ∈ l ∨ p = (k, v) := by
  rw [ainsert] at hp
  split at hp
  · obtain ⟨q, hq, hqp⟩ := List.mem_map.1 hp
    split at hqp
    · exact Or.inr hqp.symm
    · exact Or.inl (hqp ▸ hq)
  · rcases List.mem_append.1 hp with hp | hp
    · exact Or.inl hp
    · simp only [List.mem_singleton] at hp
      exact Or.inr hp

/-! ## Lock-manager lemmas -/

theorem findBlocker_nil_table (symbol : SymbolKey) (cone : List SymbolKey) :
    findBlocker [] symbol cone = none := by
  induction cone with
  | nil => rfl
  | cons c rest ih => simp [findBlocker, alookup_nil, ih]

theorem findBlocker_none_of (locks : LockTable) (symbol : SymbolKey)
    (cone : List SymbolKey) (h : ∀ s ∈ cone, alookup locks s = none) :
    findBlocker locks symbol cone = none := by
  induction cone with
  | nil => rfl
  | cons c rest ih =>
    rw [findBlocker, h c (by simp)]
    exact ih (fun s hs => h s (List.mem_cons_of_mem _ hs))

theorem findBlocker_some_of (locks : LockTable) (symbol p : SymbolKey)
    (cone : List SymbolKey)
    (hv : ∀ s ∈ cone, ∀ e, alookup locks s = some e →
      e.primary_symbol = p)
    (hp : p ≠ symbol)
    (hex : ∃ s ∈ cone, (alookup locks s).isSome) :
    ∃ s', findBlocker locks symbol cone = some (s', p) := by
  induction cone with
  | nil => simp at hex
  | cons c rest ih =>
    rw [findBlocker]
    rcases hc : alookup locks c with _ | e
    · refine ih (fun s hs => hv s (List.mem_cons_of_mem _ hs)) ?_
      obtain ⟨s, hs, hsome⟩ := hex
      rcases List.mem_cons.1 hs with rfl | hs
      · rw [hc] at hsome
        exact absurd hsome (by simp)
      · exact ⟨s, hs, hsome⟩
    · have he := hv c (by simp) e hc
      refine ⟨c, ?_⟩
      show (if e.primary_symbol ≠ symbol then some (c, e.primary_symbol)
        else findBlocker locks symbol rest) = some (c, p)
      rw [if_pos (show e.primary_symbol ≠ symbol from he ▸ hp), he]

theorem insertAll_values (cone : List SymbolKey) (e : LockEntry)
    (t : LockTable) (h : ∀ p ∈ t, p.2 = e) :
    ∀ p ∈ cone.foldl (fun l s => ainsert l s e) t, p.2 = e := by
  induction cone generalizing t with
  | nil => exact h
  | cons c rest ih =>
    rw [List.foldl_cons]
    refine ih _ ?_
    intro p hp
    rcases mem_ainsert _ _ _ _ hp with hp | hp
    · exact h p hp
    · rw [hp]

theorem alookup_insertAll (cone : List SymbolKey) (e : LockEntry)
    (t : LockTable) (s : SymbolKey) :
    alookup (cone.foldl (fun l s' => ainsert l s' e) t) s =
      if s ∈ cone then some e else alookup t s := by
  induction cone generalizing t with
  | nil => simp
  | cons c rest ih =>
    rw [List.foldl_cons, ih]
    by_cases hmem : s ∈ rest
    · rw [if_pos hmem, if_pos (List.mem_cons_of_mem _ hmem)]
    · rw [if_neg hmem]
      by_cases hsc : s = c
      · rw [hsc, alookup_ainsert_self, if_pos (by simp)]
      · rw [alookup_ainsert_ne _ _ _ _ hsc,
          if_neg (by simp [hsc, hmem])]

/-- One-step evaluation of `try_acquire_symbol`. -/
theorem try_acquire_symbol_eq (symbol : SymbolKey) (g : CodeGraph)
    (locks : LockTable) :
    try_acquire_symbol symbol g locks =
      match findBlocker locks symbol
          (symbol :: get_symbol_dependents symbol g) with
      | some (s, primary) =>
        (.Blocked primary (blockedReason s primary), locks)
      | none =>
        (.Acquired symbol (get_symbol_dependents symbol g),
         (symbol :: get_symbol_dependents symbol g).foldl
           (fun l s => ainsert l s (LockEntry.mk symbol)) locks) := rfl

/-- One-step evaluation of `acquireLoop`. -/
theorem acquireLoop_eq (symbol : SymbolKey) (dependents : List SymbolKey)
    (timeout : Nat) (locks : LockTable) (elapsed : Nat)
    (wakeups : List (LockTable × Nat)) :
    acquireLoop symbol dependents timeout locks elapsed wakeups =
      match findBlocker locks symbol (symbol :: dependents) with
      | none =>
        if elapsed > 0 then
          (.AcquiredAfterWait symbol dependents elapsed,
           (symbol :: dependents).foldl
             (fun l s => ainsert l s (LockEntry.mk symbol)) locks)
        else
          (.Acquired symbol dependents,
           (symbol :: dependents).foldl
             (fun l s => ainsert l s (LockEntry.mk symbol)) locks)
      | some (_, primary) =>
        if elapsed ≥ timeout then
          (.Blocked primary
            (str "Timeout after " ++ (toString elapsed).data ++ str "ms"),
           locks)
        else
          match wakeups with
          | [] => (.Blocked primary (str "Timeout waiting for lock"), locks)
          | (locks', elapsed') :: rest =>
            acquireLoop symbol dependents timeout locks' elapsed' rest := by
  rw [acquireLoop]

/-- **C3.** Cone semantics of the lock manager.  From an empty table the
first acquire of `k1` succeeds and locks its whole cone.  When the cone of
`k2` is disjoint from the cone of `k1`, a subsequent `try_acquire_symbol`
of `k2` also returns `Acquired`; when the cones overlap, the zero-wait
acquire of `k2` returns `Blocked` naming `k1` as the blocker, and
`acquire_symbol_with_wait` returns `AcquiredAfterWait` at the wakeup
following `k1`'s release, for any positive wait time within the timeout. -/
theorem C3_lock_cone_semantics (g : CodeGraph) (k1 k2 : SymbolKey)
    (hne : k1 ≠ k2) :
    (try_acquire_symbol k1 g []).1 =
      .Acquired k1 (get_symbol_dependents k1 g) ∧
    ((∀ s ∈ k2 :: get_symbol_dependents k2 g,
        s ∉ k1 :: get_symbol_dependents k1 g) →
      (try_acquire_symbol k2 g (try_acquire_symbol k1 g []).2).1 =
        .Acquired k2 (get_symbol_dependents k2 g)) ∧
    ((∃ s, s ∈ k2 :: get_symbol_dependents k2 g ∧
        s ∈ k1 :: get_symbol_dependents k1 g) →
      ∃ reason,
        (try_acquire_symbol k2 g (try_acquire_symbol k1 g []).2).1 =
          .Blocked k1 reason) ∧
    (∀ t timeout, 0 < t → t ≤ timeout →
      (∃ s, s ∈ k2 :: get_symbol_dependents k2 g ∧
        s ∈ k1 :: get_symbol_dependents k1 g) →
      (acquire_symbol_with_wait k2 g timeout
          (try_acquire_symbol k1 g []).2
          [(release_symbol k1 (try_acquire_symbol k1 g []).2, t)]).1 =
        .AcquiredAfterWait k2 (get_symbol_dependents k2 g) t) := by
  have hsnd : (try_acquire_symbol k1 g []).2 =
      (k1 :: get_symbol_dependents k1 g).foldl
        (fun l s => ainsert l s (LockEntry.mk k1)) [] := by
    rw [try_acquire_symbol_eq k1, findBlocker_nil_table]
  have hlook : ∀ s, alookup (try_acquire_symbol k1 g []).2 s =
      if s ∈ k1 :: get_symbol_dependents k1 g then some (LockEntry.mk k1)
      else none := by
    intro s
    rw [hsnd, alookup_insertAll, alookup_nil]
  have hsb : (∃ s, s ∈ k2 :: get_symbol_dependents k2 g ∧
      s ∈ k1 :: get_symbol_dependents k1 g) →
      ∃ s', findBlocker (try_acquire_symbol k1 g []).2 k2
        (k2 :: get_symbol_dependents k2 g) = some (s', k1) := by
    rintro ⟨s0, hs2, hs1⟩
    refine findBlocker_some_of _ k2 k1 _ ?_ hne ?_
    · intro s hs e he
      rw [hlook s] at he
      by_cases hmem : s ∈ k1 :: get_symbol_dependents k1 g
      · rw [if_pos hmem] at he
        rw [← Option.some.inj he]
      · rw [if_neg hmem] at he
        exact Option.noConfusion he
    · refine ⟨s0, hs2, ?_⟩
      rw [hlook s0, if_pos hs1]
      rfl
  refine ⟨?_, ?_, ?_, ?_⟩
  · rw [try_acquire_symbol_eq k1, findBlocker_nil_table]
  · intro hdisj
    have hnb : findBlocker (try_acquire_symbol k1 g []).2 k2
        (k2 :: get_symbol_dependents k2 g) = none :=
      findBlocker_none_of _ _ _ (fun s hs => by
        rw [hlook s, if_neg (hdisj s hs)])
    rw [try_acquire_symbol_eq k2, hnb]
  · intro hov
    obtain ⟨s', hs'⟩ := hsb hov
    refine ⟨blockedReason s' k1, ?_⟩
    rw [try_acquire_symbol_eq k2, hs']
  · intro t timeout ht htt hov
    obtain ⟨s', hs'⟩ := hsb hov
    have h0 : ¬ (0 ≥ timeout) := by omega
    have hrel : release_symbol k1 (try_acquire_symbol k1 g []).2 = [] := by
      rw [release_symbol, hsnd, List.filter_eq_nil_iff]
      intro p hp
      have hv := insertAll_values (k1 :: get_symbol_dependents k1 g)
        (LockEntry.mk k1) [] (fun q hq => absurd hq (List.not_mem_nil q))
        p hp
      simp [hv]
    simp only [acquire_symbol_with_wait, acquireLoop_eq, hs', hrel,
      findBlocker_nil_table]
    rw [if_neg h0, if_pos ht]

/-- Witness for C3 on `lockGraph` (the graph of the manager's unit tests):
the cones of `foo` (= `{foo, bar}`, since `bar` calls `foo`) and `baz`
(= `{baz}`) are disjoint, while the cone of `bar` (= `{bar}`) overlaps
`foo`'s. -/
theorem C3_lock_cone_semantics_witness :
    (try_acquire_symbol ⟨str "test.rs", str "foo"⟩ lockGraph []).1 =
      .Acquired ⟨str "test.rs", str "foo"⟩
        (get_symbol_dependents ⟨str "test.rs", str "foo"⟩ lockGraph) ∧
    (try_acquire_symbol ⟨str "test.rs", str "baz"⟩ lockGraph
        (try_acquire_symbol ⟨str "test.rs", str "foo"⟩ lockGraph []).2).1 =
      .Acquired ⟨str "test.rs", str "baz"⟩
        (get_symbol_dependents ⟨str "test.rs", str "baz"⟩ lockGraph) ∧
    (∃ reason,
      (try_acquire_symbol ⟨str "test.rs", str "bar"⟩ lockGraph
          (try_acquire_symbol ⟨str "test.rs", str "foo"⟩
            lockGraph []).2).1 =
        .Blocked ⟨str "test.rs", str "foo"⟩ reason) ∧
    (acquire_symbol_with_wait ⟨str "test.rs", str "bar"⟩ lockGraph 10
        (try_acquire_symbol ⟨str "test.rs", str "foo"⟩ lockGraph []).2
        [(release_symbol ⟨str "test.rs", str "foo"⟩
            (try_acquire_symbol ⟨str "test.rs", str "foo"⟩
              lockGraph []).2, 5)]).1 =
      .AcquiredAfterWait ⟨str "test.rs", str "bar"⟩
        (get_symbol_dependents ⟨str "test.rs", str "bar"⟩ lockGraph) 5 :=
  ⟨(C3_lock_cone_semantics lockGraph ⟨str "test.rs", str "foo"⟩
      ⟨str "test.rs", str "baz"⟩ (by decide)).1,
   (C3_lock_cone_semantics lockGraph ⟨str "test.rs", str "foo"⟩
      ⟨str "test.rs", str "baz"⟩ (by decide)).2.1 (by decide),
   (C3_lock_cone_semantics lockGraph ⟨str "test.rs", str "foo"⟩
      ⟨str "test.rs", str "bar"⟩ (by decide)).2.2.1
     ⟨⟨str "test.rs", str "bar"⟩, by decide, by decide⟩,
   (C3_lock_cone_semantics lockGraph ⟨str "test.rs", str "foo"⟩
      ⟨str "test.rs", str "bar"⟩ (by decide)).2.2.2 5 10 (by decide)
     (by decide) ⟨⟨str "test.rs", str "bar"⟩, by decide, by decide⟩⟩

/-! ## Liveness of the read operations -/

theorem is_live_spec (g : CodeGraph) (i : Nat) (nd : NodeData)
    (hl : g.is_live i = true) (hn : g.nodes.get? i = some nd) :
    nd.removed = false := by
  rw [CodeGraph.is_live, hn] at hl
  simpa using hl

/-- Membership in an accumulate-if fold. -/
theorem mem_foldl_append_if {α β : Type} (f : α → List β) (p : α → Bool)
    (l : List α) (init : List β) (b : β)
    (h : b ∈ l.foldl (fun acc a => if p a then acc ++ f a else acc) init) :
    b ∈ init ∨ ∃ a ∈ l, b ∈ f a := by
  induction l generalizing init with
  | nil => exact Or.inl h
  | cons x xs ih =>
    rw [List.foldl_cons] at h
    rcases ih _ h with hinit | ⟨a, ha, hb⟩
    · by_cases hp : p x
      · rw [if_pos hp] at hinit
        rcases List.mem_append.1 hinit with h1 | h2
        · exact Or.inl h1
        · exact Or.inr ⟨x, by simp, h2⟩
      · rw [if_neg hp] at hinit
        exact Or.inl hinit
    · exact Or.inr ⟨a, List.mem_cons_of_mem _ ha, hb⟩

theorem build_search_result_live (g : CodeGraph) (idx : Nat)
    (r : SearchResult) (h : g.build_search_result idx = some r) :
    ∃ nd ∈ g.nodes, nd.removed = false ∧ r.symbol = nd.name ∧
      r.kind = nd.kind ∧ r.file = nd.file_path := by
  cases hn : g.nodes.get? idx with
  | none =>
    simp only [CodeGraph.build_search_result, hn] at h
    exact Option.noConfusion h
  | some node =>
    simp only [CodeGraph.build_search_result, hn] at h
    by_cases hcond : node.kind = NodeKind.File ∨ node.removed = true
    · rw [if_pos hcond] at h
      exact Option.noConfusion h
    · rw [if_neg hcond] at h
      cases Option.some.inj h
      exact ⟨node, List.get?_mem hn,
        by simpa using (not_or.1 hcond).2, rfl, rfl, rfl⟩

theorem search_live (g : CodeGraph) (q : Str) (limit : Nat)
    (r : SearchResult) (h : r ∈ g.search q limit) :
    ∃ nd ∈ g.nodes, nd.removed = false ∧ r.symbol = nd.name ∧
      r.kind = nd.kind ∧ r.file = nd.file_path := by
  simp only [CodeGraph.search] at h
  split at h
  · rcases List.mem_filterMap.1 h with ⟨p, _, heq⟩
    exact build_search_result_live g p.2 r heq
  · cases halk : alookup g.symbol_index q with
    | none =>
      rw [halk] at h
      exact absurd h (by simp)
    | some indexes =>
      rw [halk] at h
      rcases List.mem_filterMap.1 h with ⟨idx, _, heq⟩
      exact build_search_result_live g idx r heq

theorem dependents_live (g : CodeGraph) (name : Str) (d : DependencyInfo)
    (h : d ∈ g.dependents name) :
    ∃ nd ∈ g.nodes, nd.removed = false ∧ d.symbol = nd.name ∧
      d.kind = nd.kind ∧ d.file = nd.file_path ∧ d.line = nd.line_start := by
  rw [CodeGraph.dependents] at h
  cases halk : alookup g.symbol_index name with
  | none =>
    rw [halk] at h
    exact absurd h (by simp)
  | some indexes =>
    rw [halk] at h
    rcases mem_foldl_append_if _ _ _ _ _ h with hnil | ⟨idx, _, hd⟩
    · exact absurd hnil (by simp)
    · rcases List.mem_filterMap.1 hd with ⟨e, hef, heq⟩
      have hcond := of_decide_eq_true (List.mem_filter.1 hef).2
      rcases Option.map_eq_some'.1 heq with ⟨s, hs, hds⟩
      cases hds
      exact ⟨s, List.get?_mem hs, is_live_spec g e.src s hcond.2 hs,
        rfl, rfl, rfl, rfl⟩

theorem dependencies_live (g : CodeGraph) (name : Str) (d : DependencyInfo)
    (h : d ∈ g.dependencies name) :
    ∃ nd ∈ g.nodes, nd.removed = false ∧ d.symbol = nd.name ∧
      d.kind = nd.kind ∧ d.file = nd.file_path ∧ d.line = nd.line_start := by
  rw [CodeGraph.dependencies] at h
  cases halk : alookup g.symbol_index name with
  | none =>
    rw [halk] at h
    exact absurd h (by simp)
  | some indexes =>
    rw [halk] at h
    rcases mem_foldl_append_if _ _ _ _ _ h with hnil | ⟨idx, _, hd⟩
    · exact absurd hnil (by simp)
    · rcases List.mem_filterMap.1 hd with ⟨e, hef, heq⟩
      have hcond := of_decide_eq_true (List.mem_filter.1 hef).2
      rcases Option.map_eq_some'.1 heq with ⟨t, ht, hdt⟩
      cases hdt
      exact ⟨t, List.get?_mem ht, is_live_spec g e.tgt t hcond.2 ht,
        rfl, rfl, rfl, rfl⟩

theorem symbols_in_file_live (g : CodeGraph) (path : Str) (nd : NodeData)
    (h : nd ∈ g.symbols_in_file path) :
    nd ∈ g.nodes ∧ nd.removed = false := by
  cases halk : alookup g.file_index path with
  | none =>
    simp only [CodeGraph.symbols_in_file, halk] at h
    exact absurd h (by simp)
  | some fi =>
    simp only [CodeGraph.symbols_in_file, halk] at h
    by_cases hl : g.is_live fi = true
    · rw [if_pos hl] at h
      rcases List.mem_filterMap.1 h with ⟨e, hef, heq⟩
      have hcond := of_decide_eq_true (List.mem_filter.1 hef).2
      exact ⟨List.get?_mem heq, is_live_spec g e.tgt nd hcond.2.2 heq⟩
    · rw [if_neg hl] at h
      exact absurd h (by simp)

theorem find_qualified_live (g : CodeGraph) (f n : Str) (nd : NodeData)
    (h : g.find_qualified f n = some nd) :
    nd ∈ g.nodes ∧ nd.removed = false := by
  cases halk : alookup g.qualified_index (f, n) with
  | none =>
    simp only [CodeGraph.find_qualified, halk] at h
    exact Option.noConfusion h
  | some idx =>
    cases hn : g.nodes.get? idx with
    | none =>
      simp only [CodeGraph.find_qualified, halk, hn] at h
      exact Option.noConfusion h
    | some node =>
      simp only [CodeGraph.find_qualified, halk, hn] at h
      by_cases hrem : node.removed = true
      · rw [if_pos hrem] at h
        exact Option.noConfusion h
      · rw [if_neg hrem] at h
        cases Option.some.inj h
        exact ⟨List.get?_mem hn, by simpa using hrem⟩

/-- **C8.** No public read operation returns or counts a removed node:
every `search`, `dependents`, `dependencies`, `symbols_in_file`,
`symbols_in_range` and `find_qualified` result comes from a node of the
graph whose `removed` flag is `false` (whatever the index and edge
contents), and the `stats` node counters count exactly the live nodes. -/
theorem C8_liveness_contract (g : CodeGraph) :
    (∀ q limit r, r ∈ g.search q limit →
      ∃ nd ∈ g.nodes, nd.removed = false ∧ r.symbol = nd.name ∧
        r.kind = nd.kind ∧ r.file = nd.file_path) ∧
    (∀ name d, d ∈ g.dependents name →
      ∃ nd ∈ g.nodes, nd.removed = false ∧ d.symbol = nd.name ∧
        d.kind = nd.kind ∧ d.file = nd.file_path ∧
        d.line = nd.line_start) ∧
    (∀ name d, d ∈ g.dependencies name →
      ∃ nd ∈ g.nodes, nd.removed = false ∧ d.symbol = nd.name ∧
        d.kind = nd.kind ∧ d.file = nd.file_path ∧
        d.line = nd.line_start) ∧
    (∀ path nd, nd ∈ g.symbols_in_file path →
      nd ∈ g.nodes ∧ nd.removed = false) ∧
    (∀ path a b nd, nd ∈ g.symbols_in_range path a b →
      nd ∈ g.nodes ∧ nd.removed = false) ∧
    (∀ f n nd, g.find_qualified f n = some nd →
      nd ∈ g.nodes ∧ nd.removed = false) ∧
    g.stats.file_count =
      (g.nodes.filter (fun n => !n.removed)).countP
        (fun n => decide (n.kind = NodeKind.File)) ∧
    g.stats.symbol_count =
      (g.nodes.filter (fun n => !n.removed)).countP
        (fun n => decide (n.kind ≠ NodeKind.File)) ∧
    g.stats.total_nodes = (g.nodes.filter (fun n => !n.removed)).length := by
  refine ⟨fun q limit r h => search_live g q limit r h,
    fun name d h => dependents_live g name d h,
    fun name d h => dependencies_live g name d h,
    fun path nd h => symbols_in_file_live g path nd h,
    fun path a b nd h =>
      symbols_in_file_live g path nd (List.mem_of_mem_filter h),
    fun f n nd h => find_qualified_live g f n nd h, ?_, ?_, ?_⟩
  · rw [CodeGraph.stats, List.countP_filter]
    exact List.countP_congr (fun n _ => by
      cases hr : n.removed <;> simp [hr])
  · rw [CodeGraph.stats, List.countP_filter]
    exact List.countP_congr (fun n _ => by
      cases hr : n.removed <;> simp [hr])
  · rw [CodeGraph.stats,
      List.length_eq_countP_add_countP
        (fun n : NodeData => decide (n.kind = NodeKind.File)),
      List.countP_filter, List.countP_filter]
    refine congrArg₂ (· + ·) ?_ ?_
    · exact List.countP_congr (fun n _ => by
        cases hr : n.removed <;> simp [hr])
    · exact List.countP_congr (fun n _ => by
        cases hr : n.removed <;> simp [hr])

/-- Witness for C8 on `staleLockGraph`, where the soft-deleted `baz` node
is still present in every index and in a `Defines` edge. -/
theorem C8_liveness_contract_witness :
    (∃ nd ∈ staleLockGraph.nodes, nd.removed = false ∧
      (SearchResult.mk (str "foo") .Function (str "test.rs") 1 10
        (str "fn foo() {}") [] []
        [SymbolRef.mk (str "bar") (str "test.rs") 12] [] []).symbol =
          nd.name ∧
      (SearchResult.mk (str "foo") .Function (str "test.rs") 1 10
        (str "fn foo() {}") [] []
        [SymbolRef.mk (str "bar") (str "test.rs") 12] [] []).kind =
          nd.kind ∧
      (SearchResult.mk (str "foo") .Function (str "test.rs") 1 10
        (str "fn foo() {}") [] []
        [SymbolRef.mk (str "bar") (str "test.rs") 12] [] []).file =
          nd.file_path) ∧
    (∃ nd ∈ staleLockGraph.nodes, nd.removed = false ∧
      (DependencyInfo.mk (str "bar") .Function (str "test.rs") 12
        .Calls).symbol = nd.name ∧
      (DependencyInfo.mk (str "bar") .Function (str "test.rs") 12
        .Calls).kind = nd.kind ∧
      (DependencyInfo.mk (str "bar") .Function (str "test.rs") 12
        .Calls).file = nd.file_path ∧
      (DependencyInfo.mk (str "bar") .Function (str "test.rs") 12
        .Calls).line = nd.line_start) ∧
    (∃ nd ∈ staleLockGraph.nodes, nd.removed = false ∧
      (DependencyInfo.mk (str "foo") .Function (str "test.rs") 1
        .Calls).symbol = nd.name ∧
      (DependencyInfo.mk (str "foo") .Function (str "test.rs") 1
        .Calls).kind = nd.kind ∧
      (DependencyInfo.mk (str "foo") .Function (str "test.rs") 1
        .Calls).file = nd.file_path ∧
      (DependencyInfo.mk (str "foo") .Function (str "test.rs") 1
        .Calls).line = nd.line_start) ∧
    (NodeData.new_symbol (str "foo") .Function (str "test.rs") 1 10
        (str "fn foo() {}") ∈ staleLockGraph.nodes ∧
      (NodeData.new_symbol (str "foo") .Function (str "test.rs") 1 10
        (str "fn foo() {}")).removed = false) ∧
    staleLockGraph.stats.total_nodes =
      (staleLockGraph.nodes.filter (fun n => !n.removed)).length :=
  ⟨(C8_liveness_contract staleLockGraph).1 (str "foo") 10 _ (by decide),
   (C8_liveness_contract staleLockGraph).2.1 (str "foo") _ (by decide),
   (C8_liveness_contract staleLockGraph).2.2.1 (str "bar") _ (by decide),
   (C8_liveness_contract staleLockGraph).2.2.2.2.2.1 (str "test.rs")
     (str "foo") _ (by decide),
   (C8_liveness_contract staleLockGraph).2.2.2.2.2.2.2.2⟩

/-! ## Preservation of the call-line invariant (C6) -/

/-- A fold preserves any invariant its steps preserve. -/
theorem foldl_inv_mem {σ α : Type} (P : σ → Prop) (l : List α)
    (f : σ → α → σ) (h : ∀ s a, a ∈ l → P s → P (f s a)) :
    ∀ s, P s → P (l.foldl f s) := by
  induction l with
  | nil => exact fun s hs => hs
  | cons x xs ih =>
    intro s hs
    rw [List.foldl_cons]
    exact ih (fun s a ha => h s a (List.mem_cons_of_mem _ ha)) _
      (h s x (by simp) hs)

theorem mem_dedupConsec : ∀ (l : List Nat) (x : Nat),
    x ∈ dedupConsec l → x ∈ l
  | [], _, h => h
  | [_], _, h => h
  | a :: b :: rest, x, h => by
    simp only [dedupConsec] at h
    split at h
    · exact List.mem_cons_of_mem _ (mem_dedupConsec (b :: rest) x h)
    · rcases List.mem_cons.1 h with rfl | h'
      · exact List.mem_cons_self _ _
      · exact List.mem_cons_of_mem _ (mem_dedupConsec (b :: rest) x h')

theorem dedupConsec_pairwise_lt : ∀ (l : List Nat),
    List.Pairwise (· ≤ ·) l → List.Pairwise (· < ·) (dedupConsec l)
  | [], _ => List.Pairwise.nil
  | [a], _ => by simp [dedupConsec]
  | a :: b :: rest, h => by
    have hab : a ≤ b := (List.pairwise_cons.1 h).1 b (by simp)
    have htail : List.Pairwise (· ≤ ·) (b :: rest) :=
      (List.pairwise_cons.1 h).2
    simp only [dedupConsec]
    split
    · exact dedupConsec_pairwise_lt (b :: rest) htail
    · next hne =>
      refine List.pairwise_cons.2
        ⟨?_, dedupConsec_pairwise_lt (b :: rest) htail⟩
      intro x hx
      rcases List.mem_cons.1 (mem_dedupConsec (b :: rest) x hx) with rfl | hxr
      · exact lt_of_le_of_ne hab hne
      · exact lt_of_lt_of_le (lt_of_le_of_ne hab hne)
          ((List.pairwise_cons.1 htail).1 x hxr)

theorem finalizeLines_pairwise_lt (l : List Nat) :
    List.Pairwise (· < ·) (finalizeLines l) :=
  dedupConsec_pairwise_lt _ (List.sorted_insertionSort _ l)

theorem setNode_nodes_get?_self (g : CodeGraph) (j : Nat)
    (f : NodeData → NodeData) (n : NodeData)
    (h : g.nodes.get? j = some n) :
    (g.setNode j f).nodes.get? j = some (f n) := by
  simp only [CodeGraph.setNode, h]
  rw [List.get?_set, if_pos rfl, h]
  rfl

theorem setNode_nodes_get?_ne (g : CodeGraph) (j : Nat)
    (f : NodeData → NodeData) (i : Nat) (h : ¬ i = j) :
    (g.setNode j f).nodes.get? i = g.nodes.get? i := by
  cases hj : g.nodes.get? j with
  | none => simp only [CodeGraph.setNode, hj]
  | some n =>
    simp only [CodeGraph.setNode, hj]
    rw [List.get?_set, if_neg (fun hc => h hc.symm)]

theorem mem_setNode_nodes (g : CodeGraph) (j : Nat)
    (f : NodeData → NodeData) (nd : NodeData)
    (h : nd ∈ (g.setNode j f).nodes) :
    nd ∈ g.nodes ∨ ∃ n ∈ g.nodes, nd = f n := by
  cases hj : g.nodes.get? j with
  | none =>
    simp only [CodeGraph.setNode, hj] at h
    exact Or.inl h
  | some n =>
    simp only [CodeGraph.setNode, hj] at h
    rcases List.mem_or_eq_of_mem_set h with h' | rfl
    · exact Or.inl h'
    · exact Or.inr ⟨n, List.get?_mem hj, rfl⟩

theorem sortedCallLines_setNode (g : CodeGraph) (j : Nat)
    (f : NodeData → NodeData)
    (hf : ∀ n ∈ g.nodes, List.Pairwise (· < ·) n.call_lines →
      List.Pairwise (· < ·) (f n).call_lines)
    (hg : sortedCallLines g) : sortedCallLines (g.setNode j f) := by
  intro nd hnd
  rcases mem_setNode_nodes g j f nd hnd with h | ⟨n, hn, rfl⟩
  · exact hg nd h
  · exact hf n hn (hg n hn)

theorem sortedCallLines_new : sortedCallLines CodeGraph.new := by
  intro nd hnd
  exact absurd hnd (by simp [CodeGraph.new])

theorem sortedCallLines_add_file (g : CodeGraph) (p : Str)
    (hg : sortedCallLines g) : sortedCallLines (g.add_file p).1 := by
  cases halk : alookup g.file_index p with
  | some idx =>
    have heq : (g.add_file p).1 =
        g.setNode idx (fun n => { n with removed := false }) := by
      simp only [CodeGraph.add_file, halk]
    rw [heq]
    exact sortedCallLines_setNode g idx _ (fun n _ hn => hn) hg
  | none =>
    intro nd hnd
    have hnd' : nd ∈ g.nodes ++ [NodeData.new_file p] := by
      simpa only [CodeGraph.add_file, halk] using hnd
    rcases List.mem_append.1 hnd' with h | h
    · exact hg nd h
    · simp only [List.mem_singleton] at h
      subst h
      exact List.Pairwise.nil

theorem sortedCallLines_add_symbol (g : CodeGraph) (n : Str)
    (k : NodeKind) (f : Str) (ls le : Nat) (cs : Str)
    (hg : sortedCallLines g) :
    sortedCallLines (g.add_symbol n k f ls le cs).1 := by
  intro nd hnd
  have hnd' : nd ∈ g.nodes ++ [NodeData.new_symbol n k f ls le cs] := hnd
  rcases List.mem_append.1 hnd' with h | h
  · exact hg nd h
  · simp only [List.mem_singleton] at h
    subst h
    exact List.Pairwise.nil

theorem sortedCallLines_add_edge (g : CodeGraph) (a b : Nat)
    (k : EdgeKind) (hg : sortedCallLines g) :
    sortedCallLines (g.add_edge a b k) :=
  fun nd hnd => hg nd hnd

theorem sortedCallLines_soft_delete (g : CodeGraph) (i : Nat)
    (hg : sortedCallLines g) : sortedCallLines (g.soft_delete_node i) := by
  cases hj : g.nodes.get? i with
  | none =>
    have heq : g.soft_delete_node i = g := by
      simp only [CodeGraph.soft_delete_node, hj]
    rw [heq]
    exact hg
  | some node =>
    intro nd hnd
    have hnd' : nd ∈
        (g.setNode i (fun n => { n with removed := true })).nodes := by
      simpa only [CodeGraph.soft_delete_node, hj] using hnd
    exact sortedCallLines_setNode g i
      (fun n => { n with removed := true }) (fun n _ hn => hn) hg nd hnd'

theorem sortedCallLines_ingest_symbol (g : CodeGraph) (fi : Nat)
    (fp : Str) (s : ExtractedSymbol) (hg : sortedCallLines g) :
    sortedCallLines (g.ingest_symbol fi fp s).1 := by
  have h1 := sortedCallLines_add_symbol g s.name s.kind fp s.line_start
    s.line_end s.code_snippet hg
  intro nd hnd
  refine sortedCallLines_add_edge _ fi (g.add_symbol s.name s.kind fp
    s.line_start s.line_end s.code_snippet).2 .Defines ?_ nd hnd
  by_cases hf : s.features ≠ []
  · show sortedCallLines
      (if s.features ≠ [] then
        (g.add_symbol s.name s.kind fp s.line_start s.line_end
          s.code_snippet).1.setNode
          (g.add_symbol s.name s.kind fp s.line_start s.line_end
            s.code_snippet).2
          (fun n => { n with features := s.features })
      else (g.add_symbol s.name s.kind fp s.line_start s.line_end
        s.code_snippet).1)
    rw [if_pos hf]
    exact sortedCallLines_setNode _ _ _ (fun n _ hn => hn) h1
  · show sortedCallLines
      (if s.features ≠ [] then
        (g.add_symbol s.name s.kind fp s.line_start s.line_end
          s.code_snippet).1.setNode
          (g.add_symbol s.name s.kind fp s.line_start s.line_end
            s.code_snippet).2
          (fun n => { n with features := s.features })
      else (g.add_symbol s.name s.kind fp s.line_start s.line_end
        s.code_snippet).1)
    rw [if_neg hf]
    exact h1

theorem sortedCallLines_ingest_imports (g : CodeGraph) (fi : Nat)
    (fp : Str) (imports : List ExtractedImport) (hg : sortedCallLines g) :
    sortedCallLines (g.ingest_imports fi fp imports) := by
  refine foldl_inv_mem sortedCallLines imports _ ?_ g hg
  intro g' imp _ hg'
  exact sortedCallLines_add_edge _ fi
    (g'.add_symbol imp.path .Import fp imp.line imp.line []).2 .Imports
    (sortedCallLines_add_symbol g' imp.path .Import fp imp.line imp.line
      [] hg')

theorem finalize_call_lines_queued (idxs : List Nat) (g : CodeGraph)
    (h : queuedCallLines idxs g) :
    sortedCallLines (g.finalize_call_lines idxs) := by
  induction idxs generalizing g with
  | nil =>
    intro nd hnd
    rcases List.mem_iff_get?.1 hnd with ⟨i, hi⟩
    rcases h i nd hi with hq | hs
    · exact absurd hq (List.not_mem_nil i)
    · exact hs
  | cons j rest ih =>
    have heq : g.finalize_call_lines (j :: rest) =
        (g.setNode j (fun n =>
          { n with call_lines := finalizeLines n.call_lines
          })).finalize_call_lines rest := by
      rw [CodeGraph.finalize_call_lines, List.foldl_cons]
      rfl
    rw [heq]
    refine ih _ ?_
    intro i nd hi
    by_cases hij : i = j
    · subst hij
      cases hj : g.nodes.get? i with
      | none =>
        have hgg : g.setNode i (fun n =>
            { n with call_lines := finalizeLines n.call_lines }) = g := by
          simp only [CodeGraph.setNode, hj]
        rw [hgg, hj] at hi
        exact Option.noConfusion hi
      | some n =>
        rw [setNode_nodes_get?_self g i _ n hj] at hi
        cases Option.some.inj hi
        exact Or.inr (finalizeLines_pairwise_lt _)
    · rw [setNode_nodes_get?_ne g j _ i hij] at hi
      rcases h i nd hi with hq | hs
      · rcases List.mem_cons.1 hq with h' | h'
        · exact absurd h' hij
        · exact Or.inl h'
      · exact Or.inr hs

theorem queuedCallLines_resolve_call (g : CodeGraph) (queue : List Nat)
    (ci : Nat) (call : ExtractedCall) (hci : ci ∈ queue)
    (hg : queuedCallLines queue g) :
    queuedCallLines queue (g.resolve_call ci call) := by
  cases halk : alookup g.symbol_index call.callee with
  | none =>
    have heq : g.resolve_call ci call = g := by
      simp only [CodeGraph.resolve_call, halk]
    rw [heq]
    exact hg
  | some callee_indexes =>
    cases hh : callee_indexes.head? with
    | none =>
      have heq : g.resolve_call ci call = g := by
        simp only [CodeGraph.resolve_call, halk, hh]
      rw [heq]
      exact hg
    | some callee_idx =>
      have heq : g.resolve_call ci call =
          (g.add_edge ci callee_idx .Calls).setNode ci (fun n =>
            { n with call_lines := (pushCallLines n.call_lines
                (rustRange call.line call.line_end)) }) := by
        simp only [CodeGraph.resolve_call, halk, hh]
      rw [heq]
      intro i nd hi
      by_cases hij : i = ci
      · subst hij
        exact Or.inl hci
      · rw [setNode_nodes_get?_ne _ _ _ _ hij] at hi
        exact hg i nd hi

theorem queuedCallLines_incCalls (g : CodeGraph) (file : Str)
    (calls : List ExtractedCall) (queue : List Nat)
    (hg : queuedCallLines queue g) :
    queuedCallLines queue (g.incCallsPhase file calls queue) := by
  refine foldl_inv_mem (queuedCallLines queue) calls _ ?_ g hg
  intro g' call _ hg'
  cases halk : alookup g'.qualified_index (file, call.caller) with
  | none => simpa only [halk] using hg'
  | some caller_idx =>
    simp only [halk]
    by_cases hq : caller_idx ∈ queue
    · rw [if_pos hq]
      exact queuedCallLines_resolve_call g' queue caller_idx call hq hg'
    · rw [if_neg hq]
      exact hg'

theorem sortedCallLines_resolve_contains (g : CodeGraph) (file : Str)
    (symbols : List ExtractedSymbol) (filter : Option (List Nat))
    (hg : sortedCallLines g) :
    sortedCallLines (g.resolve_contains file symbols filter) := by
  refine foldl_inv_mem sortedCallLines symbols _ ?_ g hg
  intro g' s _ hg'
  cases hp : s.parent with
  | none => simpa only [hp] using hg'
  | some parent_name =>
    simp only [hp]
    cases hq : alookup g'.qualified_index (file, s.name) with
    | none => simpa only [hq] using hg'
    | some child_idx =>
      simp only [hq]
      by_cases hf : (match filter with
          | some s' => decide (child_idx ∉ s')
          | none => false) = true
      · rw [if_pos hf]
        exact hg'
      · rw [if_neg hf]
        cases hq2 : alookup g'.qualified_index (file, parent_name) with
        | none => simpa only [hq2] using hg'
        | some parent_idx =>
          simp only [hq2]
          exact fun nd hnd => hg' nd hnd

theorem build_phase4_eq (g : CodeGraph) (exs : List FileExtractions) :
    g.build_phase4 exs = (g.apiBuckets exs).2.foldl
      (fun g' uc =>
        match alookup (g.apiBuckets exs).1 uc.1 with
        | some provider_indexes =>
          provider_indexes.foldl
            (fun g'' provider_idx =>
              g''.add_edge uc.2 provider_idx .ApiCall) g'
        | none => g') g := rfl

theorem sortedCallLines_build_phase4 (g : CodeGraph)
    (exs : List FileExtractions) (hg : sortedCallLines g) :
    sortedCallLines (g.build_phase4 exs) := by
  rw [build_phase4_eq]
  refine foldl_inv_mem sortedCallLines (g.apiBuckets exs).2
    (fun g' uc =>
      match alookup (g.apiBuckets exs).1 uc.1 with
      | some provider_indexes =>
        provider_indexes.foldl
          (fun g'' provider_idx =>
            g''.add_edge uc.2 provider_idx .ApiCall) g'
      | none => g') ?_ g hg
  intro g' uc _ hg'
  cases halk : alookup (g.apiBuckets exs).1 uc.1 with
  | none => simpa only [halk] using hg'
  | some provider_indexes =>
    simp only [halk]
    exact foldl_inv_mem sortedCallLines provider_indexes
      (fun g'' provider_idx => g''.add_edge uc.2 provider_idx .ApiCall)
      (fun g'' pi _ hg'' nd hnd => hg'' nd hnd) g' hg'

theorem sortedCallLines_build (g : CodeGraph)
    (exs : List FileExtractions) :
    sortedCallLines (g.build_from_extractions exs) := by
  have h3 : sortedCallLines
      (((g.build_phase1 exs).build_phase2 exs).finalize_call_lines
        (List.range ((g.build_phase1 exs).build_phase2 exs).nodes.length)) := by
    refine finalize_call_lines_queued _ _ ?_
    intro i nd hi
    exact Or.inl (List.mem_range.2 (List.get?_eq_some.1 hi).1)
  have h4 : sortedCallLines (exs.foldl
      (fun g' ex => g'.resolve_contains ex.file_path ex.symbols none)
      (((g.build_phase1 exs).build_phase2 exs).finalize_call_lines
        (List.range
          ((g.build_phase1 exs).build_phase2 exs).nodes.length))) :=
    foldl_inv_mem sortedCallLines exs _
      (fun g' ex _ hg' =>
        sortedCallLines_resolve_contains g' ex.file_path ex.symbols none
          hg') _ h3
  exact fun nd hnd => sortedCallLines_build_phase4 _ exs h4 nd hnd

theorem sortedCallLines_incRemoved (g : CodeGraph)
    (old : List (Str × (Nat × Str))) (nw : List (Str × ExtractedSymbol))
    (hg : sortedCallLines g) :
    sortedCallLines (g.incRemovedPhase old nw) := by
  refine foldl_inv_mem sortedCallLines old
    (fun g' p =>
      if (alookup nw p.1).isNone then g'.soft_delete_node p.2.1 else g')
    ?_ g hg
  intro g' p _ hg'
  show sortedCallLines
    (if (alookup nw p.1).isNone then g'.soft_delete_node p.2.1 else g')
  by_cases hn : (alookup nw p.1).isNone
  · rw [if_pos hn]
    exact sortedCallLines_soft_delete g' p.2.1 hg'
  · rw [if_neg hn]
    exact hg'

theorem sortedCallLines_incAdded (g : CodeGraph) (fi : Nat) (file : Str)
    (old : List (Str × (Nat × Str))) (nw : List (Str × ExtractedSymbol))
    (hg : sortedCallLines g) :
    sortedCallLines (g.incAddedPhase fi file old nw).1 := by
  refine foldl_inv_mem
    (fun p : CodeGraph × List Nat => sortedCallLines p.1) nw
    (fun gq p =>
      if (alookup old p.1).isNone then
        ((gq.1.ingest_symbol fi file p.2).1,
         gq.2 ++ [(gq.1.ingest_symbol fi file p.2).2])
      else gq)
    ?_ (g, []) hg
  intro gq p _ hP
  show sortedCallLines
    (if (alookup old p.1).isNone then
      ((gq.1.ingest_symbol fi file p.2).1,
       gq.2 ++ [(gq.1.ingest_symbol fi file p.2).2])
    else gq).1
  by_cases hn : (alookup old p.1).isNone
  · rw [if_pos hn]
    exact sortedCallLines_ingest_symbol gq.1 fi file p.2 hP
  · rw [if_neg hn]
    exact hP

theorem sortedCallLines_incChanged (g : CodeGraph)
    (old : List (Str × (Nat × Str))) (nw : List (Str × ExtractedSymbol))
    (queue : List Nat) (hg : sortedCallLines g) :
    sortedCallLines (g.incChangedPhase old nw queue).1 := by
  refine foldl_inv_mem
    (fun p : CodeGraph × List Nat => sortedCallLines p.1) nw _ ?_
    (g, queue) hg
  intro gq p _ hP
  cases halk : alookup old p.1 with
  | none => simpa only [halk] using hP
  | some v =>
    obtain ⟨node_idx, old_code⟩ := v
    simp only [halk]
    by_cases hc : old_code ≠ p.2.code_snippet
    · rw [if_pos hc]
      have h1 := sortedCallLines_setNode gq.1 node_idx
        (fun n => { n with code_snippet := p.2.code_snippet,
                           line_start := p.2.line_start,
                           line_end := p.2.line_end,
                           call_lines := [] })
        (fun n _ _ => List.Pairwise.nil) hP
      exact fun nd hnd => h1 nd hnd
    · rw [if_neg hc]
      exact fun nd hnd => sortedCallLines_setNode gq.1 node_idx
        (fun n => { n with line_start := p.2.line_start,
                           line_end := p.2.line_end })
        (fun n _ hn => hn) hP nd hnd

theorem sortedCallLines_incImports (g : CodeGraph) (fi : Nat)
    (file : Str) (imports : List ExtractedImport)
    (hg : sortedCallLines g) :
    sortedCallLines (g.incImportsPhase fi file imports) := by
  refine sortedCallLines_ingest_imports _ fi file imports ?_
  exact foldl_inv_mem sortedCallLines _ _
    (fun g' i _ hg' => sortedCallLines_soft_delete g' i hg') g hg

theorem sortedCallLines_update_tail (g4 : CodeGraph) (fi : Nat)
    (file : Str) (ex : FileExtractions) (queue : List Nat)
    (h4 : sortedCallLines g4) :
    sortedCallLines
      (((((g4.incImportsPhase fi file ex.imports).incCallsPhase file
          ex.calls queue).finalize_call_lines queue).resolve_contains file
          ex.symbols (some queue)).incApiCleanup fi) := by
  have h5 := sortedCallLines_incImports g4 fi file ex.imports h4
  have h6 : queuedCallLines queue
      ((g4.incImportsPhase fi file ex.imports).incCallsPhase file
        ex.calls queue) :=
    queuedCallLines_incCalls _ file ex.calls queue
      (fun i nd hi => Or.inr (h5 nd (List.get?_mem hi)))
  have h7 := finalize_call_lines_queued queue _ h6
  have h8 := sortedCallLines_resolve_contains _ file ex.symbols
    (some queue) h7
  exact fun nd hnd => h8 nd hnd

theorem sortedCallLines_update (g : CodeGraph) (file : Str)
    (ex : FileExtractions) (hg : sortedCallLines g) :
    sortedCallLines (g.update_file_incremental file ex) := by
  have h2 := sortedCallLines_incRemoved (g.add_file file).1
    ((g.add_file file).1.old_symbols_of (g.add_file file).2)
    (newSymbolsMap ex) (sortedCallLines_add_file g file hg)
  have h3 := sortedCallLines_incAdded _ (g.add_file file).2 file
    ((g.add_file file).1.old_symbols_of (g.add_file file).2)
    (newSymbolsMap ex) h2
  have h4 := sortedCallLines_incChanged _
    ((g.add_file file).1.old_symbols_of (g.add_file file).2)
    (newSymbolsMap ex)
    (((g.add_file file).1.incRemovedPhase
        ((g.add_file file).1.old_symbols_of (g.add_file file).2)
        (newSymbolsMap ex)).incAddedPhase (g.add_file file).2 file
      ((g.add_file file).1.old_symbols_of (g.add_file file).2)
      (newSymbolsMap ex)).2 h3
  exact fun nd hnd => sortedCallLines_update_tail _ (g.add_file file).2
    file ex _ h4 nd hnd

theorem sortedCallLines_remove_file (g : CodeGraph) (p : Str)
    (hg : sortedCallLines g) : sortedCallLines (g.remove_file p) := by
  cases halk : alookup g.file_index p with
  | none =>
    have heq : g.remove_file p = g := by
      simp only [CodeGraph.remove_file, halk]
    rw [heq]
    exact hg
  | some fi =>
    have h1 : sortedCallLines
        (((g.edges.filter (fun e => decide (e.src = fi))).map
          (·.tgt)).foldl (fun g' i => g'.soft_delete_node i) g) :=
      foldl_inv_mem sortedCallLines _ _
        (fun g' i _ hg' => sortedCallLines_soft_delete g' i hg') g hg
    have h2 := sortedCallLines_setNode _ fi
      (fun n => { n with removed := true }) (fun n _ hn => hn) h1
    intro nd hnd
    have hnd' : nd ∈
        ((((g.edges.filter (fun e => decide (e.src = fi))).map
          (·.tgt)).foldl (fun g' i => g'.soft_delete_node i) g).setNode fi
          (fun n => { n with removed := true })).nodes := by
      simpa only [CodeGraph.remove_file, halk] using hnd
    exact h2 nd hnd'

theorem sortedCallLines_compact (g : CodeGraph) (hg : sortedCallLines g) :
    sortedCallLines g.compact := by
  have hA : ∀ fs : List Str, sortedCallLines
      (fs.foldl (fun ng p => (ng.add_file p).1) CodeGraph.new) :=
    fun fs => foldl_inv_mem sortedCallLines fs _
      (fun g' p _ hg' => sortedCallLines_add_file g' p hg')
      CodeGraph.new sortedCallLines_new
  have hB : ∀ ng0 : CodeGraph, sortedCallLines ng0 →
      sortedCallLines (g.nodes.enum.foldl
        (fun (p : CodeGraph × List (Nat × Nat)) ia =>
          if ia.2.removed then p
          else if ia.2.kind = NodeKind.File then
            match alookup p.1.file_index ia.2.file_path with
            | some new_idx => (p.1, ainsert p.2 ia.1 new_idx)
            | none => p
          else
            ((p.1.add_symbol ia.2.name ia.2.kind ia.2.file_path
                ia.2.line_start ia.2.line_end ia.2.code_snippet).1.setNode
              (p.1.add_symbol ia.2.name ia.2.kind ia.2.file_path
                ia.2.line_start ia.2.line_end ia.2.code_snippet).2
              (fun n => { n with features := ia.2.features,
                                 call_lines := ia.2.call_lines }),
             ainsert p.2 ia.1
               (p.1.add_symbol ia.2.name ia.2.kind ia.2.file_path
                 ia.2.line_start ia.2.line_end ia.2.code_snippet).2))
        (ng0, [])).1 := by
    intro ng0 h0
    refine foldl_inv_mem
      (fun p : CodeGraph × List (Nat × Nat) => sortedCallLines p.1)
      g.nodes.enum _ ?_ (ng0, []) h0
    intro p ia hmem hP
    have hnode : ia.2 ∈ g.nodes := by
      have hge := List.mem_enum_iff_getElem?.1 hmem
      rw [← List.get?_eq_getElem?] at hge
      exact List.get?_mem hge
    by_cases hrem : ia.2.removed = true
    · simp only [if_pos hrem]
      exact hP
    · simp only [if_neg hrem]
      by_cases hkind : ia.2.kind = NodeKind.File
      · simp only [if_pos hkind]
        cases halk : alookup p.1.file_index ia.2.file_path with
        | some new_idx =>
          simp only [halk]
          exact hP
        | none =>
          simp only [halk]
          exact hP
      · simp only [if_neg hkind]
        exact sortedCallLines_setNode
          (p.1.add_symbol ia.2.name ia.2.kind ia.2.file_path
            ia.2.line_start ia.2.line_end ia.2.code_snippet).1
          (p.1.add_symbol ia.2.name ia.2.kind ia.2.file_path
            ia.2.line_start ia.2.line_end ia.2.code_snippet).2
          (fun n => { n with features := ia.2.features,
                             call_lines := ia.2.call_lines })
          (fun n _ _ => hg ia.2 hnode)
          (sortedCallLines_add_symbol p.1 ia.2.name ia.2.kind
            ia.2.file_path ia.2.line_start ia.2.line_end
            ia.2.code_snippet hP)
  have hC : ∀ (ng : CodeGraph) (o2n : List (Nat × Nat)),
      sortedCallLines ng →
      sortedCallLines (g.edges.foldl (fun ng' e =>
        match alookup o2n e.src, alookup o2n e.tgt with
        | some a, some b => ng'.add_edge a b e.kind
        | _, _ => ng') ng) := by
    intro ng o2n hng
    refine foldl_inv_mem sortedCallLines g.edges _ ?_ ng hng
    intro g' e _ hg'
    cases h1 : alookup o2n e.src with
    | none => simpa only [h1] using hg'
    | some a =>
      cases h2 : alookup o2n e.tgt with
      | none => simpa only [h1, h2] using hg'
      | some b =>
        simp only [h1, h2]
        exact fun nd hnd => hg' nd hnd
  exact fun nd hnd => hC _ _ (hB _ (hA _)) nd hnd

/-- **C6 (amended).**  On every reachable graph, each node's `call_lines`
is strictly increasing — sorted with no duplicates.  (The claim's further
conjunct, that every call line lies within the node's current
`[line_start, line_end]` range, is refuted by `C6_counterexample`.) -/
theorem C6_call_lines_sorted (g : CodeGraph) (h : Reachable g) :
    ∀ nd ∈ g.nodes, List.Pairwise (· < ·) nd.call_lines := by
  induction h with
  | empty => exact sortedCallLines_new
  | add_file p _ ih => exact sortedCallLines_add_file _ p ih
  | add_symbol n k f ls le cs _ ih =>
    exact sortedCallLines_add_symbol _ n k f ls le cs ih
  | add_edge a b k _ ih => exact fun nd hnd => ih nd hnd
  | build exs _ _ => exact sortedCallLines_build _ exs
  | update f ex _ ih => exact sortedCallLines_update _ f ex ih
  | remove p _ ih => exact sortedCallLines_remove_file _ p ih
  | compact _ ih => exact sortedCallLines_compact _ ih

/-- Witness for the amended C6 on `gStale` (built, then incrementally
updated): its recursive symbol node carries the non-empty `call_lines`
`[5]`, which the theorem reports strictly sorted. -/
theorem C6_call_lines_sorted_witness :
    ({ name := str "s", kind := .Function, file_path := str "s.rs",
       line_start := 21, line_end := 30,
       code_snippet := str "fn s() { s() }", features := [],
       call_lines := [5], removed := false } : NodeData) ∈ gStale.nodes ∧
    List.Pairwise (· < ·)
      ({ name := str "s", kind := .Function, file_path := str "s.rs",
         line_start := 21, line_end := 30,
         code_snippet := str "fn s() { s() }", features := [],
         call_lines := [5], removed := false } : NodeData).call_lines :=
  ⟨by decide,
   C6_call_lines_sorted gStale
     (Reachable.update _ _ (Reachable.build _ Reachable.empty)) _
     (by decide)⟩

/-! ## URL normalization (C5) -/

theorem normalizeUrlGo_fuel : ∀ (f1 f2 : Nat) (s : Str),
    s.length ≤ f1 → s.length ≤ f2 →
    normalizeUrlGo f1 s = normalizeUrlGo f2 s := by
  intro f1
  induction f1 with
  | zero =>
    intro f2 s h1 _
    have hs : s = [] := List.length_eq_zero.1 (Nat.le_zero.1 h1)
    subst hs
    cases f2 <;> rfl
  | succ f1 ih =>
    intro f2 s h1 h2
    cases s with
    | nil => cases f2 <;> rfl
    | cons c rest =>
      cases f2 with
      | zero => exact absurd h2 (by simp)
      | succ f2 =>
        have hr1 : rest.length ≤ f1 := by
          simp only [List.length_cons] at h1
          omega
        have hr2 : rest.length ≤ f2 := by
          simp only [List.length_cons] at h2
          omega
        simp only [normalizeUrlGo]
        by_cases hb1 : c = '{'
        · rw [if_pos hb1, if_pos hb1,
            ih f2 _ (le_trans (dropUntilClose_length_le _ _) hr1)
              (le_trans (dropUntilClose_length_le _ _) hr2)]
        · rw [if_neg hb1, if_neg hb1]
          by_cases hb2 : c = '<'
          · rw [if_pos hb2, if_pos hb2,
              ih f2 _ (le_trans (dropUntilClose_length_le _ _) hr1)
                (le_trans (dropUntilClose_length_le _ _) hr2)]
          · rw [if_neg hb2, if_neg hb2]
            by_cases hb3 : c = '$' ∧ rest.head? = some '{'
            · rw [if_pos hb3, if_pos hb3,
                ih f2 _
                  (le_trans (dropBraces_length_le _ _)
                    (by rw [List.length_tail]; omega))
                  (le_trans (dropBraces_length_le _ _)
                    (by rw [List.length_tail]; omega))]
            · rw [if_neg hb3, if_neg hb3]
              by_cases hb4 : c = ':' ∧
                  (rest.head?.map Char.isAlpha).getD false
              · rw [if_pos hb4, if_pos hb4,
                  ih f2 _ (le_trans (dropParamName_length_le _) hr1)
                    (le_trans (dropParamName_length_le _) hr2)]
              · rw [if_neg hb4, if_neg hb4]
                by_cases hb5 : c = '*' ∧
                    (rest.head?.map Char.isAlpha).getD false
                · rw [if_pos hb5, if_pos hb5,
                    ih f2 _ (le_trans (dropParamName_length_le _) hr1)
                      (le_trans (dropParamName_length_le _) hr2)]
                · rw [if_neg hb5, if_neg hb5, ih f2 rest hr1 hr2]

theorem dropUntilClose_append (x : Char) (b s : Str) (h : x ∉ b) :
    dropUntilClose x (b ++ x :: s) = s := by
  induction b with
  | nil =>
    rw [List.nil_append, dropUntilClose, if_pos rfl]
  | cons c cb ih =>
    rw [List.cons_append, dropUntilClose,
      if_neg (fun hc => h (by rw [← hc]; exact List.mem_cons_self c cb))]
    exact ih (fun hx => h (List.mem_cons_of_mem _ hx))

theorem dropBraces_one_append (d s : Str) (h1 : '{' ∉ d)
    (h2 : '}' ∉ d) : dropBraces 1 (d ++ '}' :: s) = s := by
  induction d with
  | nil =>
    rw [List.nil_append, dropBraces, if_neg (by decide), if_pos rfl,
      if_pos rfl]
  | cons c cd ih =>
    rw [List.cons_append, dropBraces,
      if_neg (fun hc =>
        h1 (by rw [← hc]; exact List.mem_cons_self c cd)),
      if_neg (fun hc =>
        h2 (by rw [← hc]; exact List.mem_cons_self c cd))]
    exact ih (fun hx => h1 (List.mem_cons_of_mem _ hx))
      (fun hx => h2 (List.mem_cons_of_mem _ hx))

theorem dropParamName_append (n s : Str)
    (h : ∀ c ∈ n, c.isAlphanum ∨ c = '_')
    (hs : s = [] ∨ s.head? = some '/') :
    dropParamName (n ++ s) = s := by
  induction n with
  | nil =>
    rw [List.nil_append]
    rcases hs with rfl | hs
    · rfl
    · cases s with
      | nil => rfl
      | cons c s' =>
        simp only [List.head?] at hs
        cases Option.some.inj hs
        rw [dropParamName, if_neg (by decide)]
  | cons c cn ih =>
    rw [List.cons_append, dropParamName,
      if_pos (h c (List.mem_cons_self c cn))]
    exact ih (fun c' hc' => h c' (List.mem_cons_of_mem _ hc'))

theorem plainChar_goPlain (c : Char) (h : plainChar c) : goPlain c :=
  ⟨h.1, h.2.2.1, h.2.2.2.2.1, h.2.2.2.2.2.1, h.2.2.2.2.2.2.1⟩

theorem normalizeUrlGo_copy (t : Str) (h : ∀ c ∈ t, goPlain c) :
    ∀ (s : Str) (fuel : Nat), t.length + s.length ≤ fuel →
    normalizeUrlGo fuel (t ++ s) =
      t ++ normalizeUrlGo (fuel - t.length) s := by
  induction t with
  | nil =>
    intro s fuel _
    simp
  | cons c ct ih =>
    intro s fuel hf
    obtain ⟨f, rfl⟩ : ∃ f, fuel = f + 1 :=
      ⟨fuel - 1, by simp only [List.length_cons] at hf; omega⟩
    obtain ⟨h1, h2, h3, h4, h5⟩ := h c (List.mem_cons_self c ct)
    rw [List.cons_append, normalizeUrlGo, if_neg h1, if_neg h2,
      if_neg (fun hc => h3 hc.1), if_neg (fun hc => h4 hc.1),
      if_neg (fun hc => h5 hc.1),
      ih (fun c' hc' => h c' (List.mem_cons_of_mem _ hc')) s f
        (by simp only [List.length_cons] at hf; omega)]
    simp [Nat.succ_sub_succ]

theorem normalizeUrlGo_seg (p : UrlPart) (hp : p.good) (t : Str)
    (ht : t = [] ∨ t.head? = some '/') :
    ∀ fuel, (p.render ++ t).length ≤ fuel →
    normalizeUrlGo fuel (p.render ++ t) =
      p.normalized ++ normalizeUrlGo t.length t := by
  cases p with
  | lit s =>
    intro fuel hf
    have hf' : s.length + t.length ≤ fuel := by
      simpa [UrlPart.render, List.length_append] using hf
    show normalizeUrlGo fuel (s ++ t) = s ++ normalizeUrlGo t.length t
    rw [normalizeUrlGo_copy s (fun c hc => plainChar_goPlain c (hp c hc))
        t fuel hf']
    rw [normalizeUrlGo_fuel (fuel - s.length) t.length t (by omega)
      le_rfl]
  | brace b =>
    intro fuel hf
    obtain ⟨f, rfl⟩ : ∃ f, fuel = f + 1 := ⟨fuel - 1, by
      simp only [UrlPart.render, List.length_append, List.length_cons]
        at hf
      omega⟩
    show normalizeUrlGo (f + 1) ('{' :: ((b ++ ['}']) ++ t)) =
      str ":param" ++ normalizeUrlGo t.length t
    rw [normalizeUrlGo, if_pos rfl]
    have hdrop : dropUntilClose '}' ((b ++ ['}']) ++ t) = t := by
      rw [List.append_assoc]
      exact dropUntilClose_append '}' b t hp.1
    rw [hdrop, normalizeUrlGo_fuel f t.length t
      (by
        simp only [UrlPart.render, List.length_append, List.length_cons,
          List.length_singleton] at hf
        omega) le_rfl]
  | angle a =>
    intro fuel hf
    obtain ⟨f, rfl⟩ : ∃ f, fuel = f + 1 := ⟨fuel - 1, by
      simp only [UrlPart.render, List.length_append, List.length_cons]
        at hf
      omega⟩
    show normalizeUrlGo (f + 1) ('<' :: ((a ++ ['>']) ++ t)) =
      str ":param" ++ normalizeUrlGo t.length t
    rw [normalizeUrlGo, if_neg (by decide), if_pos rfl]
    have hdrop : dropUntilClose '>' ((a ++ ['>']) ++ t) = t := by
      rw [List.append_assoc]
      exact dropUntilClose_append '>' a t hp.1
    rw [hdrop, normalizeUrlGo_fuel f t.length t
      (by
        simp only [UrlPart.render, List.length_append, List.length_cons,
          List.length_singleton] at hf
        omega) le_rfl]
  | dollar d =>
    intro fuel hf
    obtain ⟨f, rfl⟩ : ∃ f, fuel = f + 1 := ⟨fuel - 1, by
      simp only [UrlPart.render, List.length_append, List.length_cons]
        at hf
      omega⟩
    show normalizeUrlGo (f + 1)
        ('$' :: '{' :: ((d ++ ['}']) ++ t)) =
      str ":param" ++ normalizeUrlGo t.length t
    rw [normalizeUrlGo, if_neg (by decide), if_neg (by decide),
      if_pos ⟨rfl, rfl⟩]
    have hdrop : dropBraces 1 ('{' :: ((d ++ ['}']) ++ t)).tail = t := by
      show dropBraces 1 ((d ++ ['}']) ++ t) = t
      rw [List.append_assoc]
      exact dropBraces_one_append d t hp.1 hp.2.1
    rw [hdrop, normalizeUrlGo_fuel f t.length t
      (by
        simp only [UrlPart.render, List.length_append, List.length_cons,
          List.length_singleton] at hf
        omega) le_rfl]
  | colon n =>
    intro fuel hf
    obtain ⟨f, rfl⟩ : ∃ f, fuel = f + 1 := ⟨fuel - 1, by
      simp [UrlPart.render] at hf
      omega⟩
    show normalizeUrlGo (f + 1) (':' :: (n ++ t)) =
      str ":param" ++ normalizeUrlGo t.length t
    have halpha : ((n ++ t).head?.map Char.isAlpha).getD false = true := by
      cases n with
      | nil => exact absurd hp.1 (by simp)
      | cons c cn => exact hp.1
    rw [normalizeUrlGo, if_neg (by decide), if_neg (by decide),
      if_neg (fun hc => absurd hc.1 (by decide)), if_pos ⟨rfl, halpha⟩]
    rw [dropParamName_append n t hp.2 ht,
      normalizeUrlGo_fuel f t.length t
      (by simp [UrlPart.render] at hf; omega) le_rfl]
  | star n =>
    intro fuel hf
    obtain ⟨f, rfl⟩ : ∃ f, fuel = f + 1 := ⟨fuel - 1, by
      simp [UrlPart.render] at hf
      omega⟩
    show normalizeUrlGo (f + 1) ('*' :: (n ++ t)) =
      str ":param" ++ normalizeUrlGo t.length t
    have halpha : ((n ++ t).head?.map Char.isAlpha).getD false = true := by
      cases n with
      | nil => exact absurd hp.1 (by simp)
      | cons c cn => exact hp.1
    rw [normalizeUrlGo, if_neg (by decide), if_neg (by decide),
      if_neg (fun hc => absurd hc.1 (by decide)),
      if_neg (fun hc => absurd hc.1 (by decide)), if_pos ⟨rfl, halpha⟩]
    rw [dropParamName_append n t hp.2 ht,
      normalizeUrlGo_fuel f t.length t
      (by simp [UrlPart.render] at hf; omega) le_rfl]

theorem normalizeUrlGo_slash (R : Str) :
    normalizeUrlGo ('/' :: R).length ('/' :: R) =
      '/' :: normalizeUrlGo R.length R := by
  rw [List.length_cons, normalizeUrlGo, if_neg (by decide),
    if_neg (by decide), if_neg (fun hc => absurd hc.1 (by decide)),
    if_neg (fun hc => absurd hc.1 (by decide)),
    if_neg (fun hc => absurd hc.1 (by decide))]

theorem normalize_url_renderUrl (segs : List UrlPart)
    (hall : ∀ p ∈ segs, p.good) :
    normalize_url (renderUrl segs) =
      List.intercalate ['/'] (segs.map UrlPart.normalized) := by
  suffices haux : ∀ (sl : List UrlPart), (∀ p ∈ sl, p.good) →
      ∀ fuel, (renderUrl sl).length ≤ fuel →
      normalizeUrlGo fuel (renderUrl sl) =
        List.intercalate ['/'] (sl.map UrlPart.normalized) by
    exact haux segs hall _ le_rfl
  intro sl
  induction sl with
  | nil =>
    intro _ fuel _
    cases fuel <;> rfl
  | cons p rest ih =>
    intro h fuel hf
    cases rest with
    | nil =>
      have hr : renderUrl [p] = p.render ++ [] := by
        simp [renderUrl, intercalate_single]
      rw [hr] at hf
      rw [show renderUrl [p] = p.render ++ [] from hr,
        normalizeUrlGo_seg p (h p (by simp)) [] (Or.inl rfl) fuel hf,
        show normalizeUrlGo (List.length ([] : Str)) ([] : Str) = []
          from rfl]
      simp [intercalate_single]
    | cons q qrest =>
      have hr : renderUrl (p :: q :: qrest) =
          p.render ++ ('/' :: renderUrl (q :: qrest)) := by
        show List.intercalate ['/']
            ((p :: q :: qrest).map UrlPart.render) = _
        rw [List.map_cons, List.map_cons, intercalate_cons₂,
          List.append_assoc]
        rfl
      rw [hr] at hf
      rw [hr, normalizeUrlGo_seg p (h p (by simp))
        ('/' :: renderUrl (q :: qrest)) (Or.inr rfl) fuel hf,
        normalizeUrlGo_slash (renderUrl (q :: qrest)),
        ih (fun p' hp' => h p' (List.mem_cons_of_mem _ hp'))
          (renderUrl (q :: qrest)).length le_rfl,
        show (p :: q :: qrest).map UrlPart.normalized =
            p.normalized :: q.normalized ::
              qrest.map UrlPart.normalized from rfl,
        intercalate_cons₂, List.append_assoc]
      rfl

theorem toNat_ofNat_valid (n : Nat) (h : Nat.isValidChar n) :
    (Char.ofNat n).toNat = n := by
  unfold Char.ofNat
  rw [dif_pos h]
  rfl

theorem lowChar_eq_of_low (c d : Char)
    (hd : d.toNat < 97 ∨ 122 < d.toNat) (h : lowChar c = d) : c = d := by
  rw [lowChar] at h
  split at h
  · next hc =>
    exfalso
    have hn := congrArg Char.toNat h
    rw [toNat_ofNat_valid _ (Or.inl (by omega))] at hn
    omega
  · exact h

theorem trimEndSlashes_empty_iff (s : Str) : trimEndSlashes s = [] ↔
    s.reverse.dropWhile (fun x => decide (x = '/')) = [] := by
  rw [trimEndSlashes]
  constructor
  · intro h
    simpa using congrArg List.reverse h
  · intro h
    rw [h]
    rfl

theorem trimEndSlashes_cons (c : Char) (s : Str) :
    trimEndSlashes (c :: s) =
      if c = '/' ∧ trimEndSlashes s = [] then []
      else c :: trimEndSlashes s := by
  rw [show trimEndSlashes (c :: s) =
      (((c :: s).reverse).dropWhile (fun x => decide (x = '/'))).reverse
    from rfl, List.reverse_cons, List.dropWhile_append]
  by_cases hs : s.reverse.dropWhile (fun x => decide (x = '/')) = []
  · rw [if_pos (by simp [hs])]
    by_cases hc : c = '/'
    · rw [if_pos ⟨hc, (trimEndSlashes_empty_iff s).2 hs⟩]
      subst hc
      simp [List.dropWhile]
    · rw [if_neg (fun hand => hc hand.1),
        show List.dropWhile (fun x => decide (x = '/')) [c] = [c] by
          simp [List.dropWhile, hc],
        (trimEndSlashes_empty_iff s).2 hs]
      rfl
  · rw [if_neg (by simpa using hs),
      if_neg (fun hand => hs ((trimEndSlashes_empty_iff s).1 hand.2))]
    rw [show trimEndSlashes s =
        ((s.reverse).dropWhile (fun x => decide (x = '/'))).reverse
      from rfl]
    simp

theorem trimEndSlashes_append (t s : Str) :
    trimEndSlashes (t ++ s) =
      if trimEndSlashes s = [] then trimEndSlashes t
      else t ++ trimEndSlashes s := by
  rw [trimEndSlashes, List.reverse_append, List.dropWhile_append]
  by_cases hs : s.reverse.dropWhile (fun x => decide (x = '/')) = []
  · rw [if_pos (by simp [hs]),
      if_pos (by rw [trimEndSlashes, hs]; rfl)]
    rfl
  · rw [if_neg (by simpa using hs),
      if_neg (fun h => hs (by
        rw [trimEndSlashes] at h
        simpa using congrArg List.reverse h))]
    rw [List.reverse_append, List.reverse_reverse]
    rfl

theorem apiOk_append_plain (t s : Str)
    (h : ∀ c ∈ t, c ≠ '{' ∧ c ≠ '<' ∧ c ≠ ':') (hs : ApiOk s) :
    ApiOk (t ++ s) := by
  induction t with
  | nil => exact hs
  | cons c ct ih =>
    obtain ⟨h1, h2, h3⟩ := h c (List.mem_cons_self c ct)
    exact ApiOk.cons c _ h1 h2 h3
      (ih (fun c' hc' => h c' (List.mem_cons_of_mem _ hc')))

theorem apiOk_trimEnd (s : Str) (h : ApiOk s) :
    ApiOk (trimEndSlashes s) := by
  induction h with
  | nil => exact ApiOk.nil
  | cons c s h1 h2 h3 _ ih =>
    rw [trimEndSlashes_cons]
    by_cases hc : c = '/' ∧ trimEndSlashes s = []
    · rw [if_pos hc]
      exact ApiOk.nil
    · rw [if_neg hc]
      exact ApiOk.cons c _ h1 h2 h3 ih
  | param s hs _ ih =>
    have hsplit : trimEndSlashes (':' :: (str "param" ++ s)) =
        if trimEndSlashes s = [] then str ":param"
        else str ":param" ++ trimEndSlashes s := by
      rw [show (':' :: (str "param" ++ s)) = str ":param" ++ s from rfl,
        trimEndSlashes_append]
      by_cases h0 : trimEndSlashes s = []
      · rw [if_pos h0, if_pos h0]
        decide
      · rw [if_neg h0, if_neg h0]
    rw [hsplit]
    by_cases h0 : trimEndSlashes s = []
    · rw [if_pos h0]
      exact ApiOk.param [] (Or.inl rfl) ApiOk.nil
    · rw [if_neg h0]
      have hhead : (trimEndSlashes s).head? = some '/' := by
        rcases hs with rfl | hs
        · exact absurd rfl h0
        · cases s with
          | nil => exact absurd rfl h0
          | cons c s' =>
            simp only [List.head?] at hs
            cases Option.some.inj hs
            rw [trimEndSlashes_cons] at h0 ⊢
            by_cases h1 : ('/' : Char) = '/' ∧ trimEndSlashes s' = []
            · exact absurd (if_pos h1) h0
            · rw [if_neg h1]
              rfl
      exact ApiOk.param (trimEndSlashes s) (Or.inr hhead) ih

theorem dropToSlash_param (s : Str)
    (hs : s = [] ∨ s.head? = some '/') :
    dropToSlash (str "param" ++ s) = s := by
  rcases hs with rfl | hs
  · decide
  · cases s with
    | nil => decide
    | cons c s' =>
      simp only [List.head?] at hs
      cases Option.some.inj hs
      show dropToSlash ('p' :: 'a' :: 'r' :: 'a' :: 'm' :: '/' :: s') =
        '/' :: s'
      rw [dropToSlash, if_neg (by decide), dropToSlash,
        if_neg (by decide), dropToSlash, if_neg (by decide), dropToSlash,
        if_neg (by decide), dropToSlash, if_neg (by decide), dropToSlash,
        if_pos rfl]

theorem normApiLoop_copy (t : Str)
    (h : ∀ c ∈ t, c ≠ '{' ∧ c ≠ '<' ∧ c ≠ ':') :
    ∀ (acc s : Str) (fuel : Nat), t.length + s.length ≤ fuel →
    normApiLoop fuel acc (t ++ s) =
      normApiLoop (fuel - t.length) (acc ++ t) s := by
  induction t with
  | nil =>
    intro acc s fuel _
    simp
  | cons c ct ih =>
    intro acc s fuel hf
    obtain ⟨f, rfl⟩ : ∃ f, fuel = f + 1 :=
      ⟨fuel - 1, by simp only [List.length_cons] at hf; omega⟩
    obtain ⟨h1, h2, h3⟩ := h c (List.mem_cons_self c ct)
    rw [List.cons_append, normApiLoop,
      if_neg (by
        intro hor
        rcases hor with hc | hc
        · exact h1 hc
        · exact h2 hc),
      if_neg (fun hc => h3 hc.1),
      ih (fun c' hc' => h c' (List.mem_cons_of_mem _ hc')) (acc ++ [c])
        s f (by simp only [List.length_cons] at hf; omega)]
    rw [List.append_assoc]
    simp [Nat.succ_sub_succ]

theorem normApiLoop_id (s : Str) (h : ApiOk s) :
    ∀ (acc : Str) (fuel : Nat), s.length ≤ fuel →
    normApiLoop fuel acc s = acc ++ s := by
  induction h with
  | nil =>
    intro acc fuel _
    cases fuel <;> simp [normApiLoop]
  | cons c s h1 h2 h3 _ ih =>
    intro acc fuel hf
    obtain ⟨f, rfl⟩ : ∃ f, fuel = f + 1 :=
      ⟨fuel - 1, by simp only [List.length_cons] at hf; omega⟩
    rw [normApiLoop,
      if_neg (by
        intro hor
        rcases hor with hc | hc
        · exact h1 hc
        · exact h2 hc),
      if_neg (fun hc => h3 hc.1),
      ih (acc ++ [c]) f (by simp only [List.length_cons] at hf; omega)]
    simp

  | param s hs _ ih =>
    intro acc fuel hf
    obtain ⟨f, rfl⟩ : ∃ f, fuel = f + 1 :=
      ⟨fuel - 1, by
        simp only [List.length_cons, List.length_append] at hf
        omega⟩
    have hlen : s.length + 5 ≤ f := by
      simp only [List.length_cons, List.length_append] at hf
      have : (str "param").length = 5 := by decide
      omega
    rw [show (':' :: (str "param" ++ s)) =
      ':' :: ((str "param") ++ s) from rfl]
    rw [normApiLoop, if_neg (by
      intro hor
      rcases hor with hc | hc <;> exact absurd hc (by decide))]
    by_cases hlast : acc.getLast? = some '/'
    · rw [if_pos ⟨rfl, hlast⟩, dropToSlash_param s hs,
        ih (acc ++ str ":param") f (by omega), List.append_assoc]
      rfl
    · rw [if_neg (fun hc => hlast hc.2),
        normApiLoop_copy (str "param") (by decide) (acc ++ [':']) s f
          (by
            have h5 : (str "param").length = 5 := by decide
            omega),
        ih (acc ++ [':'] ++ str "param") _ (by
          have h5 : (str "param").length = 5 := by decide
          omega)]
      simp only [List.append_assoc]
      rfl

theorem toLowerStr_intercalate (ps : List Str) :
    toLowerStr (List.intercalate ['/'] ps) =
      List.intercalate ['/'] (ps.map toLowerStr) := by
  induction ps with
  | nil => rfl
  | cons a rest ih =>
    cases rest with
    | nil =>
      rw [intercalate_single, List.map_cons, List.map_nil,
        intercalate_single]
    | cons b t =>
      rw [intercalate_cons₂]
      have hsplit : toLowerStr (a ++ ['/'] ++
          List.intercalate ['/'] (b :: t)) =
          toLowerStr a ++ ['/'] ++
            toLowerStr (List.intercalate ['/'] (b :: t)) := by
        show List.map lowChar (a ++ ['/'] ++
          List.intercalate ['/'] (b :: t)) = _
        rw [List.map_append, List.map_append]
        rfl
      rw [hsplit, ih]
      simp [List.map_cons, intercalate_cons₂, List.append_assoc]

theorem apiOk_intercalate (ps : List Str)
    (h : ∀ p ∈ ps, p = str ":param" ∨
      ∀ c ∈ p, c ≠ '{' ∧ c ≠ '<' ∧ c ≠ ':') :
    ApiOk (List.intercalate ['/'] ps) := by
  induction ps with
  | nil => exact ApiOk.nil
  | cons a rest ih =>
    cases rest with
    | nil =>
      rw [intercalate_single]
      rcases h a (by simp) with rfl | hplain
      · have hp := ApiOk.param [] (Or.inl rfl) ApiOk.nil
        simpa using hp
      · have hp := apiOk_append_plain a [] hplain ApiOk.nil
        simpa using hp
    | cons b t =>
      rw [intercalate_cons₂, List.append_assoc]
      have hX : ApiOk ('/' :: List.intercalate ['/'] (b :: t)) :=
        ApiOk.cons '/' _ (by decide) (by decide) (by decide)
          (ih (fun p hp => h p (List.mem_cons_of_mem _ hp)))
      rcases h a (by simp) with rfl | hplain
      · have hp := ApiOk.param ('/' :: List.intercalate ['/'] (b :: t))
          (Or.inr rfl) hX
        simpa using hp
      · exact apiOk_append_plain a _ hplain hX

/-- **C5 (amended).**  On URLs assembled from well-formed slash-separated
segments — literal segments of plain characters and whole parameter forms
`{…}`, `<…>`, `${…}`, `:name`, `*name` — the composed endpoint
normalization (the extractor's `normalize_url` followed by the matcher's
`normalize_api_url`) replaces each parameter segment with `:param`, keeps
the literal segments, strips trailing slashes and lowercases.  (On
arbitrary strings the claim fails: `C5_counterexample` shows an unclosed
`{` is replaced by the code but preserved by the spec's single pass.) -/
theorem C5_normalization_amended (segs : List UrlPart)
    (h : ∀ p ∈ segs, p.good) :
    normalize_api_url (normalize_url (renderUrl segs)) =
      trimEndSlashes (toLowerStr
        (List.intercalate ['/'] (segs.map UrlPart.normalized))) := by
  rw [normalize_url_renderUrl segs h]
  have hok : ApiOk (trimEndSlashes (toLowerStr
      (List.intercalate ['/'] (segs.map UrlPart.normalized)))) := by
    apply apiOk_trimEnd
    rw [toLowerStr_intercalate]
    apply apiOk_intercalate
    intro q hq
    rcases List.mem_map.1 hq with ⟨part, hpart, rfl⟩
    rcases List.mem_map.1 hpart with ⟨p, hp, rfl⟩
    cases p with
    | lit s =>
      right
      intro c' hc'
      rcases List.mem_map.1 hc' with ⟨c, hc, rfl⟩
      have hpc := h _ hp c hc
      refine ⟨?_, ?_, ?_⟩
      · intro he
        exact hpc.1 (lowChar_eq_of_low c '{' (Or.inr (by decide)) he)
      · intro he
        exact hpc.2.2.1 (lowChar_eq_of_low c '<' (Or.inl (by decide)) he)
      · intro he
        exact hpc.2.2.2.2.2.1
          (lowChar_eq_of_low c ':' (Or.inl (by decide)) he)
    | brace b => exact Or.inl rfl
    | angle a => exact Or.inl rfl
    | dollar d => exact Or.inl rfl
    | colon n => exact Or.inl rfl
    | star n => exact Or.inl rfl
  show normApiLoop (trimEndSlashes (List.map lowChar
      (List.intercalate ['/'] (segs.map UrlPart.normalized)))).length []
      (trimEndSlashes (List.map lowChar
        (List.intercalate ['/'] (segs.map UrlPart.normalized)))) = _
  rw [normApiLoop_id
    (trimEndSlashes (List.map lowChar
      (List.intercalate ['/'] (segs.map UrlPart.normalized)))) hok []
    _ le_rfl]
  rfl

/-- Witness for the amended C5: the segments of `/API/{id}/` normalize to
`/api/:param`. -/
theorem C5_normalization_amended_witness :
    (∀ p ∈ [UrlPart.lit [], UrlPart.lit (str "API"),
        UrlPart.brace (str "id"), UrlPart.lit []], p.good) ∧
    normalize_api_url (normalize_url (renderUrl
        [UrlPart.lit [], UrlPart.lit (str "API"),
         UrlPart.brace (str "id"), UrlPart.lit []])) =
      trimEndSlashes (toLowerStr (List.intercalate ['/']
        ([UrlPart.lit [], UrlPart.lit (str "API"),
          UrlPart.brace (str "id"),
          UrlPart.lit []].map UrlPart.normalized))) :=
  ⟨by decide, C5_normalization_amended _ (by decide)⟩

/-! ## The incremental-update frame property (C1) -/

theorem set_get?_self {α : Type} (l : List α) (i : Nat) (a : α)
    (h : l.get? i = some a) : l.set i a = l := by
  apply List.ext_get?
  intro j
  rw [List.get?_set]
  split
  · next hij =>
    subst hij
    rw [h]
    rfl
  · rfl

theorem add_file_live_eq (g : CodeGraph) (file : Str) (fi : Nat)
    (fnd : NodeData) (hfi : alookup g.file_index file = some fi)
    (hfnode : g.nodes.get? fi = some fnd)
    (hflive : fnd.removed = false) : g.add_file file = (g, fi) := by
  simp only [CodeGraph.add_file, hfi, CodeGraph.setNode, hfnode]
  have hid : { fnd with removed := false } = fnd := by
    rw [← hflive]
  rw [hid, set_get?_self g.nodes fi fnd hfnode]

theorem alookup_mem {κ β : Type} [DecidableEq κ] (l : List (κ × β))
    (k : κ) (v : β) (h : alookup l k = some v) : (k, v) ∈ l := by
  rw [alookup] at h
  rcases hf : l.find? (fun p => decide (p.1 = k)) with _ | p
  · rw [hf] at h
    exact Option.noConfusion h
  · rw [hf] at h
    have hm := List.mem_of_find?_eq_some hf
    have hk := List.find?_some hf
    simp only [decide_eq_true_eq] at hk
    cases Option.some.inj h
    rw [← hk]
    exact hm

theorem setNode_edges (g : CodeGraph) (j : Nat)
    (f : NodeData → NodeData) : (g.setNode j f).edges = g.edges := by
  rw [CodeGraph.setNode]
  cases g.nodes.get? j <;> rfl

theorem setNode_nodes_length (g : CodeGraph) (j : Nat)
    (f : NodeData → NodeData) :
    (g.setNode j f).nodes.length = g.nodes.length := by
  rw [CodeGraph.setNode]
  cases hj : g.nodes.get? j
  · rfl
  · simp

theorem ingest_symbol_edges (g : CodeGraph) (fi : Nat) (fp : Str)
    (s : ExtractedSymbol) :
    (g.ingest_symbol fi fp s).1.edges =
      g.edges ++ [⟨fi, g.nodes.length, EdgeKind.Defines⟩] := by
  simp only [CodeGraph.ingest_symbol, CodeGraph.add_symbol,
    CodeGraph.add_edge]
  split_ifs with hf
  · rw [setNode_edges]
  · rfl

theorem ingest_symbol_nodes_length (g : CodeGraph) (fi : Nat) (fp : Str)
    (s : ExtractedSymbol) :
    (g.ingest_symbol fi fp s).1.nodes.length = g.nodes.length + 1 := by
  simp only [CodeGraph.ingest_symbol, CodeGraph.add_symbol,
    CodeGraph.add_edge]
  split_ifs with hf
  · rw [setNode_nodes_length]
    simp
  · simp

theorem incChangedPhase_eq (g : CodeGraph)
    (old : List (Str × (Nat × Str)))
    (nw : List (Str × ExtractedSymbol)) (queue : List Nat) :
    g.incChangedPhase old nw queue =
      nw.foldl (chgStep old) (g, queue) := rfl

theorem ainsert_of_lookup_none {κ β : Type} [DecidableEq κ]
    (l : List (κ × β)) (k : κ) (v : β) (h : alookup l k = none) :
    ainsert l k v = l ++ [(k, v)] := by
  rw [ainsert, if_neg]
  intro hany
  obtain ⟨p, hp, hpk⟩ := List.any_eq_true.1 hany
  have hfind := List.find?_eq_none.1 (Option.map_eq_none'.1 h) p hp
  exact hfind hpk

theorem alookup_singleton_ne {κ β : Type} [DecidableEq κ]
    (k k' : κ) (v : β) (h : ¬ k = k') :
    alookup [(k, v)] k' = none := by
  rw [alookup_cons, if_neg h, alookup_nil]

theorem newSymbolsMap_eq_map (ex : FileExtractions)
    (h1 : (ex.symbols.map (·.name)).Nodup) :
    newSymbolsMap ex = ex.symbols.map (fun s => (s.name, s)) := by
  have go : ∀ (l : List ExtractedSymbol) (m : List (Str × ExtractedSymbol)),
      (∀ s ∈ l, alookup m s.name = none) → (l.map (·.name)).Nodup →
      l.foldl (fun m s => ainsert m s.name s) m =
        m ++ l.map (fun s => (s.name, s)) := by
    intro l
    induction l with
    | nil => intro m _ _; rw [List.foldl_nil, List.map_nil, List.append_nil]
    | cons a l ih =>
      intro m hnone hnd
      have hnd' : (a.name :: l.map (·.name)).Nodup := hnd
      have hstep : ∀ s ∈ l, alookup (ainsert m a.name a) s.name = none := by
        intro s hs
        rw [ainsert_of_lookup_none m a.name a
          (hnone a (List.mem_cons_self a l))]
        rw [alookup_append]
        rw [hnone s (List.mem_cons_of_mem a hs)]
        rw [alookup_singleton_ne a.name s.name a
          (fun he => (List.nodup_cons.1 hnd').1
            (List.mem_map.2 ⟨s, hs, he.symm⟩))]
        rfl
      rw [List.foldl_cons, List.map_cons,
        ih (ainsert m a.name a) hstep (List.nodup_cons.1 hnd').2,
        ainsert_of_lookup_none m a.name a (hnone a (List.mem_cons_self a l)),
        List.append_assoc]
      rfl
  rw [newSymbolsMap]
  have := go ex.symbols [] (fun s _ => rfl) h1
  rw [this]
  rfl

theorem setNode_qualified (g : CodeGraph) (j : Nat)
    (f : NodeData → NodeData) :
    (g.setNode j f).qualified_index = g.qualified_index := by
  rw [CodeGraph.setNode]
  cases g.nodes.get? j <;> rfl

theorem add_edge_nodes (g : CodeGraph) (a b : Nat) (k : EdgeKind) :
    (g.add_edge a b k).nodes = g.nodes := rfl

theorem add_edge_qualified (g : CodeGraph) (a b : Nat) (k : EdgeKind) :
    (g.add_edge a b k).qualified_index = g.qualified_index := rfl

theorem add_edge_edges (g : CodeGraph) (a b : Nat) (k : EdgeKind) :
    (g.add_edge a b k).edges = g.edges ++ [⟨a, b, k⟩] := rfl

theorem ingest_symbol_qi (g : CodeGraph) (fi : Nat) (fp : Str)
    (s : ExtractedSymbol) :
    (g.ingest_symbol fi fp s).1.qualified_index =
      ainsert g.qualified_index (fp, s.name) g.nodes.length := by
  simp only [CodeGraph.ingest_symbol, CodeGraph.add_symbol,
    CodeGraph.add_edge]
  split_ifs with hf
  · rw [setNode_qualified]
  · rfl

theorem ingest_symbol_callLines (g : CodeGraph) (fi : Nat) (fp : Str)
    (s : ExtractedSymbol) (h : ∀ nd ∈ g.nodes, nd.call_lines = []) :
    ∀ nd ∈ (g.ingest_symbol fi fp s).1.nodes, nd.call_lines = [] := by
  intro nd hnd
  simp only [CodeGraph.ingest_symbol, CodeGraph.add_symbol,
    CodeGraph.add_edge] at hnd
  split_ifs at hnd with hf
  · rcases mem_setNode_nodes _ _ _ _ hnd with hin | ⟨n, hn, heq⟩
    · rcases List.mem_append.1 hin with hin | hin
      · exact h nd hin
      · rw [List.mem_singleton.1 hin]; rfl
    · rcases List.mem_append.1 hn with hn | hn
      · rw [heq]; exact h n hn
      · rw [heq, List.mem_singleton.1 hn]; rfl
  · rcases List.mem_append.1 hnd with hin | hin
    · exact h nd hin
    · rw [List.mem_singleton.1 hin]; rfl

theorem resolve_call_qualified (g : CodeGraph) (ci : Nat)
    (call : ExtractedCall) :
    (g.resolve_call ci call).qualified_index = g.qualified_index := by
  cases halk : alookup g.symbol_index call.callee with
  | none => simp only [CodeGraph.resolve_call, halk]
  | some idxs =>
    cases hh : idxs.head? with
    | none => simp only [CodeGraph.resolve_call, halk, hh]
    | some cidx =>
      simp only [CodeGraph.resolve_call, halk, hh]
      rw [setNode_qualified, add_edge_qualified]

theorem resolve_call_nodes_length (g : CodeGraph) (ci : Nat)
    (call : ExtractedCall) :
    (g.resolve_call ci call).nodes.length = g.nodes.length := by
  cases halk : alookup g.symbol_index call.callee with
  | none => simp only [CodeGraph.resolve_call, halk]
  | some idxs =>
    cases hh : idxs.head? with
    | none => simp only [CodeGraph.resolve_call, halk, hh]
    | some cidx =>
      simp only [CodeGraph.resolve_call, halk, hh]
      rw [setNode_nodes_length, add_edge_nodes]

theorem resolve_call_edges_sub (g : CodeGraph) (ci : Nat)
    (call : ExtractedCall) :
    ∀ e ∈ (g.resolve_call ci call).edges,
      e ∈ g.edges ∨ e.kind = EdgeKind.Calls := by
  intro e he
  cases halk : alookup g.symbol_index call.callee with
  | none => simp only [CodeGraph.resolve_call, halk] at he; exact Or.inl he
  | some idxs =>
    cases hh : idxs.head? with
    | none =>
      simp only [CodeGraph.resolve_call, halk, hh] at he
      exact Or.inl he
    | some cidx =>
      simp only [CodeGraph.resolve_call, halk, hh] at he
      rw [setNode_edges, add_edge_edges] at he
      rcases List.mem_append.1 he with hin | hin
      · exact Or.inl hin
      · rw [List.mem_singleton.1 hin]; exact Or.inr rfl

theorem resolve_call_get?_ne (g : CodeGraph) (ci : Nat)
    (call : ExtractedCall) (i : Nat) (h : ¬ i = ci) :
    (g.resolve_call ci call).nodes.get? i = g.nodes.get? i := by
  cases halk : alookup g.symbol_index call.callee with
  | none => simp only [CodeGraph.resolve_call, halk]
  | some idxs =>
    cases hh : idxs.head? with
    | none => simp only [CodeGraph.resolve_call, halk, hh]
    | some cidx =>
      simp only [CodeGraph.resolve_call, halk, hh]
      rw [setNode_nodes_get?_ne _ _ _ _ h]
      rfl

theorem add_symbol_nodes_length (g : CodeGraph) (n : Str) (k : NodeKind)
    (fp : Str) (ls le : Nat) (cs : Str) :
    (g.add_symbol n k fp ls le cs).1.nodes.length = g.nodes.length + 1 := by
  simp only [CodeGraph.add_symbol, List.length_append, List.length_cons,
    List.length_nil]

theorem ingest_imports_step (g : CodeGraph) (fi : Nat) (fp : Str)
    (imp : ExtractedImport) (l : List ExtractedImport) :
    g.ingest_imports fi fp (imp :: l) =
      ((g.add_symbol imp.path NodeKind.Import fp imp.line imp.line
          []).1.add_edge fi g.nodes.length EdgeKind.Imports).ingest_imports
        fi fp l := rfl

theorem ingest_imports_nodes_length (fi : Nat) (fp : Str) :
    ∀ (l : List ExtractedImport) (g : CodeGraph),
    (g.ingest_imports fi fp l).nodes.length = g.nodes.length + l.length := by
  intro l
  induction l with
  | nil => intro g; rfl
  | cons imp l ih =>
    intro g
    rw [ingest_imports_step, ih, add_edge_nodes, add_symbol_nodes_length]
    simp only [List.length_cons]
    omega

theorem ingest_imports_qi_sub (fi : Nat) (fp : Str) :
    ∀ (l : List ExtractedImport) (g : CodeGraph),
    ∀ p ∈ (g.ingest_imports fi fp l).qualified_index,
      p ∈ g.qualified_index ∨ ∃ imp ∈ l, p.1 = (fp, imp.path) := by
  intro l
  induction l with
  | nil => intro g p hp; exact Or.inl hp
  | cons imp l ih =>
    intro g p hp
    rw [ingest_imports_step] at hp
    rcases ih _ p hp with hin | ⟨imp', hi', he'⟩
    · rw [add_edge_qualified] at hin
      rcases mem_ainsert _ _ _ _ hin with hin | he
      · exact Or.inl hin
      · exact Or.inr ⟨imp, List.mem_cons_self imp l, by rw [he]⟩
    · exact Or.inr ⟨imp', List.mem_cons_of_mem imp hi', he'⟩

theorem ingest_imports_callLines (fi : Nat) (fp : Str) :
    ∀ (l : List ExtractedImport) (g : CodeGraph),
    (∀ nd ∈ g.nodes, nd.call_lines = []) →
    ∀ nd ∈ (g.ingest_imports fi fp l).nodes, nd.call_lines = [] := by
  intro l
  induction l with
  | nil => intro g h; exact h
  | cons imp l ih =>
    intro g h
    rw [ingest_imports_step]
    refine ih _ ?_
    intro nd hnd
    rw [add_edge_nodes] at hnd
    rcases List.mem_append.1 hnd with hin | hin
    · exact h nd hin
    · rw [List.mem_singleton.1 hin]; rfl

theorem ingest_imports_edges_sub (fi : Nat) (fp : Str) :
    ∀ (l : List ExtractedImport) (g : CodeGraph),
    ∀ e ∈ (g.ingest_imports fi fp l).edges,
      e ∈ g.edges ∨ e.kind = EdgeKind.Imports := by
  intro l
  induction l with
  | nil => intro g e he; exact Or.inl he
  | cons imp l ih =>
    intro g e he
    rw [ingest_imports_step] at he
    rcases ih _ e he with hin | hk
    · rw [add_edge_edges] at hin
      rcases List.mem_append.1 hin with hin | hin
      · exact Or.inl (by
          have : (g.add_symbol imp.path NodeKind.Import fp imp.line imp.line
              []).1.edges = g.edges := rfl
          rwa [this] at hin)
      · rw [List.mem_singleton.1 hin]; exact Or.inr rfl
    · exact Or.inr hk

theorem symFold_length (fi : Nat) (fp : Str) :
    ∀ (l : List ExtractedSymbol) (g : CodeGraph),
    (l.foldl (fun g s => (g.ingest_symbol fi fp s).1) g).nodes.length =
      g.nodes.length + l.length := by
  intro l
  induction l with
  | nil => intro g; rfl
  | cons s l ih =>
    intro g
    rw [List.foldl_cons, ih, ingest_symbol_nodes_length]
    simp only [List.length_cons]
    omega

theorem symFold_qi_sub (fi : Nat) (fp : Str) :
    ∀ (l : List ExtractedSymbol) (g : CodeGraph),
    ∀ p ∈ (l.foldl (fun g s => (g.ingest_symbol fi fp s).1)
        g).qualified_index,
      p ∈ g.qualified_index ∨ ∃ s ∈ l, p.1 = (fp, s.name) ∧
        g.nodes.length ≤ p.2 ∧ p.2 < g.nodes.length + l.length := by
  intro l
  induction l with
  | nil => intro g p hp; exact Or.inl hp
  | cons s l ih =>
    intro g p hp
    rw [List.foldl_cons] at hp
    rcases ih _ p hp with hin | ⟨s', hs', he', hlo, hhi⟩
    · rw [ingest_symbol_qi] at hin
      rcases mem_ainsert _ _ _ _ hin with hin | he
      · exact Or.inl hin
      · refine Or.inr ⟨s, List.mem_cons_self s l, ?_, ?_, ?_⟩
        · rw [he]
        · rw [he]
        · rw [he]
          simp only [List.length_cons]
          omega
    · rw [ingest_symbol_nodes_length] at hlo hhi
      refine Or.inr ⟨s', List.mem_cons_of_mem s hs', he', by omega, ?_⟩
      simp only [List.length_cons]
      omega

theorem symFold_callLines (fi : Nat) (fp : Str) :
    ∀ (l : List ExtractedSymbol) (g : CodeGraph),
    (∀ nd ∈ g.nodes, nd.call_lines = []) →
    ∀ nd ∈ (l.foldl (fun g s => (g.ingest_symbol fi fp s).1) g).nodes,
      nd.call_lines = [] := by
  intro l
  induction l with
  | nil => intro g h; exact h
  | cons s l ih =>
    intro g h
    rw [List.foldl_cons]
    exact ih _ (ingest_symbol_callLines g fi fp s h)

theorem symFold_edges_kind (fi : Nat) (fp : Str) :
    ∀ (l : List ExtractedSymbol) (g : CodeGraph),
    (∀ e ∈ g.edges, e.kind = EdgeKind.Defines) →
    ∀ e ∈ (l.foldl (fun g s => (g.ingest_symbol fi fp s).1) g).edges,
      e.kind = EdgeKind.Defines := by
  intro l
  induction l with
  | nil => intro g h; exact h
  | cons s l ih =>
    intro g h
    rw [List.foldl_cons]
    refine ih _ ?_
    intro e he
    rw [ingest_symbol_edges] at he
    rcases List.mem_append.1 he with hin | hin
    · exact h e hin
    · rw [List.mem_singleton.1 hin]

theorem incAddedPhase_nil_old (g : CodeGraph) (fi : Nat) (fp : Str)
    (nw : List (Str × ExtractedSymbol)) :
    g.incAddedPhase fi fp [] nw =
      (nw.foldl (fun g p => (g.ingest_symbol fi fp p.2).1) g,
       List.range' g.nodes.length nw.length) := by
  have go : ∀ (l : List (Str × ExtractedSymbol)) (gq : CodeGraph × List Nat),
      l.foldl
        (fun (gq : CodeGraph × List Nat) p =>
          if (alookup ([] : List (Str × (Nat × Str))) p.1).isNone then
            let gs := gq.1.ingest_symbol fi fp p.2
            (gs.1, gq.2 ++ [gs.2])
          else gq) gq =
      (l.foldl (fun g p => (g.ingest_symbol fi fp p.2).1) gq.1,
       gq.2 ++ List.range' gq.1.nodes.length l.length) := by
    intro l
    induction l with
    | nil => intro gq; simp
    | cons p l ih =>
      intro gq
      rw [List.foldl_cons, List.foldl_cons, ih]
      congr 1
      show gq.2 ++ [gq.1.nodes.length] ++
          List.range' (gq.1.ingest_symbol fi fp p.2).1.nodes.length
            l.length =
        gq.2 ++ List.range' gq.1.nodes.length (l.length + 1)
      rw [ingest_symbol_nodes_length, List.range'_succ, List.append_assoc]
      rfl
  have h := go nw (g, [])
  rw [List.nil_append] at h
  exact h

theorem finalize_step (g : CodeGraph) (i : Nat) (idxs : List Nat) :
    g.finalize_call_lines (i :: idxs) =
      (g.setNode i (fun n =>
        { n with call_lines := finalizeLines n.call_lines
          })).finalize_call_lines idxs := rfl

theorem finalize_append (g : CodeGraph) (l1 l2 : List Nat) :
    g.finalize_call_lines (l1 ++ l2) =
      (g.finalize_call_lines l1).finalize_call_lines l2 := by
  rw [CodeGraph.finalize_call_lines, CodeGraph.finalize_call_lines,
    CodeGraph.finalize_call_lines, List.foldl_append]

theorem finalize_noop :
    ∀ (idxs : List Nat) (g : CodeGraph),
    (∀ i ∈ idxs, ∀ nd, g.nodes.get? i = some nd → nd.call_lines = []) →
    g.finalize_call_lines idxs = g := by
  intro idxs
  induction idxs with
  | nil => intro g _; rfl
  | cons i idxs ih =>
    intro g h
    rw [finalize_step]
    have hset : g.setNode i (fun n =>
        { n with call_lines := finalizeLines n.call_lines }) = g := by
      cases hget : g.nodes.get? i with
      | none => simp only [CodeGraph.setNode, hget]
      | some nd =>
        have hcl := h i (List.mem_cons_self i idxs) nd hget
        have hfl : finalizeLines nd.call_lines = nd.call_lines := by
          rw [hcl]
          rfl
        simp only [CodeGraph.setNode, hget]
        rw [hfl]
        have hnd : ({ nd with call_lines := nd.call_lines } : NodeData) =
            nd := rfl
        rw [hnd, set_get?_self _ _ _ hget]
    rw [hset]
    exact ih g (fun j hj => h j (List.mem_cons_of_mem i hj))

theorem finalize_get?_ne :
    ∀ (idxs : List Nat) (g : CodeGraph) (i : Nat), i ∉ idxs →
    (g.finalize_call_lines idxs).nodes.get? i = g.nodes.get? i := by
  intro idxs
  induction idxs with
  | nil => intro g i _; rfl
  | cons j idxs ih =>
    intro g i hi
    rw [finalize_step, ih _ i (fun hin => hi (List.mem_cons_of_mem j hin)),
      setNode_nodes_get?_ne]
    intro he
    exact hi (he ▸ List.mem_cons_self j idxs)

theorem finalize_qualified :
    ∀ (idxs : List Nat) (g : CodeGraph),
    (g.finalize_call_lines idxs).qualified_index = g.qualified_index := by
  intro idxs
  induction idxs with
  | nil => intro g; rfl
  | cons j idxs ih => intro g; rw [finalize_step, ih, setNode_qualified]

theorem finalize_edges :
    ∀ (idxs : List Nat) (g : CodeGraph),
    (g.finalize_call_lines idxs).edges = g.edges := by
  intro idxs
  induction idxs with
  | nil => intro g; rfl
  | cons j idxs ih => intro g; rw [finalize_step, ih, setNode_edges]

theorem range'_split (s a b : Nat) :
    List.range' s (a + b) = List.range' s a ++ List.range' (s + a) b := by
  have h := List.range'_append s a b 1
  simp only [one_mul] at h
  rw [Nat.add_comm b a] at h
  exact h.symm

theorem incCalls_eq_fold (file : Str) (queue : List Nat) :
    ∀ (calls : List ExtractedCall) (g : CodeGraph),
    (∀ c ∈ calls, ∀ i,
      alookup g.qualified_index (file, c.caller) = some i → i ∈ queue) →
    g.incCallsPhase file calls queue =
      calls.foldl
        (fun g call =>
          match alookup g.qualified_index (file, call.caller) with
          | some caller_idx => g.resolve_call caller_idx call
          | none => g)
        g := by
  intro calls
  induction calls with
  | nil => intro g _; rfl
  | cons c cs ih =>
    intro g hkey
    cases hlk : alookup g.qualified_index (file, c.caller) with
    | none =>
      have hB : g.incCallsPhase file (c :: cs) queue =
          g.incCallsPhase file cs queue := by
        simp only [CodeGraph.incCallsPhase, List.foldl_cons, hlk]
      rw [hB, List.foldl_cons]
      simp only [hlk]
      exact ih g (fun c' hc' => hkey c' (List.mem_cons_of_mem c hc'))
    | some ci =>
      have hci : ci ∈ queue := hkey c (List.mem_cons_self c cs) ci hlk
      have hB : g.incCallsPhase file (c :: cs) queue =
          (g.resolve_call ci c).incCallsPhase file cs queue := by
        simp only [CodeGraph.incCallsPhase, List.foldl_cons, hlk,
          if_pos hci]
      rw [hB, List.foldl_cons]
      simp only [hlk]
      refine ih (g.resolve_call ci c) ?_
      intro c' hc' i hlk'
      rw [resolve_call_qualified] at hlk'
      exact hkey c' (List.mem_cons_of_mem c hc') i hlk'

theorem callsFold_inv (file : Str) (queue : List Nat)
    (QI : List ((Str × Str) × Nat)) (calls : List ExtractedCall)
    (hkey : ∀ c ∈ calls, ∀ i,
      alookup QI (file, c.caller) = some i → i ∈ queue)
    (g : CodeGraph) (hqi : g.qualified_index = QI)
    (hCL : ∀ i nd, g.nodes.get? i = some nd →
      i ∈ queue ∨ nd.call_lines = [])
    (hApi : ∀ e ∈ g.edges, ¬ e.kind = EdgeKind.ApiCall) :
    (calls.foldl
        (fun g call =>
          match alookup g.qualified_index (file, call.caller) with
          | some caller_idx => g.resolve_call caller_idx call
          | none => g)
        g).qualified_index = QI ∧
    (∀ i nd, (calls.foldl
        (fun g call =>
          match alookup g.qualified_index (file, call.caller) with
          | some caller_idx => g.resolve_call caller_idx call
          | none => g)
        g).nodes.get? i = some nd → i ∈ queue ∨ nd.call_lines = []) ∧
    (calls.foldl
        (fun g call =>
          match alookup g.qualified_index (file, call.caller) with
          | some caller_idx => g.resolve_call caller_idx call
          | none => g)
        g).nodes.length = g.nodes.length ∧
    (∀ e ∈ (calls.foldl
        (fun g call =>
          match alookup g.qualified_index (file, call.caller) with
          | some caller_idx => g.resolve_call caller_idx call
          | none => g)
        g).edges, ¬ e.kind = EdgeKind.ApiCall) := by
  refine foldl_inv_mem
    (fun g' => g'.qualified_index = QI ∧
      (∀ i nd, g'.nodes.get? i = some nd →
        i ∈ queue ∨ nd.call_lines = []) ∧
      g'.nodes.length = g.nodes.length ∧
      (∀ e ∈ g'.edges, ¬ e.kind = EdgeKind.ApiCall))
    calls _ ?_ g ⟨hqi, hCL, rfl, hApi⟩
  intro g' call hcall hP
  obtain ⟨hqi', hCL', hlen', hApi'⟩ := hP
  cases hlk : alookup g'.qualified_index (file, call.caller) with
  | none =>
    simp only [hlk]
    exact ⟨hqi', hCL', hlen', hApi'⟩
  | some ci =>
    have hci : ci ∈ queue := hkey call hcall ci (hqi' ▸ hlk)
    simp only [hlk]
    refine ⟨by rw [resolve_call_qualified]; exact hqi', ?_,
      by rw [resolve_call_nodes_length]; exact hlen', ?_⟩
    · intro i nd hget
      by_cases hic : i = ci
      · exact Or.inl (hic ▸ hci)
      · rw [resolve_call_get?_ne _ _ _ _ hic] at hget
        exact hCL' i nd hget
    · intro e he
      rcases resolve_call_edges_sub _ _ _ e he with hin | hk
      · exact hApi' e hin
      · intro habs; rw [hk] at habs; exact EdgeKind.noConfusion habs

theorem resolve_contains_step (g : CodeGraph) (file : Str)
    (s : ExtractedSymbol) (ss : List ExtractedSymbol)
    (fl : Option (List Nat)) :
    g.resolve_contains file (s :: ss) fl =
      (match s.parent with
      | some parent_name =>
        match alookup g.qualified_index (file, s.name) with
        | some child_idx =>
          if (match fl with
              | some st => decide (child_idx ∉ st)
              | none => false) then g
          else
            match alookup g.qualified_index (file, parent_name) with
            | some parent_idx => g.add_edge parent_idx child_idx .Contains
            | none => g
        | none => g
      | none => g).resolve_contains file ss fl := rfl

theorem resolve_contains_some_eq (file : Str) (queue : List Nat) :
    ∀ (syms : List ExtractedSymbol) (g : CodeGraph),
    (∀ s ∈ syms, ∀ i,
      alookup g.qualified_index (file, s.name) = some i → i ∈ queue) →
    g.resolve_contains file syms (some queue) =
      g.resolve_contains file syms none := by
  intro syms
  induction syms with
  | nil => intro g _; rfl
  | cons s ss ih =>
    intro g hkey
    rw [resolve_contains_step, resolve_contains_step]
    cases hp : s.parent with
    | none => exact ih g (fun s' hs' => hkey s' (List.mem_cons_of_mem s hs'))
    | some pn =>
      cases hc : alookup g.qualified_index (file, s.name) with
      | none => exact ih g (fun s' hs' => hkey s' (List.mem_cons_of_mem s hs'))
      | some ci =>
        have hci : ci ∈ queue := hkey s (List.mem_cons_self s ss) ci hc
        have hdec : decide (ci ∉ queue) = false :=
          decide_eq_false (fun habs => habs hci)
        simp only [hdec, Bool.false_eq_true, if_false]
        cases hpar : alookup g.qualified_index (file, pn) with
        | none => exact ih g (fun s' hs' => hkey s' (List.mem_cons_of_mem s hs'))
        | some pi =>
          refine ih _ ?_
          intro s' hs' i hlk'
          rw [add_edge_qualified] at hlk'
          exact hkey s' (List.mem_cons_of_mem s hs') i hlk'

theorem resolve_contains_step_edges (g : CodeGraph) (file : Str)
    (s : ExtractedSymbol) (fl : Option (List Nat)) :
    ∀ e ∈ (match s.parent with
      | some parent_name =>
        match alookup g.qualified_index (file, s.name) with
        | some child_idx =>
          if (match fl with
              | some st => decide (child_idx ∉ st)
              | none => false) then g
          else
            match alookup g.qualified_index (file, parent_name) with
            | some parent_idx => g.add_edge parent_idx child_idx .Contains
            | none => g
        | none => g
      | none => g).edges, e ∈ g.edges ∨ e.kind = EdgeKind.Contains := by
  intro e he
  cases hp : s.parent with
  | none => simp only [hp] at he; exact Or.inl he
  | some pn =>
    simp only [hp] at he
    cases hc : alookup g.qualified_index (file, s.name) with
    | none => simp only [hc] at he; exact Or.inl he
    | some ci =>
      simp only [hc] at he
      split at he
      · exact Or.inl he
      · cases hpar : alookup g.qualified_index (file, pn) with
        | none => simp only [hpar] at he; exact Or.inl he
        | some pidx =>
          simp only [hpar] at he
          rw [add_edge_edges] at he
          rcases List.mem_append.1 he with hin | hin
          · exact Or.inl hin
          · rw [List.mem_singleton.1 hin]; exact Or.inr rfl

theorem resolve_contains_edges_sub (file : Str)
    (fl : Option (List Nat)) :
    ∀ (syms : List ExtractedSymbol) (g : CodeGraph),
    ∀ e ∈ (g.resolve_contains file syms fl).edges,
      e ∈ g.edges ∨ e.kind = EdgeKind.Contains := by
  intro syms
  induction syms with
  | nil => intro g e he; exact Or.inl he
  | cons s ss ih =>
    intro g e he
    rw [resolve_contains_step] at he
    rcases ih _ e he with hin | hk
    · exact resolve_contains_step_edges g file s fl e hin
    · exact Or.inr hk

theorem incImportsPhase_no_imports (g : CodeGraph) (fi : Nat) (fp : Str)
    (l : List ExtractedImport)
    (h : ∀ e ∈ g.edges, ¬ e.kind = EdgeKind.Imports) :
    g.incImportsPhase fi fp l = g.ingest_imports fi fp l := by
  have hfilter : g.edges.filter (fun e =>
      decide (e.src = fi ∧ e.kind = EdgeKind.Imports ∧
        g.is_live e.tgt = true)) = [] :=
    List.filter_eq_nil_iff.2 (fun e he habs =>
      h e he (of_decide_eq_true habs).2.1)
  simp only [CodeGraph.incImportsPhase, hfilter, List.map_nil,
    List.foldl_nil]

theorem snd_mem_of_mem_enumFrom {α : Type} :
    ∀ (l : List α) (n : Nat) (ie : Nat × α),
    ie ∈ l.enumFrom n → ie.2 ∈ l := by
  intro l
  induction l with
  | nil => intro n ie hmem; exact absurd hmem (List.not_mem_nil ie)
  | cons a l ih =>
    intro n ie hmem
    rcases List.mem_cons.1 hmem with he | hin
    · rw [he]
      exact List.mem_cons_self a l
    · exact List.mem_cons_of_mem a (ih (n + 1) ie hin)

theorem flatMap_eq_nil_of {α β : Type} (f : α → List β) :
    ∀ (l : List α), (∀ a ∈ l, f a = []) → l.flatMap f = [] := by
  intro l
  induction l with
  | nil => intro _; rfl
  | cons a l ih =>
    intro h
    rw [List.flatMap_cons, h a (List.mem_cons_self a l),
      ih (fun a' ha' => h a' (List.mem_cons_of_mem a ha')),
      List.nil_append]

theorem incApiCleanup_id (g : CodeGraph) (fi : Nat)
    (h : ∀ e ∈ g.edges, ¬ e.kind = EdgeKind.ApiCall) :
    g.incApiCleanup fi = g := by
  have hids : g.apiEdgeIds fi = [] := by
    rw [CodeGraph.apiEdgeIds]
    refine flatMap_eq_nil_of _ _ ?_
    intro s _
    have hout : g.edges.enum.filter (fun ie =>
        decide (ie.2.src = s ∧ ie.2.kind = EdgeKind.ApiCall)) = [] :=
      List.filter_eq_nil_iff.2 (fun ie hie habs =>
        h ie.2 (snd_mem_of_mem_enumFrom g.edges 0 ie hie)
          (of_decide_eq_true habs).2)
    have hin : g.edges.enum.filter (fun ie =>
        decide (ie.2.tgt = s ∧ ie.2.kind = EdgeKind.ApiCall)) = [] :=
      List.filter_eq_nil_iff.2 (fun ie hie habs =>
        h ie.2 (snd_mem_of_mem_enumFrom g.edges 0 ie hie)
          (of_decide_eq_true habs).2)
    rw [hout, hin]
    rfl
  show { g with edges := ((g.apiEdgeIds fi).foldl removeEdgeSwap
    g.edges) } = g
  rw [hids]
  rfl

theorem mem_apush {κ β : Type} [DecidableEq κ]
    (m : List (κ × List β)) (k : κ) (v : β) (q : κ × List β)
    (hq : q ∈ apush m k v) : q ∈ m ∨ q.1 = k := by
  rw [apush] at hq
  split at hq
  · rcases mem_ainsert _ _ _ _ hq with hin | he
    · exact Or.inl hin
    · rw [he]; exact Or.inr rfl
  · rcases List.mem_append.1 hq with hin | hin
    · exact Or.inl hin
    · rw [List.mem_singleton.1 hin]; exact Or.inr rfl

theorem build_phase4_single_id (g : CodeGraph) (ex : FileExtractions)
    (h4 : ∀ d ∈ ex.api_endpoints, ∀ c ∈ ex.api_endpoints,
      d.kind = ApiEndpointKind.Defines →
      c.kind = ApiEndpointKind.Consumes →
      ¬ normalize_api_url d.url = normalize_api_url c.url) :
    g.build_phase4 [ex] = g := by
  have hchar : (∀ q ∈ (g.apiBuckets [ex]).1, ∃ ep ∈ ex.api_endpoints,
        ep.kind = ApiEndpointKind.Defines ∧
        q.1 = normalize_api_url ep.url) ∧
      (∀ q ∈ (g.apiBuckets [ex]).2, ∃ ep ∈ ex.api_endpoints,
        ep.kind = ApiEndpointKind.Consumes ∧
        q.1 = normalize_api_url ep.url) := by
    refine foldl_inv_mem
      (fun (dc : List (Str × List Nat) × List (Str × Nat)) =>
        (∀ q ∈ dc.1, ∃ ep ∈ ex.api_endpoints,
          ep.kind = ApiEndpointKind.Defines ∧
          q.1 = normalize_api_url ep.url) ∧
        (∀ q ∈ dc.2, ∃ ep ∈ ex.api_endpoints,
          ep.kind = ApiEndpointKind.Consumes ∧
          q.1 = normalize_api_url ep.url))
      ex.api_endpoints _ ?_ ([], [])
      ⟨fun q hq => absurd hq (List.not_mem_nil q),
       fun q hq => absurd hq (List.not_mem_nil q)⟩
    intro dc ep hep hP
    cases hsc : ep.scope.bind (fun scope_name =>
        alookup g.qualified_index (ex.file_path, scope_name)) with
    | none =>
      simp only [hsc]
      exact hP
    | some idx =>
      simp only [hsc]
      cases hk : ep.kind with
      | Defines =>
        refine ⟨?_, hP.2⟩
        intro q hq
        rcases mem_apush _ _ _ _ hq with hin | hu
        · exact hP.1 q hin
        · exact ⟨ep, hep, hk, hu⟩
      | Consumes =>
        refine ⟨hP.1, ?_⟩
        intro q hq
        rcases List.mem_append.1 hq with hin | hin
        · exact hP.2 q hin
        · exact ⟨ep, hep, hk, by rw [List.mem_singleton.1 hin]⟩
  have hnone : ∀ uc ∈ (g.apiBuckets [ex]).2,
      alookup (g.apiBuckets [ex]).1 uc.1 = none := by
    intro uc huc
    cases hl : alookup (g.apiBuckets [ex]).1 uc.1 with
    | none => rfl
    | some idxs =>
      obtain ⟨d, hd, hdk, hdurl⟩ := hchar.1 (uc.1, idxs) (alookup_mem _ _ _ hl)
      obtain ⟨c, hc, hck, hcurl⟩ := hchar.2 uc huc
      exact absurd (hdurl.symm.trans hcurl) (h4 d hd c hc hdk hck)
  have hfold : ∀ (l : List (Str × Nat)) (g' : CodeGraph),
      (∀ uc ∈ l, alookup (g.apiBuckets [ex]).1 uc.1 = none) →
      l.foldl
        (fun g' uc =>
          match alookup (g.apiBuckets [ex]).1 uc.1 with
          | some provider_indexes =>
            provider_indexes.foldl
              (fun g provider_idx =>
                g.add_edge uc.2 provider_idx .ApiCall) g'
          | none => g')
        g' = g' := by
    intro l
    induction l with
    | nil => intro g' _; rfl
    | cons uc l ih =>
      intro g' hn
      rw [List.foldl_cons]
      simp only [hn uc (List.mem_cons_self uc l)]
      exact ih g' (fun uc' h' => hn uc' (List.mem_cons_of_mem uc h'))
  exact hfold (g.apiBuckets [ex]).2 g hnone

theorem chgStep_nil (gq : CodeGraph × List Nat)
    (p : Str × ExtractedSymbol) : chgStep [] gq p = gq := rfl

theorem incChangedPhase_nil_old (g : CodeGraph)
    (nw : List (Str × ExtractedSymbol)) (q : List Nat) :
    g.incChangedPhase [] nw q = (g, q) := by
  rw [incChangedPhase_eq]
  have go : ∀ (l : List (Str × ExtractedSymbol)) (gq : CodeGraph × List Nat),
      l.foldl (chgStep []) gq = gq := by
    intro l
    induction l with
    | nil => intro gq; rfl
    | cons p l ih => intro gq; rw [List.foldl_cons, chgStep_nil, ih]
  exact go nw (g, q)

/-- **C2 (amended).**  For an extraction `E` whose symbol names are
duplicate-free and whose import paths collide neither with its symbol
names nor with its call callers, and whose own endpoints contain no
matching `Defines`/`Consumes` pair, `build_from_extractions [E]` and
`add_file(f); update_file_incremental(f, E)` from the empty graph produce
the *same* graph, hence agree on `search`, `dependents`, `dependencies`,
`symbols_in_file` and `stats`.  (Without these side conditions the plain
claim fails: see `C2_counterexample`.) -/
theorem C2_build_vs_incremental (ex : FileExtractions)
    (h1 : (ex.symbols.map (·.name)).Nodup)
    (h2 : ∀ imp ∈ ex.imports, ∀ s ∈ ex.symbols, ¬ imp.path = s.name)
    (h3 : ∀ imp ∈ ex.imports, ∀ c ∈ ex.calls, ¬ imp.path = c.caller)
    (h4 : ∀ d ∈ ex.api_endpoints, ∀ c ∈ ex.api_endpoints,
      d.kind = ApiEndpointKind.Defines →
      c.kind = ApiEndpointKind.Consumes →
      ¬ normalize_api_url d.url = normalize_api_url c.url) :
    CodeGraph.new.build_from_extractions [ex] =
      (CodeGraph.new.add_file ex.file_path).1.update_file_incremental
        ex.file_path ex ∧
    (∀ q lim, (CodeGraph.new.build_from_extractions [ex]).search q lim =
      ((CodeGraph.new.add_file ex.file_path).1.update_file_incremental
        ex.file_path ex).search q lim) ∧
    (∀ na, (CodeGraph.new.build_from_extractions [ex]).dependents na =
      ((CodeGraph.new.add_file ex.file_path).1.update_file_incremental
        ex.file_path ex).dependents na) ∧
    (∀ na, (CodeGraph.new.build_from_extractions [ex]).dependencies na =
      ((CodeGraph.new.add_file ex.file_path).1.update_file_incremental
        ex.file_path ex).dependencies na) ∧
    (∀ p, (CodeGraph.new.build_from_extractions [ex]).symbols_in_file p =
      ((CodeGraph.new.add_file ex.file_path).1.update_file_incremental
        ex.file_path ex).symbols_in_file p) ∧
    (CodeGraph.new.build_from_extractions [ex]).stats =
      ((CodeGraph.new.add_file ex.file_path).1.update_file_incremental
        ex.file_path ex).stats := by
  have hqiG1 : (c2G1 ex).qualified_index = [] := rfl
  have h1len : (c2G1 ex).nodes.length = 1 := rfl
  have hqi : ∀ p ∈ (c2GI ex).qualified_index,
      (∃ s ∈ ex.symbols, p.1 = (ex.file_path, s.name) ∧ 1 ≤ p.2 ∧
        p.2 < 1 + ex.symbols.length) ∨
      (∃ imp ∈ ex.imports, p.1 = (ex.file_path, imp.path)) := by
    intro p hp
    rcases ingest_imports_qi_sub 0 ex.file_path ex.imports (c2S ex) p hp
      with hin | himp
    · rcases symFold_qi_sub 0 ex.file_path ex.symbols (c2G1 ex) p hin with
        hin0 | ⟨s, hs, he, hlo, hhi⟩
      · exact absurd (hqiG1 ▸ hin0) (List.not_mem_nil p)
      · rw [h1len] at hlo hhi
        exact Or.inl ⟨s, hs, he, hlo, hhi⟩
    · exact Or.inr himp
  have hkey1 : ∀ c ∈ ex.calls, ∀ i,
      alookup (c2GI ex).qualified_index (ex.file_path, c.caller) = some i →
      i ∈ List.range' 1 ex.symbols.length := by
    intro c hc i hlk
    rcases hqi ((ex.file_path, c.caller), i) (alookup_mem _ _ _ hlk) with
      ⟨s, hs, he, hlo, hhi⟩ | ⟨imp, himp, he⟩
    · exact List.mem_range'_1.2 ⟨hlo, hhi⟩
    · exact absurd (congrArg Prod.snd he).symm (h3 imp himp c hc)
  have hkey2 : ∀ s ∈ ex.symbols, ∀ i,
      alookup (c2GI ex).qualified_index (ex.file_path, s.name) = some i →
      i ∈ List.range' 1 ex.symbols.length := by
    intro s hs i hlk
    rcases hqi ((ex.file_path, s.name), i) (alookup_mem _ _ _ hlk) with
      ⟨s', hs', he, hlo, hhi⟩ | ⟨imp, himp, he⟩
    · exact List.mem_range'_1.2 ⟨hlo, hhi⟩
    · exact absurd (congrArg Prod.snd he).symm (h2 imp himp s hs)
  have hCL_GI : ∀ nd ∈ (c2GI ex).nodes, nd.call_lines = [] := by
    refine ingest_imports_callLines 0 ex.file_path ex.imports (c2S ex) ?_
    refine symFold_callLines 0 ex.file_path ex.symbols (c2G1 ex) ?_
    intro nd hnd
    rw [show (c2G1 ex).nodes = [NodeData.new_file ex.file_path] from rfl]
      at hnd
    rw [List.mem_singleton.1 hnd]
    rfl
  have hS_edges_kind : ∀ e ∈ (c2S ex).edges, e.kind = EdgeKind.Defines :=
    symFold_edges_kind 0 ex.file_path ex.symbols (c2G1 ex)
      (fun e he => absurd (show e ∈ ([] : List Edge) from he)
        (List.not_mem_nil e))
  have hGI_edges : ∀ e ∈ (c2GI ex).edges, ¬ e.kind = EdgeKind.ApiCall := by
    intro e he
    rcases ingest_imports_edges_sub 0 ex.file_path ex.imports (c2S ex) e he
      with hin | hk
    · intro habs
      rw [hS_edges_kind e hin] at habs
      exact EdgeKind.noConfusion habs
    · intro habs
      rw [hk] at habs
      exact EdgeKind.noConfusion habs
  have hcalls := callsFold_inv ex.file_path
    (List.range' 1 ex.symbols.length) (c2GI ex).qualified_index ex.calls
    hkey1 (c2GI ex) rfl
    (fun i nd hget => Or.inr (hCL_GI nd (List.get?_mem hget)))
    hGI_edges
  have hqi_GC : (c2GC ex).qualified_index = (c2GI ex).qualified_index :=
    hcalls.1
  have hCL2_GC : ∀ i nd, (c2GC ex).nodes.get? i = some nd →
      i ∈ List.range' 1 ex.symbols.length ∨ nd.call_lines = [] :=
    hcalls.2.1
  have hlen_GC : (c2GC ex).nodes.length = (c2GI ex).nodes.length :=
    hcalls.2.2.1
  have hApi_GC : ∀ e ∈ (c2GC ex).edges, ¬ e.kind = EdgeKind.ApiCall :=
    hcalls.2.2.2
  have hlenGI : (c2GI ex).nodes.length =
      1 + ex.symbols.length + ex.imports.length := by
    show ((c2S ex).ingest_imports 0 ex.file_path ex.imports).nodes.length = _
    rw [ingest_imports_nodes_length,
      show (c2S ex).nodes.length = 1 + ex.symbols.length from by
        show (ex.symbols.foldl _ (c2G1 ex)).nodes.length = _
        rw [symFold_length]
        rfl]
  have hnoop0 : ∀ i ∈ [0], ∀ nd, (c2GC ex).nodes.get? i = some nd →
      nd.call_lines = [] := by
    intro i hi nd hget
    rw [List.mem_singleton.1 hi] at hget
    rcases hCL2_GC 0 nd hget with hmem | hcl
    · have := List.mem_range'_1.1 hmem
      omega
    · exact hcl
  have hfinA : (c2GC ex).finalize_call_lines
      (List.range (c2GC ex).nodes.length) = c2GF ex := by
    rw [hlen_GC, hlenGI, List.range_eq_range',
      range'_split 0 (1 + ex.symbols.length) ex.imports.length,
      range'_split 0 1 ex.symbols.length, Nat.zero_add, Nat.zero_add,
      finalize_append, finalize_append,
      show List.range' 0 1 = [0] from rfl,
      finalize_noop [0] (c2GC ex) hnoop0,
      show (c2GC ex).finalize_call_lines
        (List.range' 1 ex.symbols.length) = c2GF ex from rfl]
    refine finalize_noop _ _ ?_
    intro i hi nd hget
    have hi' := List.mem_range'_1.1 hi
    have hne : i ∉ List.range' 1 ex.symbols.length := by
      intro hmem
      have := List.mem_range'_1.1 hmem
      omega
    have hget' : (c2GC ex).nodes.get? i = some nd := by
      rw [← finalize_get?_ne (List.range' 1 ex.symbols.length)
        (c2GC ex) i hne]
      exact hget
    rcases hCL2_GC i nd hget' with hmem | hcl
    · exact absurd hmem hne
    · exact hcl
  have hqi_GF : (c2GF ex).qualified_index = (c2GI ex).qualified_index := by
    show ((c2GC ex).finalize_call_lines _).qualified_index = _
    rw [finalize_qualified]
    exact hqi_GC
  have hcont : (c2GF ex).resolve_contains ex.file_path ex.symbols
      (some (List.range' 1 ex.symbols.length)) = c2GR ex :=
    resolve_contains_some_eq ex.file_path _ ex.symbols (c2GF ex)
      (fun s hs i hlk => hkey2 s hs i (by rwa [hqi_GF] at hlk))
  have hApi_GR : ∀ e ∈ (c2GR ex).edges, ¬ e.kind = EdgeKind.ApiCall := by
    intro e he
    rcases resolve_contains_edges_sub ex.file_path none ex.symbols
      (c2GF ex) e he with hin | hk
    · rw [show (c2GF ex).edges = (c2GC ex).edges from finalize_edges _ _]
        at hin
      exact hApi_GC e hin
    · intro habs
      rw [hk] at habs
      exact EdgeKind.noConfusion habs
  have hpair : CodeGraph.new.add_file ex.file_path = (c2G1 ex, 0) := rfl
  have hphase1 : CodeGraph.new.build_phase1 [ex] = c2GI ex := by
    simp only [CodeGraph.build_phase1, List.foldl_cons, List.foldl_nil,
      hpair]
    rfl
  have hphase2 : (c2GI ex).build_phase2 [ex] = c2GC ex := by
    simp only [CodeGraph.build_phase2, List.foldl_cons, List.foldl_nil]
    rfl
  have hA : CodeGraph.new.build_from_extractions [ex] = c2GR ex := by
    simp only [CodeGraph.build_from_extractions, hphase1, hphase2, hfinA,
      List.foldl_cons, List.foldl_nil]
    rw [build_phase4_single_id
      ((c2GF ex).resolve_contains ex.file_path ex.symbols none) ex h4]
    rfl
  have hfi : alookup (c2G1 ex).file_index ex.file_path = some 0 := by
    rw [show (c2G1 ex).file_index = [(ex.file_path, 0)] from rfl,
      alookup_cons, if_pos rfl]
  have haddfile : (c2G1 ex).add_file ex.file_path = (c2G1 ex, 0) :=
    add_file_live_eq (c2G1 ex) ex.file_path 0
      (NodeData.new_file ex.file_path) hfi rfl rfl
  have e3 : newSymbolsMap ex = ex.symbols.map (fun s => (s.name, s)) :=
    newSymbolsMap_eq_map ex h1
  have e5 : (c2G1 ex).incAddedPhase 0 ex.file_path []
      (ex.symbols.map (fun s => (s.name, s))) =
      (c2S ex, List.range' 1 ex.symbols.length) := by
    rw [incAddedPhase_nil_old, List.length_map, List.foldl_map]
    rfl
  have e6 : (c2S ex).incChangedPhase []
      (ex.symbols.map (fun s => (s.name, s)))
      (List.range' 1 ex.symbols.length) =
      (c2S ex, List.range' 1 ex.symbols.length) :=
    incChangedPhase_nil_old _ _ _
  have e7 : (c2S ex).incImportsPhase 0 ex.file_path ex.imports =
      c2GI ex := by
    have hnoimp : ∀ e ∈ (c2S ex).edges, ¬ e.kind = EdgeKind.Imports := by
      intro e he habs
      rw [hS_edges_kind e he] at habs
      exact EdgeKind.noConfusion habs
    rw [incImportsPhase_no_imports _ _ _ _ hnoimp]
    rfl
  have e8 : (c2GI ex).incCallsPhase ex.file_path ex.calls
      (List.range' 1 ex.symbols.length) = c2GC ex :=
    incCalls_eq_fold ex.file_path _ ex.calls (c2GI ex) hkey1
  have e11 : (c2GR ex).incApiCleanup 0 = c2GR ex :=
    incApiCleanup_id _ _ hApi_GR
  have hB : (c2G1 ex).update_file_incremental ex.file_path ex =
      c2GR ex := by
    simp only [CodeGraph.update_file_incremental, haddfile,
      show (c2G1 ex).old_symbols_of 0 = [] from rfl, e3,
      show (c2G1 ex).incRemovedPhase []
        (ex.symbols.map (fun s => (s.name, s))) = c2G1 ex from rfl,
      e5, e6, e7, e8,
      show (c2GC ex).finalize_call_lines
        (List.range' 1 ex.symbols.length) = c2GF ex from rfl,
      hcont, e11]
  have hmain : CodeGraph.new.build_from_extractions [ex] =
      (CodeGraph.new.add_file ex.file_path).1.update_file_incremental
        ex.file_path ex := by
    rw [hA]
    exact hB.symm
  exact ⟨hmain, fun q lim => by rw [hmain], fun na => by rw [hmain],
    fun na => by rw [hmain], fun p => by rw [hmain], by rw [hmain]⟩

/-- Witness for `C2_build_vs_incremental`: for the one-symbol extraction
`exStale0` (nodup names, no imports, a self-call, no endpoints) the two
pipelines give the same graph, hence the same `stats`. -/
theorem C2_build_vs_incremental_witness :
    CodeGraph.new.build_from_extractions [exStale0] =
      (CodeGraph.new.add_file exStale0.file_path).1.update_file_incremental
        exStale0.file_path exStale0 ∧
    (CodeGraph.new.build_from_extractions [exStale0]).stats =
      ((CodeGraph.new.add_file
          exStale0.file_path).1.update_file_incremental
        exStale0.file_path exStale0).stats :=
  ⟨(C2_build_vs_incremental exStale0 (by decide) (by decide) (by decide)
      (by decide)).1,
   (C2_build_vs_incremental exStale0 (by decide) (by decide) (by decide)
      (by decide)).2.2.2.2.2⟩

end Anchor
